import Mathlib

/-!
# GraviT domain tracer: termination voter and ray transfer

A shallow embedding of `gvt/render/unit/TpcVoter.cpp` and of
`gvt/render/unit/DomainTracer.cpp` (the owner map of the constructor, the local
filter, the selection scan of the frame loop and the transfer step), with the
properties of the two-phase-commit termination vote and of the ray transfer
proved over it.

Conventions of the embedding:

* a C++ `int` is an `Int` kept in range by `wrapInt` wherever the code does
  arithmetic on it;
* an object is a structure, a member function is a function taking the object
  first and returning the updated object together with what it sent;
* the messages a member function hands to the communicator are returned as a
  list, in program order;
* `assert` is a failure of the call (`none`).
-/

namespace GraviT

/-! ## Machine integers -/

/-- Two's-complement reduction of an integer to the range of a 32-bit `int`. -/
def wrapInt (x : Int) : Int := (x + 2147483648) % 4294967296 - 2147483648

/-- Range of a 32-bit `int`. -/
def IsInt32 (x : Int) : Prop := -2147483648 ≤ x ∧ x ≤ 2147483647

instance (x : Int) : Decidable (IsInt32 x) := by
  unfold IsInt32; exact inferInstance

/-! ## Voter data model (`TpcVoter.h`, `TpcVoter.cpp`) -/

/-- World description handed to every unit: `rank` of this process and the
number `size` of processes. -/
structure MpiInfo where
  rank : Int
  size : Int
deriving DecidableEq, Repr

/-- Modelled from the spec: the constant `COORDINATOR` of `TpcVoter.h`, which
is not part of the sources at hand; "rank 0 is the coordinator". -/
def COORDINATOR : Int := 0

/-- States of the voter, in the order of `stateNames` in the constructor. -/
inductive State where
  | PREPARE_COORDINATOR
  | PROPOSE
  | PREPARE_COHORT
  | VOTE
  | TERMINATE
deriving DecidableEq, Repr

/-- Kinds of vote message, `Vote::PROPOSE` .. `Vote::VOTE_ABORT`. -/
inductive VoteType where
  | PROPOSE
  | DO_COMMIT
  | DO_ABORT
  | VOTE_COMMIT
  | VOTE_ABORT
deriving DecidableEq, Repr

/-- A vote message as built by `new Vote(voteWorkType, mpi.rank)`. -/
structure Vote where
  voteWorkType : VoteType
  sender : Int
deriving DecidableEq, Repr

/-- What the voter hands to the communicator: `work->SendAllOther(comm)` or
`work->Send(dst, comm)`. -/
inductive VoteSend where
  | SendAllOther (work : Vote)
  | Send (dst : Int) (work : Vote)
deriving DecidableEq, Repr

/-- Data members of `TpcVoter` (the references to the tracer, the communicator
and the worker are passed to the member functions that use them). -/
structure TpcVoter where
  mpi : MpiInfo
  state : State
  numPendingRays : Int
  allVotesAvailable : Bool
  numVotesReceived : Int
  commitVoteCount : Int
  commitAbortAvailable : Bool
  doCommit : Bool
  proposeAvailable : Bool
deriving DecidableEq, Repr

namespace TpcVoter

/-- Constructor `TpcVoter::TpcVoter`. -/
def new (mpi : MpiInfo) : TpcVoter :=
  { mpi := mpi
    state := if mpi.rank = COORDINATOR then State.PREPARE_COORDINATOR else State.PREPARE_COHORT
    numPendingRays := 0
    allVotesAvailable := false
    numVotesReceived := 0
    commitVoteCount := 0
    commitAbortAvailable := false
    doCommit := false
    proposeAvailable := false }

/-- Member `TpcVoter::reset`. -/
def reset (v : TpcVoter) : TpcVoter :=
  { v with
    state := if v.mpi.rank = COORDINATOR then State.PREPARE_COORDINATOR else State.PREPARE_COHORT
    numPendingRays := 0
    allVotesAvailable := false
    numVotesReceived := 0
    commitVoteCount := 0
    commitAbortAvailable := false
    doCommit := false
    proposeAvailable := false }

/-- Member `TpcVoter::addNumPendingRays`. -/
def addNumPendingRays (v : TpcVoter) (n : Int) : TpcVoter :=
  { v with numPendingRays := wrapInt (v.numPendingRays + n) }

/-- Member `TpcVoter::subtractNumPendingRays`; `none` when the assertion
`numPendingRays >= 0` fails. -/
def subtractNumPendingRays (v : TpcVoter) (n : Int) : Option TpcVoter :=
  let m := wrapInt (v.numPendingRays - n)
  if 0 ≤ m then some { v with numPendingRays := m } else none

/-- Member `TpcVoter::hasWork`; `tracerIsDone` is the value of
`tracer.IsDone()`. -/
def hasWork (v : TpcVoter) (tracerIsDone : Bool) : Bool :=
  !(tracerIsDone && v.numPendingRays == 0)

/-- Member `TpcVoter::achievedConsensus`. -/
def achievedConsensus (v : TpcVoter) : Bool :=
  v.commitVoteCount == v.mpi.size - 1

/-- Member `TpcVoter::broadcast`: the message handed to the communicator. -/
def broadcast (v : TpcVoter) (voteWorkType : VoteType) : VoteSend :=
  VoteSend.SendAllOther { voteWorkType := voteWorkType, sender := v.mpi.rank }

/-- Member `TpcVoter::sendVote`: the message handed to the communicator. -/
def sendVote (v : TpcVoter) (voteWorkType : VoteType) : VoteSend :=
  VoteSend.Send COORDINATOR { voteWorkType := voteWorkType, sender := v.mpi.rank }

/-- Result of one call of `updateState`. -/
structure Tick where
  voter : TpcVoter
  sent : List VoteSend
  allDone : Bool
deriving DecidableEq, Repr

/-- Member `TpcVoter::updateState`, one step of the state machine. -/
def updateState (v : TpcVoter) (tracerIsDone : Bool) : Tick :=
  match v.state with
  | State.PREPARE_COORDINATOR =>
    if !v.hasWork tracerIsDone then
      { voter := { v with state := State.PROPOSE }
        sent := [v.broadcast VoteType.PROPOSE]
        allDone := false }
    else { voter := v, sent := [], allDone := false }
  | State.PROPOSE =>
    if v.allVotesAvailable then
      if v.achievedConsensus then
        { voter := { v with
            state := State.TERMINATE
            numVotesReceived := 0
            commitVoteCount := 0
            allVotesAvailable := false }
          sent := [v.broadcast VoteType.DO_COMMIT]
          allDone := true }
      else
        { voter := { v with
            state := State.PREPARE_COORDINATOR
            numVotesReceived := 0
            commitVoteCount := 0
            allVotesAvailable := false }
          sent := [v.broadcast VoteType.DO_ABORT]
          allDone := false }
    else { voter := v, sent := [], allDone := false }
  | State.PREPARE_COHORT =>
    if v.proposeAvailable then
      let v1 := { v with state := State.VOTE, proposeAvailable := false }
      if v1.hasWork tracerIsDone then
        { voter := v1, sent := [v1.sendVote VoteType.VOTE_ABORT], allDone := false }
      else
        { voter := v1, sent := [v1.sendVote VoteType.VOTE_COMMIT], allDone := false }
    else { voter := v, sent := [], allDone := false }
  | State.VOTE =>
    if v.commitAbortAvailable then
      if v.doCommit then
        { voter := { v with state := State.TERMINATE }, sent := [], allDone := true }
      else
        { voter := { v with state := State.PREPARE_COHORT, commitAbortAvailable := false }
          sent := []
          allDone := false }
    else { voter := v, sent := [], allDone := false }
  | State.TERMINATE => { voter := v.reset, sent := [], allDone := false }

/-- Member `TpcVoter::setProposeAvailable`. -/
def setProposeAvailable (v : TpcVoter) : TpcVoter :=
  { v with proposeAvailable := true }

/-- Member `TpcVoter::voteCommit`. -/
def voteCommit (v : TpcVoter) : TpcVoter :=
  let c := wrapInt (v.commitVoteCount + 1)
  let n := wrapInt (v.numVotesReceived + 1)
  { v with
    commitVoteCount := c
    numVotesReceived := n
    allVotesAvailable := if n = v.mpi.size - 1 then true else v.allVotesAvailable }

/-- Member `TpcVoter::voteAbort`. -/
def voteAbort (v : TpcVoter) : TpcVoter :=
  let n := wrapInt (v.numVotesReceived + 1)
  { v with
    numVotesReceived := n
    allVotesAvailable := if n = v.mpi.size - 1 then true else v.allVotesAvailable }

/-- Member `TpcVoter::commit`. -/
def commit (v : TpcVoter) : TpcVoter :=
  { v with commitAbortAvailable := true, doCommit := true }

/-- Member `TpcVoter::abort`. -/
def abort (v : TpcVoter) : TpcVoter :=
  { v with commitAbortAvailable := true }

/-- Member `TpcVoter::isCommunicationAllowed`. -/
def isCommunicationAllowed (v : TpcVoter) : Bool :=
  (v.mpi.rank == COORDINATOR && v.state == State.PREPARE_COORDINATOR) ||
  (v.mpi.rank != COORDINATOR && v.state == State.PREPARE_COHORT)

end TpcVoter

/-- Modelled from the spec: `Work::SendAllOther` of the communicator layer,
which is not part of the sources at hand; "send_all_others(msg) — to every
peer except self". The result lists the destination of every copy, peers in
ascending order of rank. -/
def SendAllOther (mpi : MpiInfo) (work : Vote) : List (Int × Vote) :=
  ((List.range mpi.size.toNat).filter (fun (i : Nat) => decide ((i : Int) ≠ mpi.rank))).map
    (fun (i : Nat) => ((i : Int), work))

/-- Copies put on the wire by one hand-over to the communicator. -/
def VoteSend.deliveries (mpi : MpiInfo) : VoteSend → List (Int × Vote)
  | VoteSend.SendAllOther work => GraviT.SendAllOther mpi work
  | VoteSend.Send dst work => [(dst, work)]

/-! ## Ray queues (`DomainTracer`) -/

/-- The member `queue` of the tracer, a `std::map<int, RayVector>`: the
buckets in ascending order of instance id. -/
abbrev RayQueues (Ray : Type) := List (Int × List Ray)

/-- Modelled from the spec: `RayTracer::IsDone` of the tracer, declared in
a header that is not part of the sources at hand; "all local queues empty". -/
def IsDone {Ray : Type} (queue : RayQueues Ray) : Bool :=
  queue.all (fun q => q.2.isEmpty)

/-! ## Events on one voter -/

/-- Modelled from the spec: the action of a received `Vote` message
(`Vote::Action`, in a file that is not part of the sources at hand); "for VOTE
tag, invokes the voter entry point directly": `on_propose`, `on_commit`,
`on_abort`, `on_vote_commit`, `on_vote_abort`. -/
def receiveVote (v : TpcVoter) : VoteType → TpcVoter
  | VoteType.PROPOSE => v.setProposeAvailable
  | VoteType.DO_COMMIT => v.commit
  | VoteType.DO_ABORT => v.abort
  | VoteType.VOTE_COMMIT => v.voteCommit
  | VoteType.VOTE_ABORT => v.voteAbort

/-- Calls that reach one voter: a tick of the tracer loop (with the value of
`tracer.IsDone()` at that tick), the arrival of a vote message, and the
pending-ray bookkeeping of the transfer plane. -/
inductive VoterEvent where
  | tick (tracerIsDone : Bool)
  | vote (t : VoteType)
  | add_pending (n : Int)
  | sub_pending (n : Int)
deriving DecidableEq, Repr

/-- Effect of one call on the voter; `none` when an assertion fails. -/
def VoterEvent.apply (v : TpcVoter) : VoterEvent → Option TpcVoter
  | VoterEvent.tick d => some (v.updateState d).voter
  | VoterEvent.vote t => some (receiveVote v t)
  | VoterEvent.add_pending n => some (v.addNumPendingRays n)
  | VoterEvent.sub_pending n => v.subtractNumPendingRays n

/-- Effect of a sequence of calls, first call first. -/
def runVoter (v : TpcVoter) : List VoterEvent → Option TpcVoter
  | [] => some v
  | e :: es => (e.apply v).bind (fun w => runVoter w es)

/-- States the voter of the given rank is meant to use: the coordinator states
on rank 0, the cohort states elsewhere. -/
def StateOfRank (rank : Int) (s : State) : Prop :=
  if rank = COORDINATOR then
    s = State.PREPARE_COORDINATOR ∨ s = State.PROPOSE ∨ s = State.TERMINATE
  else
    s = State.PREPARE_COHORT ∨ s = State.VOTE ∨ s = State.TERMINATE

/-- A coordinator configuration at the start of a round: waiting for votes,
none counted yet. -/
def RoundStart (v : TpcVoter) : Prop :=
  v.state = State.PROPOSE ∧ v.numVotesReceived = 0 ∧ v.commitVoteCount = 0 ∧
    v.allVotesAvailable = false

/-! ## Transfer plane (`DomainTracer.cpp`) -/

/-- Values of `RemoteRays::Header::transfer_type`. -/
inductive TransferType where
  | Request
  | Grant
deriving DecidableEq, Repr

/-- The header `RemoteRays::Header` as `SendRays` and `RecvRays` fill it; the
field `instance` is spelled `inst`, and `num_rays` holds the count itself (the
widths of the fields are declared in a header that is not part of the sources
at hand). -/
structure Header where
  transfer_type : TransferType
  sender : Int
  inst : Int
  num_rays : Int
deriving DecidableEq, Repr

/-- A `RemoteRays` work item: header and ray payload (empty for a grant). -/
structure RemoteRays (Ray : Type) where
  header : Header
  rays : List Ray
deriving DecidableEq, Repr

/-- Work items that travel between ranks. -/
inductive Work (Ray : Type) where
  | vote (w : Vote)
  | remoteRays (w : RemoteRays Ray)
deriving DecidableEq, Repr

/-- Bucket of instance `i` with `rs` appended, `r.insert(r.end(), begin, end)`
on `queue[i]`. -/
def RayQueues.appendTo {Ray : Type} (queue : RayQueues Ray) (i : Int) (rs : List Ray) :
    RayQueues Ray :=
  queue.map (fun q => if q.1 = i then (q.1, q.2 ++ rs) else q)

/-- New empty bucket for instance `i`, `queue[i] = RayVector()` on a map that
has no such key; the keys stay in ascending order. -/
def RayQueues.insertEmpty {Ray : Type} : RayQueues Ray → Int → RayQueues Ray
  | [], i => [(i, [])]
  | q :: rest, i => if i < q.1 then (i, []) :: q :: rest else q :: RayQueues.insertEmpty rest i

/-- Test `queue.find(instance) != queue.end()`. -/
def RayQueues.contains {Ray : Type} (queue : RayQueues Ray) (i : Int) : Bool :=
  queue.any (fun q => q.1 == i)

/-- Member `DomainTracer::CopyRays`: the `num_rays` rays of the buffer are
appended to the bucket of the message's instance, which is created when the
map has none. -/
def CopyRays {Ray : Type} (queue : RayQueues Ray) (rays : RemoteRays Ray) : RayQueues Ray :=
  let payload := rays.rays.take rays.header.num_rays.toNat
  if queue.contains rays.header.inst then
    queue.appendTo rays.header.inst payload
  else
    (queue.insertEmpty rays.header.inst).appendTo rays.header.inst payload

/-- Result of `SendRays`: the voter, the queues, and the messages handed to the
communicator with their destination, in program order. -/
structure Sending (Ray : Type) where
  voter : TpcVoter
  queue : RayQueues Ray
  sent : List (Int × Work Ray)

/-- Member `DomainTracer::SendRays`: the loop over the buckets of `queue` in
key order. `mpiInstanceMap` is the owner map filled by the constructor, `rank`
is `mpiInfo.rank`. -/
def SendRays {Ray : Type} (mpiInstanceMap : Int → Int) (rank : Int) (voter : TpcVoter) :
    RayQueues Ray → Sending Ray
  | [] => { voter := voter, queue := [], sent := [] }
  | q :: rest =>
    let owner_process := mpiInstanceMap q.1
    let num_rays_to_send := q.2.length
    if owner_process ≠ rank ∧ 0 < num_rays_to_send then
      let voter1 := voter.addNumPendingRays (wrapInt num_rays_to_send)
      let header : Header :=
        { transfer_type := TransferType.Request
          sender := rank
          inst := q.1
          num_rays := num_rays_to_send }
      let r := SendRays mpiInstanceMap rank voter1 rest
      { voter := r.voter
        queue := (q.1, []) :: r.queue
        sent := (owner_process, Work.remoteRays { header := header, rays := q.2 }) :: r.sent }
    else
      let r := SendRays mpiInstanceMap rank voter rest
      { voter := r.voter, queue := q :: r.queue, sent := r.sent }

/-- Result of `RecvRays`: the queues, the work queue as the loop leaves it, and
the grants handed to the communicator in program order. -/
structure Receiving (Ray : Type) where
  queue : RayQueues Ray
  workQ : List (RemoteRays Ray)
  sent : List (Int × Work Ray)

/-- Member `DomainTracer::RecvRays`: the loop that empties `workQ`, oldest item
first. -/
def RecvRays {Ray : Type} (rank : Int) (queue : RayQueues Ray) :
    List (RemoteRays Ray) → Receiving Ray
  | [] => { queue := queue, workQ := [], sent := [] }
  | rays :: rest =>
    let queue1 := CopyRays queue rays
    let header : Header :=
      { transfer_type := TransferType.Grant
        sender := rank
        inst := rays.header.inst
        num_rays := rays.header.num_rays }
    let r := RecvRays rank queue1 rest
    { queue := r.queue
      workQ := r.workQ
      sent := (rays.header.sender, Work.remoteRays { header := header, rays := [] }) :: r.sent }

/-- Members of `DomainTracer` that the transfer step reads or writes. -/
structure DomainTracer (Ray : Type) where
  mpiInfo : MpiInfo
  queue : RayQueues Ray
  workQ : List (RemoteRays Ray)
  voter : Option TpcVoter

/-- Constructor `DomainTracer::DomainTracer`, as far as the transfer step is
concerned: a voter exists only in a world of more than one rank. `queue` is
the content of the queues when the frame loop starts. -/
def DomainTracer.new {Ray : Type} (mpiInfo : MpiInfo) (queue : RayQueues Ray) :
    DomainTracer Ray :=
  { mpiInfo := mpiInfo
    queue := queue
    workQ := []
    voter := if 1 < mpiInfo.size then some (TpcVoter.new mpiInfo) else none }

/-- Member functions called by `TransferRays`, for the record of calls. -/
inductive Call where
  | SendRays
  | RecvRays
  | updateState
  | IsDone
deriving DecidableEq, Repr

/-- Result of `TransferRays`: the tracer, the messages handed to the
communicator (copies with their destination), the calls made in program order
and the returned `done`. -/
structure Transfer (Ray : Type) where
  tracer : DomainTracer Ray
  sent : List (Int × Work Ray)
  calls : List Call
  done : Bool

/-- Copies put on the wire by the voter, as work items. -/
def voteWork {Ray : Type} (mpi : MpiInfo) (sent : List VoteSend) : List (Int × Work Ray) :=
  (sent.flatMap (VoteSend.deliveries mpi)).map (fun p => (p.1, Work.vote p.2))

/-- The part of `TransferRays` after the transfer: one `updateState`, then the
final `assert(!done || (done && IsDone()))`. `sent` and `calls` are what the
transfer already produced. -/
def TransferRays.vote {Ray : Type} (t : DomainTracer Ray) (voter : TpcVoter)
    (sent : List (Int × Work Ray)) (calls : List Call) : Option (Transfer Ray) :=
  let tick := voter.updateState (IsDone t.queue)
  let done := tick.allDone
  if !done || (done && IsDone t.queue) then
    some
      { tracer := { t with voter := some tick.voter }
        sent := sent ++ voteWork voter.mpi tick.sent
        calls := calls ++ [Call.updateState]
        done := done }
  else none

/-- Member `DomainTracer::TransferRays`. `none` stands for a call that does
not return: the null voter dereferenced, or the final `assert` failing. -/
def TransferRays {Ray : Type} (mpiInstanceMap : Int → Int) (t : DomainTracer Ray) :
    Option (Transfer Ray) :=
  if 1 < t.mpiInfo.size then
    match t.voter with
    | none => none
    | some voter =>
      if voter.isCommunicationAllowed then
        let s := SendRays mpiInstanceMap t.mpiInfo.rank voter t.queue
        let r := RecvRays t.mpiInfo.rank s.queue t.workQ
        TransferRays.vote { t with queue := r.queue, workQ := r.workQ, voter := some s.voter }
          s.voter (s.sent ++ r.sent) [Call.SendRays, Call.RecvRays]
      else
        TransferRays.vote t voter [] []
  else
    let done := IsDone t.queue
    if !done || (done && IsDone t.queue) then
      some { tracer := t, sent := [], calls := [Call.IsDone], done := done }
    else none

/-! ## The round window of one voter -/

/-- The outcome of the round is there to be consumed by the next tick: all
votes on the coordinator, the decision on a cohort. -/
def outcomeAvailable (v : TpcVoter) : Bool :=
  (v.state == State.PROPOSE && v.allVotesAvailable) ||
  (v.state == State.VOTE && v.commitAbortAvailable)

/-- The calls `es`, made from configuration `v` on, contain no tick that
consumes the outcome of the round. -/
def InWindow : TpcVoter → List VoterEvent → Bool
  | _, [] => true
  | v, e :: es =>
    (match e with
      | VoterEvent.tick _ => !outcomeAvailable v
      | _ => true) &&
    (match e.apply v with
      | none => true
      | some w => InWindow w es)

/-- The tick hands a `PROPOSE` broadcast or a vote for the coordinator to the
communicator. -/
def OpensRound (tick : TpcVoter.Tick) : Prop :=
  ∃ x ∈ tick.sent,
    (∃ sender, x = VoteSend.SendAllOther { voteWorkType := VoteType.PROPOSE, sender := sender }) ∨
    (∃ dst work, x = VoteSend.Send dst work)

/-! ## The world of ranks

All ranks of a frame together with the messages in flight. Every event is one
of the operations of the sources, run to completion on one rank: the
select/trace/shuffle part of a loop iteration, `SendRays`, `RecvRays`, the
voter tick that ends `TransferRays`, and the dispatch of one delivered message
by the communicator thread. The events of one rank may be taken in any order
that the guards allow, which covers the order of the loop. -/

/-- One rank: its tracer, and whether the loop of `Trace` has exited
(`all_done`). -/
structure Node (Ray : Type) where
  tracer : DomainTracer Ray
  finished : Bool

/-- The ranks and, for every ordered pair of ranks, the messages sent and not
yet delivered, oldest first. -/
structure World (Ray : Type) where
  node : Int → Node Ray
  chan : Int → Int → List (Work Ray)

/-- Steps of the world. -/
inductive Event (Ray : Type) where
  | trace (r : Int) (queue : RayQueues Ray)
  | send (r : Int)
  | recv (r : Int)
  | tick (r : Int)
  | deliver (src dst : Int)

/-- The messages of `msgs` addressed to `dst`, in order. -/
def msgsTo {Ray : Type} (dst : Int) (msgs : List (Int × Work Ray)) : List (Work Ray) :=
  (msgs.filter (fun m => m.1 == dst)).map (fun m => m.2)

/-- Rank `r` replaced by `n`. -/
def World.setNode {Ray : Type} (w : World Ray) (r : Int) (n : Node Ray) : World Ray :=
  { w with node := fun k => if k = r then n else w.node k }

/-- The messages `msgs` handed to the communicator of rank `src`: each joins
the channel to its destination. -/
def World.post {Ray : Type} (w : World Ray) (src : Int) (msgs : List (Int × Work Ray)) :
    World Ray :=
  { w with chan := fun a b => if a = src then w.chan a b ++ msgsTo b msgs else w.chan a b }

/-- The oldest message of the channel from `src` to `dst` removed. -/
def World.pop {Ray : Type} (w : World Ray) (src dst : Int) : World Ray :=
  { w with chan := fun a b => if a = src ∧ b = dst then (w.chan a b).tail else w.chan a b }

/-- Every batch that `SendRays` would ship has a ray count that is an `int`
(the count goes through the `int` parameter of `addNumPendingRays`). -/
def batchesFit {Ray : Type} (mpiInstanceMap : Int → Int) (rank : Int)
    (queue : RayQueues Ray) : Bool :=
  queue.all (fun q => mpiInstanceMap q.1 == rank || decide (q.2.length ≤ 2147483647))

/-- Modelled from the spec: the dispatch of a delivered work item by the
communicator thread (`Vote::Action`, `RemoteRays::Action`, in files that are
not part of the sources at hand): a vote "invokes the voter entry point
directly", a `REQUEST` is "enqueue[d] into the tracer's workQ" (`BufferWork`),
a `GRANT` "decrement[s] that rank's pending_rays by ray_count". A grant is not
buffered: `RecvRays` answers every buffered item with a grant of its own.
`none` when the rank has no voter or the assertion of
`subtractNumPendingRays` fails. -/
def dispatch {Ray : Type} (t : DomainTracer Ray) : Work Ray → Option (DomainTracer Ray)
  | Work.vote x =>
    match t.voter with
    | none => none
    | some voter => some { t with voter := some (receiveVote voter x.voteWorkType) }
  | Work.remoteRays rays =>
    match rays.header.transfer_type with
    | TransferType.Request => some { t with workQ := t.workQ ++ [rays] }
    | TransferType.Grant =>
      match t.voter with
      | none => none
      | some voter =>
        match voter.subtractNumPendingRays rays.header.num_rays with
        | none => none
        | some voter1 => some { t with voter := some voter1 }

/-- One step of a world of `N` ranks; `none` when the event is not enabled or
a call does not return. -/
def World.step {Ray : Type} (N : Int) (mpiInstanceMap : Int → Int) (w : World Ray) :
    Event Ray → Option (World Ray)
  | Event.trace r queue =>
    if 0 ≤ r ∧ r < N ∧ (w.node r).finished = false ∧
        IsDone (w.node r).tracer.queue = false then
      some (w.setNode r { w.node r with tracer := { (w.node r).tracer with queue := queue } })
    else none
  | Event.send r =>
    if 0 ≤ r ∧ r < N ∧ (w.node r).finished = false then
      match (w.node r).tracer.voter with
      | none => none
      | some voter =>
        if voter.isCommunicationAllowed = true ∧
            batchesFit mpiInstanceMap (w.node r).tracer.mpiInfo.rank
              (w.node r).tracer.queue = true then
          let s := SendRays mpiInstanceMap (w.node r).tracer.mpiInfo.rank voter
            (w.node r).tracer.queue
          some ((w.setNode r { w.node r with
              tracer := { (w.node r).tracer with queue := s.queue, voter := some s.voter } }).post
            r s.sent)
        else none
    else none
  | Event.recv r =>
    if 0 ≤ r ∧ r < N ∧ (w.node r).finished = false then
      match (w.node r).tracer.voter with
      | none => none
      | some voter =>
        if voter.isCommunicationAllowed = true then
          let s := RecvRays (w.node r).tracer.mpiInfo.rank (w.node r).tracer.queue
            (w.node r).tracer.workQ
          some ((w.setNode r { w.node r with
              tracer := { (w.node r).tracer with queue := s.queue, workQ := s.workQ } }).post
            r s.sent)
        else none
    else none
  | Event.tick r =>
    if 0 ≤ r ∧ r < N ∧ (w.node r).finished = false then
      match (w.node r).tracer.voter with
      | none => none
      | some voter =>
        match TransferRays.vote (w.node r).tracer voter [] [] with
        | none => none
        | some tr =>
          some ((w.setNode r { tracer := tr.tracer, finished := tr.done }).post r tr.sent)
    else none
  | Event.deliver src dst =>
    if 0 ≤ dst ∧ dst < N then
      match w.chan src dst with
      | [] => none
      | m :: _ =>
        match dispatch (w.node dst).tracer m with
        | none => none
        | some t => some ((w.pop src dst).setNode dst { w.node dst with tracer := t })
    else none

/-- A run: the events taken one after the other. -/
def World.run {Ray : Type} (N : Int) (mpiInstanceMap : Int → Int) :
    World Ray → List (Event Ray) → Option (World Ray)
  | w, [] => some w
  | w, e :: es => (w.step N mpiInstanceMap e).bind (fun w1 => World.run N mpiInstanceMap w1 es)

/-- The world when the frame loops start: on every rank a freshly constructed
tracer holding the rays that `FilterRaysLocally` left in its queues, and no
message in flight. -/
def World.init {Ray : Type} (N : Int) (queue : Int → RayQueues Ray) : World Ray :=
  { node := fun r =>
      { tracer := DomainTracer.new { rank := r, size := N } (queue r), finished := false }
    chan := fun _ _ => [] }

/-- The voter of rank `k`. -/
def World.voter {Ray : Type} (w : World Ray) (k : Int) : TpcVoter :=
  (w.node k).tracer.voter.getD (TpcVoter.new { rank := k, size := 0 })

/-- Rank `k` has no ray in a queue and no batch pending: `hasWork()` is false
there. -/
def World.idle {Ray : Type} (w : World Ray) (k : Int) : Prop :=
  IsDone (w.node k).tracer.queue = true ∧ (w.voter k).numPendingRays = 0

/-! ## The invariant of the vote -/

/-- The kinds of the vote messages among `l`, in order. -/
def votesOf {Ray : Type} (l : List (Work Ray)) : List VoteType :=
  l.filterMap (fun m =>
    match m with
    | Work.vote x => some x.voteWorkType
    | Work.remoteRays _ => none)

/-- What the vote protocol sees of a cohort: the state and the flags of its
voter, the votes in flight from the coordinator to it (`down`) and from it to
the coordinator (`up`). -/
structure Shape where
  state : State
  proposeAvailable : Bool
  commitAbortAvailable : Bool
  doCommit : Bool
  down : List VoteType
  up : List VoteType
deriving DecidableEq, Repr

/-- The shape of cohort `i`. -/
def World.shape {Ray : Type} (w : World Ray) (i : Int) : Shape :=
  { state := (w.voter i).state
    proposeAvailable := (w.voter i).proposeAvailable
    commitAbortAvailable := (w.voter i).commitAbortAvailable
    doCommit := (w.voter i).doCommit
    down := votesOf (w.chan 0 i)
    up := votesOf (w.chan i 0) }

namespace Shape

/-- At rest between rounds. -/
def rest : Shape := ⟨State.PREPARE_COHORT, false, false, false, [], []⟩

/-- The abort of the last round is in flight. -/
def abortSent : Shape := ⟨State.VOTE, false, false, false, [VoteType.DO_ABORT], []⟩

/-- The abort of the last round has arrived. -/
def abortHere : Shape := ⟨State.VOTE, false, true, false, [], []⟩

/-- The abort of the last round and the new proposal are in flight. -/
def abortSentProposed : Shape :=
  ⟨State.VOTE, false, false, false, [VoteType.DO_ABORT, VoteType.PROPOSE], []⟩

/-- The abort has arrived, the new proposal is in flight. -/
def abortHereProposed : Shape := ⟨State.VOTE, false, true, false, [VoteType.PROPOSE], []⟩

/-- The abort and the new proposal have both arrived. -/
def abortHereProposeHere : Shape := ⟨State.VOTE, true, true, false, [], []⟩

/-- The proposal is in flight. -/
def proposed : Shape := ⟨State.PREPARE_COHORT, false, false, false, [VoteType.PROPOSE], []⟩

/-- The proposal has arrived. -/
def proposeHere : Shape := ⟨State.PREPARE_COHORT, true, false, false, [], []⟩

/-- The vote `x` is in flight. -/
def voteSent (x : VoteType) : Shape := ⟨State.VOTE, false, false, false, [], [x]⟩

/-- The vote has been counted. -/
def voted : Shape := ⟨State.VOTE, false, false, false, [], []⟩

/-- The commit is in flight. -/
def commitSent : Shape := ⟨State.VOTE, false, false, false, [VoteType.DO_COMMIT], []⟩

/-- The commit has arrived. -/
def commitHere : Shape := ⟨State.VOTE, false, true, true, [], []⟩

/-- The cohort has reported done. -/
def finished : Shape := ⟨State.TERMINATE, false, true, true, [], []⟩

end Shape

/-- Every rank of the world has its voter, built for its rank and the world
size. -/
def RanksOK {Ray : Type} (N : Int) (w : World Ray) : Prop :=
  ∀ k, 0 ≤ k → k < N →
    (w.node k).tracer.voter = some (w.voter k) ∧
    (w.voter k).mpi = { rank := k, size := N } ∧
    (w.node k).tracer.mpiInfo = { rank := k, size := N }

/-- Votes travel only between the coordinator and the cohorts. -/
def VotesOK {Ray : Type} (N : Int) (w : World Ray) : Prop :=
  ∀ a b, ¬ (a = 0 ∧ 1 ≤ b ∧ b < N) → ¬ (b = 0 ∧ 1 ≤ a ∧ a < N) → votesOf (w.chan a b) = []

/-- The ray count of a batch is positive and is an `int`. -/
def CountOK {Ray : Type} (rays : RemoteRays Ray) : Prop :=
  0 < rays.header.num_rays ∧ rays.header.num_rays ≤ 2147483647

/-- Every batch in flight or buffered has a good ray count. -/
def BatchesOK {Ray : Type} (w : World Ray) : Prop :=
  (∀ a b rays, Work.remoteRays rays ∈ w.chan a b → CountOK rays) ∧
  (∀ k, ∀ rays ∈ (w.node k).tracer.workQ, CountOK rays)

/-- A rank has left its loop exactly when its voter is in `TERMINATE`. -/
def FinishedOK {Ray : Type} (N : Int) (w : World Ray) : Prop :=
  ∀ k, 0 ≤ k → k < N → ((w.node k).finished = true ↔ (w.voter k).state = State.TERMINATE)

/-- One cohort against the state `cs` of the coordinator. In `PROPOSE`, `inV`
says that the vote of the cohort in this round has been counted and `inC` that
this vote was a commit. -/
def CohortOK (cs : State) (inV inC : Prop) (sh : Shape) (idle : Prop) : Prop :=
  match cs with
  | State.PREPARE_COORDINATOR =>
    sh = Shape.rest ∨ sh = Shape.abortSent ∨ sh = Shape.abortHere
  | State.PROPOSE =>
    (inV → sh = Shape.voted ∧ (inC → idle)) ∧
    (¬ inV →
      sh = Shape.abortSentProposed ∨ sh = Shape.abortHereProposed ∨
      sh = Shape.abortHereProposeHere ∨ sh = Shape.proposed ∨ sh = Shape.proposeHere ∨
      (sh = Shape.voteSent VoteType.VOTE_COMMIT ∧ idle) ∨
      sh = Shape.voteSent VoteType.VOTE_ABORT)
  | State.TERMINATE =>
    idle ∧ (sh = Shape.commitSent ∨ sh = Shape.commitHere ∨ sh = Shape.finished)
  | _ => False

/-- The voter `v` of the coordinator against the set `V` of the cohorts whose
vote of this round has been counted and the set `C` of those among them that
voted to commit. -/
def CoordinatorOK (N : Int) (v : TpcVoter) (idle : Prop) (V C : Finset Int) : Prop :=
  match v.state with
  | State.PREPARE_COORDINATOR =>
    v.numVotesReceived = 0 ∧ v.commitVoteCount = 0 ∧ v.allVotesAvailable = false
  | State.PROPOSE =>
    idle ∧ C ⊆ V ∧ V ⊆ Finset.Ico 1 N ∧
    v.numVotesReceived = V.card ∧ v.commitVoteCount = C.card ∧
    (v.allVotesAvailable = true ↔ (V.card : Int) = N - 1)
  | State.TERMINATE => idle
  | _ => False

/-- The coordinator and every cohort are in order. -/
def CohortsOK {Ray : Type} (N : Int) (w : World Ray) : Prop :=
  ∃ V C : Finset Int, CoordinatorOK N (w.voter 0) (w.idle 0) V C ∧
    ∀ i, 1 ≤ i → i < N →
      CohortOK (w.voter 0).state (i ∈ V) (i ∈ C) (w.shape i) (w.idle i)

/-- The shape of a cohort after the oldest vote in flight to it was delivered
(`receiveVote` on the flags). -/
def Shape.deliverDown (sh : Shape) : Shape :=
  match sh.down with
  | [] => sh
  | VoteType.PROPOSE :: rest => { sh with proposeAvailable := true, down := rest }
  | VoteType.DO_COMMIT :: rest =>
    { sh with commitAbortAvailable := true, doCommit := true, down := rest }
  | VoteType.DO_ABORT :: rest => { sh with commitAbortAvailable := true, down := rest }
  | _ :: rest => { sh with down := rest }

/-- The shape of a cohort after a tick (`updateState` in the cohort states);
`work` is the value of `hasWork()`. -/
def Shape.tick (work : Bool) (sh : Shape) : Shape :=
  match sh.state with
  | State.PREPARE_COHORT =>
    if sh.proposeAvailable then
      { sh with
        state := State.VOTE
        proposeAvailable := false
        up := sh.up ++ [if work then VoteType.VOTE_ABORT else VoteType.VOTE_COMMIT] }
    else sh
  | State.VOTE =>
    if sh.commitAbortAvailable then
      if sh.doCommit then { sh with state := State.TERMINATE }
      else { sh with state := State.PREPARE_COHORT, commitAbortAvailable := false }
    else sh
  | _ => sh

/-- The invariant of the vote. -/
structure Inv {Ray : Type} (N : Int) (w : World Ray) : Prop where
  ranks : RanksOK N w
  votes : VotesOK N w
  batches : BatchesOK w
  fin : FinishedOK N w
  cohorts : CohortsOK N w

/-! ## Accounting of the rays in transit -/

/-- The ray count of a batch of transfer type `t`; 0 for any other work
item. -/
def rayCount {Ray : Type} (t : TransferType) : Work Ray → Int
  | Work.vote _ => 0
  | Work.remoteRays rays => if rays.header.transfer_type = t then rays.header.num_rays else 0

/-- The rays of the batches of transfer type `t` among `l`. -/
def countOf {Ray : Type} (t : TransferType) (l : List (Work Ray)) : Int :=
  (l.map (rayCount t)).sum

/-- The rays of the buffered batches that rank `s` sent. -/
def bufferedFrom {Ray : Type} (s : Int) (q : List (RemoteRays Ray)) : Int :=
  ((q.filter (fun rays => rays.header.sender == s)).map (fun rays => rays.header.num_rays)).sum

/-- The rays that rank `r` has shipped and not yet seen acknowledged: those of
its requests in flight, of its requests buffered at their destination, and of
the grants in flight to it. -/
def World.outstanding {Ray : Type} (N : Int) (w : World Ray) (r : Int) : Int :=
  Finset.sum (Finset.Ico 0 N) (fun d =>
    countOf TransferType.Request (w.chan r d) + bufferedFrom r (w.node d).tracer.workQ +
      countOf TransferType.Grant (w.chan d r))

/-- The pending-ray counters count the rays in transit, modulo the width of an
`int`; batches travel between ranks of the world, and a request carries the
rank that sent it. -/
structure Acc {Ray : Type} (N : Int) (w : World Ray) : Prop where
  pending : ∀ r, 0 ≤ r → r < N →
    (w.voter r).numPendingRays % 4294967296 = w.outstanding N r % 4294967296
  chan : ∀ a b rays, Work.remoteRays rays ∈ w.chan a b →
    (0 ≤ a ∧ a < N) ∧ (0 ≤ b ∧ b < N) ∧
      (rays.header.transfer_type = TransferType.Request → rays.header.sender = a)
  workQ : ∀ d, ∀ rays ∈ (w.node d).tracer.workQ,
    0 ≤ rays.header.sender ∧ rays.header.sender < N

/-- Arrival of a sequence of vote messages, first message first. -/
def receiveVotes (v : TpcVoter) (vs : List VoteType) : TpcVoter :=
  vs.foldl receiveVote v

/-! ## Calls on the pending-ray counter -/

/-- Every `add_pending(n)` among the calls `es`, made from configuration `v`
on, passes a count `n >= 0` that the counter takes without leaving the range
of an `int`. -/
def AddsFit : TpcVoter → List VoterEvent → Bool
  | _, [] => true
  | v, e :: es =>
    (match e with
      | VoterEvent.add_pending n => decide (0 ≤ n ∧ v.numPendingRays + n ≤ 2147483647)
      | _ => true) &&
    (match e.apply v with
      | none => true
      | some w => AddsFit w es)

/-! ## Reading the queues -/

/-- The rays of bucket `i`, `queue.find(i)->second`; the empty vector when the
map has no such key. -/
def RayQueues.rays {Ray : Type} (queue : RayQueues Ray) (i : Int) : List Ray :=
  match queue.find? (fun q => q.1 == i) with
  | some q => q.2
  | none => []

/-! ## The pending-ray counter over sends and grants -/

/-- Calls that move the pending-ray counter of one rank: a `SendRays` over the
given queues, and the arrival of the `GRANT` for a batch of `num_rays` rays,
which is `subtractNumPendingRays(num_rays)`. -/
inductive PendingCall (Ray : Type) where
  | send (queue : RayQueues Ray)
  | grant (num_rays : Int)

/-- Ray counts of the batches among the messages handed to the communicator:
the `num_rays` of every `REQUEST`, in program order. -/
def batchCounts {Ray : Type} (sent : List (Int × Work Ray)) : List Int :=
  sent.filterMap (fun m =>
    match m.2 with
    | Work.remoteRays rays =>
      if rays.header.transfer_type = TransferType.Request then some rays.header.num_rays
      else none
    | Work.vote _ => none)

/-- The voter of a rank together with the ray counts of the batches it has
shipped and for which no `GRANT` has arrived yet. -/
structure Pending where
  voter : TpcVoter
  unacknowledged : List Int
deriving DecidableEq, Repr

/-- Effect of one call: `SendRays` adds the batches it ships to the
unacknowledged ones, a `GRANT` takes one batch of its count away; `none` when
the assertion of `subtractNumPendingRays` fails. -/
def PendingCall.apply {Ray : Type} (mpiInstanceMap : Int → Int) (p : Pending) :
    PendingCall Ray → Option Pending
  | PendingCall.send queue =>
    let s := SendRays mpiInstanceMap p.voter.mpi.rank p.voter queue
    some { voter := s.voter, unacknowledged := p.unacknowledged ++ batchCounts s.sent }
  | PendingCall.grant num_rays =>
    (p.voter.subtractNumPendingRays num_rays).map
      (fun v => { voter := v, unacknowledged := p.unacknowledged.erase num_rays })

/-- Effect of a sequence of calls, first call first. -/
def runPending {Ray : Type} (mpiInstanceMap : Int → Int) :
    Pending → List (PendingCall Ray) → Option Pending
  | p, [] => some p
  | p, e :: es => (e.apply mpiInstanceMap p).bind (fun p1 => runPending mpiInstanceMap p1 es)

/-- Every `GRANT` among the calls `es`, made from `p` on, is for a batch that
was shipped and not yet granted, and no `SendRays` takes the sum of the
unacknowledged ray counts out of the range of an `int`. -/
def Accounted {Ray : Type} (mpiInstanceMap : Int → Int) :
    Pending → List (PendingCall Ray) → Bool
  | _, [] => true
  | p, e :: es =>
    (match e with
      | PendingCall.send queue =>
        decide (p.unacknowledged.sum +
          (batchCounts (SendRays mpiInstanceMap p.voter.mpi.rank p.voter queue).sent).sum
            ≤ 2147483647)
      | PendingCall.grant num_rays => decide (num_rays ∈ p.unacknowledged)) &&
    (match e.apply mpiInstanceMap p with
      | none => true
      | some p1 => Accounted mpiInstanceMap p1 es)

/-! ## The owner map (`DomainTracer::DomainTracer`) -/

/-- Conversion of an `int` to `size_t`. -/
def toSizeT (x : Int) : Int := x % 18446744073709551616

/-- The inner loop of the constructor over the data nodes from index `d` on:
the index of the first data node with the UUID of the mesh, and
`(size_t)-1` when there is none. A node is given by its UUID. -/
def DomainTracer.dataIdx {UUID : Type} [DecidableEq UUID] (meshNode : UUID) :
    List UUID → Int → Int
  | [], _ => 18446744073709551615
  | node :: rest, d => if node = meshNode then d else DomainTracer.dataIdx meshNode rest (d + 1)

/-- The loop of the constructor over the instance nodes from index `i` on, each
given by the UUID of the mesh it refers to: the entries `mpiInstanceMap[i] =
mpiNode` in the order of the keys. Modelled from the spec: the macro
`GVT_ASSERT`, which is not part of the sources at hand; "invalid scene (missing
mesh ...): fatal", here `none`. -/
def DomainTracer.mpiInstanceMapFrom {UUID : Type} [DecidableEq UUID] (mpiInfo : MpiInfo)
    (dataNodes : List UUID) : List UUID → Int → Option (List (Int × Int))
  | [], _ => some []
  | meshNode :: rest, i =>
    let dataIdx := DomainTracer.dataIdx meshNode dataNodes 0
    let mpiNode := dataIdx % toSizeT mpiInfo.size
    if dataIdx ≠ 18446744073709551615 then
      (DomainTracer.mpiInstanceMapFrom mpiInfo dataNodes rest (i + 1)).map
        (fun m => (i, mpiNode) :: m)
    else none

/-- The member `mpiInstanceMap` as the constructor `DomainTracer::DomainTracer`
fills it from the data nodes and the instance nodes. -/
def DomainTracer.mpiInstanceMap {UUID : Type} [DecidableEq UUID] (mpiInfo : MpiInfo)
    (dataNodes instancenodes : List UUID) : Option (List (Int × Int)) :=
  DomainTracer.mpiInstanceMapFrom mpiInfo dataNodes instancenodes 0

/-! ## Selection of the next instance (`DomainTracer::Trace`) -/

/-- The selection scan of `Trace` over the buckets in key order, started with
the given values of `instTarget` and `instTargetCount`: their values after the
loop. -/
def Trace.select {Ray : Type} (mpiInstanceMap : Int → Int) (rank : Int) :
    RayQueues Ray → Int × Nat → Int × Nat
  | [], target => target
  | q :: rest, (instTarget, instTargetCount) =>
    let inRank := decide (mpiInstanceMap q.1 = rank)
    if inRank = true ∧ q.2.length > instTargetCount then
      Trace.select mpiInstanceMap rank rest (q.1, q.2.length)
    else Trace.select mpiInstanceMap rank rest (instTarget, instTargetCount)

/-- The value of `instTarget` after the scan of one loop iteration, which
starts from `instTarget = -1` and `instTargetCount = 0`. -/
def Trace.instTarget {Ray : Type} (mpiInstanceMap : Int → Int) (rank : Int)
    (queue : RayQueues Ray) : Int :=
  (Trace.select mpiInstanceMap rank queue (-1, 0)).1

/-- The test `instTarget >= 0` under which the loop iteration traces the
selected queue. -/
def Trace.traces {Ray : Type} (mpiInstanceMap : Int → Int) (rank : Int)
    (queue : RayQueues Ray) : Bool :=
  decide (Trace.instTarget mpiInstanceMap rank queue ≥ 0)

/-! ## The local filter (`DomainTracer::shuffleDropRays`) -/

/-- Modelled from the spec: the ray `gvt::render::actor::Ray`, declared in a
header that is not part of the sources at hand; "origin (3-vector), direction
(unit 3-vector)" and the other fields, which the filter does not touch, as
`rest`. -/
structure actor.Ray (V R : Type) where
  origin : V
  direction : V
  rest : R
deriving DecidableEq, Repr

/-- An answer `BVH::hit` of the acceleration structure for one ray: the `next`
instance the ray enters (`-1` for none) and the entry distance `t`. -/
structure BVH.hit (S : Type) where
  next : Int
  t : S
deriving DecidableEq, Repr

/-- The `float` and vector arithmetic of the filter, kept abstract: vector
`+`, vector times scalar, scalar `*`, and the constant `0.8f`. -/
structure Arithmetic (V S : Type) where
  add : V → V → V
  scale : V → S → V
  mul : S → S → S
  c08 : S

/-- Insertion at the end of a bucket through `operator[]`,
`queue[i].insert(queue[i].end(), ...)` or `queue[i].push_back(r)`: the bucket
is created when the map has none. -/
def RayQueues.insertAtEnd {Ray : Type} (queue : RayQueues Ray) (i : Int) (rs : List Ray) :
    RayQueues Ray :=
  if queue.contains i then queue.appendTo i rs
  else (queue.insertEmpty i).appendTo i rs

/-- The first loop of the body of the `parallel_for` in `shuffleDropRays`, over
the rays of one chunk, each given with the hit `acc.intersect` returned for it:
the map `local_queue` after the loop, from its content so far. -/
def shuffleDropRays.localQueue {V S R : Type} (a : Arithmetic V S)
    (mpiInstanceMap : Int → Int) (rank : Int) :
    List (actor.Ray V R × BVH.hit S) → RayQueues (actor.Ray V R) → RayQueues (actor.Ray V R)
  | [], local_queue => local_queue
  | (r, hit) :: rest, local_queue =>
    if hit.next ≠ -1 then
      let r1 : actor.Ray V R :=
        { r with origin := a.add r.origin (a.scale r.direction (a.mul hit.t a.c08)) }
      let inRank := decide (mpiInstanceMap hit.next = rank)
      if inRank = true then
        shuffleDropRays.localQueue a mpiInstanceMap rank rest
          (local_queue.insertAtEnd hit.next [r1])
      else shuffleDropRays.localQueue a mpiInstanceMap rank rest local_queue
    else shuffleDropRays.localQueue a mpiInstanceMap rank rest local_queue

/-- The locked insertions that the chunks of the `parallel_for` make, chunk by
chunk: for every bucket of the chunk's `local_queue`, in key order, its key and
its rays. -/
def shuffleDropRays.insertions {V S R : Type} (a : Arithmetic V S)
    (mpiInstanceMap : Int → Int) (rank : Int)
    (chunks : List (List (actor.Ray V R × BVH.hit S))) : List (Int × List (actor.Ray V R)) :=
  chunks.flatMap (fun chunk => shuffleDropRays.localQueue a mpiInstanceMap rank chunk [])

/-- Result of `shuffleDropRays`: the queues and the ray vector it was given. -/
structure Filtered (Ray : Type) where
  queue : RayQueues Ray
  rays : List Ray

/-- Member `DomainTracer::shuffleDropRays`, which is `FilterRaysLocally` on
the member `rays`. The chunks of the `parallel_for` run concurrently;
`insertions` is the order in which their locked insertions into `queue` take
place, a reordering of `shuffleDropRays.insertions`. The ray vector is cleared
at the end. -/
def shuffleDropRays {Ray : Type} (queue : RayQueues Ray) (insertions : List (Int × List Ray)) :
    Filtered Ray :=
  { queue := insertions.foldl (fun q ins => q.insertAtEnd ins.1 ins.2) queue
    rays := [] }

/-- The number of rays in all buckets. -/
def RayQueues.total {Ray : Type} (queue : RayQueues Ray) : Nat :=
  (queue.map (fun q => q.2.length)).sum

/-! ## Compositing (`DomainTracer::CompositeFrameBuffers`) -/

/-- The statement `rgb[k] += b` on a buffer of `unsigned char`, a buffer being
given by the byte at every index. -/
def addByte (rgb : Int → Nat) (k : Int) (b : Nat) : Int → Nat :=
  fun q => if q = k then (rgb q + b) % 256 else rgb q

/-- The loop over the ranks `i` of `CompositeFrameBuffers` for one `j`, over the
values of `i` still to come. -/
def CompositeFrameBuffers.addRanks (rgb_buf_size : Int) (bufs : Int → Nat) (j : Int) :
    List Int → (Int → Nat) → (Int → Nat)
  | [], rgb => rgb
  | i :: rest, rgb =>
    let p := wrapInt (i * rgb_buf_size + j)
    CompositeFrameBuffers.addRanks rgb_buf_size bufs j rest
      (addByte (addByte (addByte rgb (j + 0) (bufs (p + 0))) (j + 1) (bufs (p + 1))) (j + 2)
        (bufs (p + 2)))

/-- The receive buffer of rank 0 after `MPI_Gather` of `rgb_buf_size` bytes
from every rank: the block of rank `r` starts at `r * rgb_buf_size`. `rgb r`
is the buffer rank `r` sends. -/
def MPI_Gather (rgb_buf_size : Int) (rgb : Int → Int → Nat) : Int → Nat :=
  fun p => rgb (p / rgb_buf_size) (p % rgb_buf_size)

/-- Member `DomainTracer::CompositeFrameBuffers` after `LocalComposite`: the
buffer `rgb` of this rank when the call returns, `rgb r` being the local
framebuffer of rank `r`. The chunks of the `parallel_for` run concurrently on
disjoint pixels; `pixels` is the order in which the iterations of the loop
over `j` take place, one per pixel. -/
def CompositeFrameBuffers (mpiInfo : MpiInfo) (width height : Int) (rgb : Int → Int → Nat)
    (pixels : List Int) : Int → Nat :=
  let size := width * height
  let rgb_buf_size := wrapInt (3 * size)
  let bufs := MPI_Gather rgb_buf_size rgb
  if mpiInfo.rank = 0 then
    pixels.foldl
      (fun out k =>
        CompositeFrameBuffers.addRanks rgb_buf_size bufs (wrapInt (k * 3))
          ((List.range' 1 (mpiInfo.size.toNat - 1)).map (fun (i : Nat) => (i : Int))) out)
      (rgb mpiInfo.rank)
  else rgb mpiInfo.rank

/-- The sum over all ranks of the byte at index `q` of the local
framebuffers. -/
def sumOverRanks (size : Int) (rgb : Int → Int → Nat) (q : Int) : Nat :=
  ((List.range size.toNat).map (fun (r : Nat) => rgb (r : Int) q)).sum

/-! ## The trace loop of the adapter (`mantaParallelTrace::operator()`) -/

/-- The ray types `Ray::PRIMARY`, `Ray::SHADOW`, `Ray::SECONDARY`. -/
inductive RayType where
  | PRIMARY
  | SHADOW
  | SECONDARY
deriving DecidableEq, Repr

/-- Modelled from the spec: the fields of `gvt::render::actor::Ray`, declared
in a header that is not part of the sources at hand, that the adapter reads or
writes besides origin and direction: "weight", "parametric distance `t`",
"id (stable across bounces)", "depth", "type", "visited-instance set". -/
structure RayFields (S : Type) where
  w : S
  t : S
  depth : Int
  type : RayType
  domains : List Int
  id : Nat
deriving DecidableEq, Repr

/-- The `float` and vector arithmetic of the trace loop, kept abstract: point
plus vector, vector times scalar, the dot product `r.direction * normal`,
scalar `*`, `1.f / t`, the comparison `>`, the constant `1` and the constant
`1.0f - 16.0f * epsilon`. -/
structure FloatOps (V S : Type) where
  add : V → V → V
  scale : V → S → V
  dot : V → V → S
  mul : S → S → S
  inv : S → S
  gt : S → S → Bool
  one : S
  multiplier : S

/-- What the intersector and the random number generator answer for one ray
of the packet in one pass: `mRays.wasHit(pi)`, `mRays.getMinT(pi)`, the
transformed and normalised `normal`, the draw `p = 1.f - rand() / RAND_MAX`, and
the normalised direction that `CosWeightedRandomHemisphereDirection2(normal)`
returns. -/
structure Answer (V S : Type) where
  wasHit : Bool
  minT : S
  normal : V
  p : S
  direction : V

/-- The weight of a ray that was hit when the test `r.w > p` is made: a
`SECONDARY` ray has by then been attenuated by `t`, or by `1.f / t` when
`t > 1`. -/
def weightAtTest {V S : Type} (ops : FloatOps V S) (r : actor.Ray V (RayFields S))
    (a : Answer V S) : S :=
  if r.rest.type = RayType.SECONDARY then
    ops.mul r.rest.w (if ops.gt a.minT ops.one then ops.inv a.minT else a.minT)
  else r.rest.w

/-- Effect of the body of the loop over `pi` on one ray of the packet. -/
structure Traced (V S : Type) where
  ray : actor.Ray V (RayFields S)
  valid : Bool
  dispatched : Bool
  shadows : List (actor.Ray V (RayFields S))
  validRayLeft : Bool

/-- The body of the loop over `pi` in the `while (validRayLeft)` loop, for the
ray `r = rayList[localIdx + pi]` with its bit `valid[pi]`. `dispatched` says
that `localDispatch.push_back(r)` ran, `shadows` is what `generateShadowRays`
pushed (lights and materials are not part of the sources at hand; the function
is a parameter), `validRayLeft` says that the body set `validRayLeft = true`. -/
def traceRay {V S : Type} (ops : FloatOps V S)
    (generateShadowRays : actor.Ray V (RayFields S) → V → List (actor.Ray V (RayFields S)))
    (r : actor.Ray V (RayFields S)) (valid : Bool) (a : Answer V S) : Traced V S :=
  if valid = true ∧ a.wasHit = true then
    if r.rest.type = RayType.SHADOW then
      { ray := r, valid := valid, dispatched := false, shadows := [], validRayLeft := false }
    else
      let t := a.minT
      let r1 : actor.Ray V (RayFields S) := { r with rest := { r.rest with t := t } }
      let r2 : actor.Ray V (RayFields S) :=
        if r1.rest.type = RayType.SECONDARY then
          let t1 := if ops.gt t ops.one then ops.inv t else t
          { r1 with rest := { r1.rest with w := ops.mul r1.rest.w t1 } }
        else r1
      let shadows := generateShadowRays r2 a.normal
      let ndepth := wrapInt (r2.rest.depth - 1)
      if ndepth > 0 ∧ ops.gt r2.rest.w a.p = true then
        let t_secondary := ops.mul ops.multiplier r2.rest.t
        let origin := ops.add r2.origin (ops.scale r2.direction t_secondary)
        { ray :=
            { origin := origin
              direction := a.direction
              rest :=
                { r2.rest with
                  domains := []
                  type := RayType.SECONDARY
                  w := ops.mul r2.rest.w (ops.dot a.direction a.normal)
                  depth := ndepth } }
          valid := valid
          dispatched := false
          shadows := shadows
          validRayLeft := true }
      else
        { ray := r2, valid := false, dispatched := false, shadows := shadows,
          validRayLeft := false }
  else
    { ray := r, valid := false, dispatched := true, shadows := [], validRayLeft := false }

/-- The rays of a packet with their `valid` bits, the thread's `localDispatch`
and `shadowRays`, and the flag `validRayLeft`. -/
structure Packet (V S : Type) where
  rays : List (actor.Ray V (RayFields S) × Bool)
  localDispatch : List (actor.Ray V (RayFields S))
  shadowRays : List (actor.Ray V (RayFields S))
  validRayLeft : Bool

/-- The loop over `pi` from the given `pi` on, over the rays still to come. -/
def traceRays {V S : Type} (ops : FloatOps V S)
    (generateShadowRays : actor.Ray V (RayFields S) → V → List (actor.Ray V (RayFields S)))
    (answers : Nat → Answer V S) :
    Nat → List (actor.Ray V (RayFields S) × Bool) → Packet V S → Packet V S
  | _, [], packet => packet
  | pi, (r, valid) :: rest, packet =>
    let o := traceRay ops generateShadowRays r valid (answers pi)
    traceRays ops generateShadowRays answers (pi + 1) rest
      { rays := packet.rays ++ [(o.ray, o.valid)]
        localDispatch := if o.dispatched then packet.localDispatch ++ [o.ray]
          else packet.localDispatch
        shadowRays := packet.shadowRays ++ o.shadows
        validRayLeft := packet.validRayLeft || o.validRayLeft }

/-- The answers of one pass: for every ray of the packet, and for every shadow
ray that `traceShadowRays` tests (`mRays.wasHit` there). -/
structure PassAnswers (V S : Type) where
  ray : Nat → Answer V S
  shadowWasHit : Nat → Bool

/-- Member `traceShadowRays`: the shadow rays that were not hit go to
`localDispatch`, and `shadowRays` is cleared. -/
def traceShadowRays {V S : Type} (shadowWasHit : Nat → Bool) (packet : Packet V S) :
    Packet V S :=
  { packet with
    localDispatch := packet.localDispatch ++
      ((packet.shadowRays.enum.filter (fun x => !shadowWasHit x.1)).map (fun x => x.2))
    shadowRays := [] }

/-- One pass of the `while (validRayLeft)` loop: the flag is cleared, the
packet is intersected, the loop over `pi` runs, then `traceShadowRays`. -/
def tracePass {V S : Type} (ops : FloatOps V S)
    (generateShadowRays : actor.Ray V (RayFields S) → V → List (actor.Ray V (RayFields S)))
    (answers : PassAnswers V S) (packet : Packet V S) : Packet V S :=
  traceShadowRays answers.shadowWasHit
    (traceRays ops generateShadowRays answers.ray 0 packet.rays
      { packet with rays := [], validRayLeft := false })

/-- The `while (validRayLeft)` loop from pass number `pass` on, run for at most
`fuel` passes: the packet when the loop ends and the number of passes made so
far; `none` when the loop has not ended within `fuel` passes. -/
def tracePacket {V S : Type} (ops : FloatOps V S)
    (generateShadowRays : actor.Ray V (RayFields S) → V → List (actor.Ray V (RayFields S)))
    (answers : Nat → PassAnswers V S) :
    Nat → Nat → Packet V S → Option (Packet V S × Nat)
  | 0, _, _ => none
  | fuel + 1, pass, packet =>
    let packet1 := tracePass ops generateShadowRays (answers pass) packet
    if packet1.validRayLeft then
      tracePacket ops generateShadowRays answers fuel (pass + 1) packet1
    else some (packet1, pass + 1)

/-- The packet as the first pass finds it: `prepRayPacket` with `resetValid`
sets the `valid` bit of every ray of the packet. -/
def Packet.start {V S : Type} (rays : List (actor.Ray V (RayFields S)))
    (localDispatch : List (actor.Ray V (RayFields S))) : Packet V S :=
  { rays := rays.map (fun r => (r, true))
    localDispatch := localDispatch
    shadowRays := []
    validRayLeft := true }

/-- The sum of the depths of the rays of a packet. -/
def Packet.depths {V S : Type} (rays : List (actor.Ray V (RayFields S) × Bool)) : Nat :=
  (rays.map (fun x => x.1.rest.depth.toNat)).sum

/-! ## Work chunking of the adapter (`MantaMeshAdapter::trace`) -/

/-- The `workSize` that `MantaMeshAdapter::trace` computes for a ray list of
the given size. -/
def workSize (rayListSize numThreads : Nat) : Nat :=
  max 8 (rayListSize / (numThreads * 8))

/-- The chunk of rays `[workStart, workEnd)` that a thread works on after its
`fetch_add` returned `workStart`; nothing when `workStart > rayList.size()`
(the `break`). -/
def workRange (rayListSize workSize workStart : Nat) : Option (Nat × Nat) :=
  if workStart > rayListSize then none
  else
    let workEnd := workStart + workSize
    if workEnd > rayListSize then some (workStart, rayListSize) else some (workStart, workEnd)

/-- The `while (sharedIdx < rayList.size())` loop of one thread that runs
alone, from the given value of `sharedIdx`, for at most `fuel` rounds: the
chunks `(workStart, workEnd)` in the order in which they are claimed. -/
def workRanges (rayListSize workSize : Nat) : Nat → Nat → List (Nat × Nat)
  | 0, _ => []
  | fuel + 1, sharedIdx =>
    if sharedIdx < rayListSize then
      match workRange rayListSize workSize sharedIdx with
      | none => []
      | some chunk => chunk :: workRanges rayListSize workSize fuel (sharedIdx + workSize)
    else []

/-- The loop over `localIdx` within a chunk, from the given `localIdx`, for at
most `fuel` rounds: the packets `(localIdx, localPacketSize)`. -/
def packetRanges (packetSize workEnd : Nat) : Nat → Nat → List (Nat × Nat)
  | 0, _ => []
  | fuel + 1, localIdx =>
    if localIdx < workEnd then
      let localPacketSize :=
        if localIdx + packetSize > workEnd then workEnd - localIdx else packetSize
      (localIdx, localPacketSize) :: packetRanges packetSize workEnd fuel (localIdx + packetSize)
    else []

/-! ## Message framing (`gvt/core/comm/message.h`) -/

/-- The struct `Message::header`. -/
structure Message.header where
  USER_TAG : Nat
  SYSTEM_TAG : Nat
  USER_MSG_SIZE : Nat
  dst : Int
  src : Int
deriving DecidableEq, Repr

/-- The eight bytes of a 64-bit field, least significant byte first. -/
def le64 (x : Int) : List Nat :=
  (List.range 8).map (fun i => ((x % 18446744073709551616) / 256 ^ i % 256).toNat)

/-- Modelled from the spec: the object representation of `Message::header`,
which the compiler lays out; "`{user_tag:u64, system_tag:u64,
user_msg_size:u64, dst:i64, src:i64}`", "all little-endian, packed". -/
def Message.header.bytes (h : Message.header) : List Nat :=
  le64 h.USER_TAG ++ le64 h.SYSTEM_TAG ++ le64 h.USER_MSG_SIZE ++ le64 h.dst ++ le64 h.src

/-- The value of `sizeof(header)`. -/
def Message.sizeof_header : Nat := 40

/-- The data members of `Message`: `_buffer_size` and the bytes that `content`
points to. -/
structure Message where
  _buffer_size : Nat
  content : List Nat
deriving DecidableEq, Repr

/-- The call `std::memcpy(dst + offset, src, n)` on a buffer `dst`. -/
def memcpy (dst : List Nat) (offset : Nat) (src : List Nat) (n : Nat) : List Nat :=
  dst.take offset ++ src.take n ++ dst.drop (offset + n)

/-- The buffer after `std::realloc(content, n)` (the old bytes up to the new
size are kept) or, for a message without buffer, `std::malloc(n)`; bytes that
the allocation leaves indeterminate are taken as 0. -/
def Message.allocate (msg : Message) (n : Nat) : List Nat :=
  if msg._buffer_size > 0 then (msg.content ++ List.replicate n 0).take n
  else List.replicate n 0

/-- Modelled from the spec: the member `Message::size(std::size_t)`, defined in
a file that is not part of the sources at hand; "Set buffer size": it stores
the size in `USER_MSG_SIZE` of the header of the message, the header being the
last `sizeof(header)` bytes of the buffer. -/
def Message.size (msg : Message) (size : Nat) : Message :=
  { msg with
    content := memcpy msg.content (msg._buffer_size - Message.sizeof_header + 16) (le64 size) 8 }

/-- Member template `Message::setMessage<T>`. `sizeofT` is `sizeof(T)`, `repr`
gives the bytes of an element, `mhi` is the header that the reference returned
by `getHeader()` (defined in a file that is not part of the sources at hand)
holds when it is copied. -/
def Message.setMessage {T : Type} (sizeofT : Nat) (repr : T → List Nat) (msg : Message)
    (mhi : Message.header) (orig : List T) (os : Nat) : Message :=
  let bs := sizeofT * os
  let content := msg.allocate (bs + Message.sizeof_header)
  let _buffer_size := bs + Message.sizeof_header
  let content1 := memcpy content 0 (orig.flatMap repr) bs
  let content2 := memcpy content1 bs mhi.bytes Message.sizeof_header
  Message.size { _buffer_size := _buffer_size, content := content2 } bs

/-- Member `Message::buffer_size`. -/
def Message.buffer_size (msg : Message) : Nat := msg._buffer_size

/-! ## Counters of the coordinator -/

/-- The vote counters are consistent: `0 <= commitVoteCount <= numVotesReceived`,
and `allVotesAvailable` only with at least `size - 1` votes received. -/
def CountersOK (v : TpcVoter) : Prop :=
  0 ≤ v.commitVoteCount ∧ v.commitVoteCount ≤ v.numVotesReceived ∧
    (v.allVotesAvailable = true → v.mpi.size - 1 ≤ v.numVotesReceived)

/-! ## Hemisphere sampling (`Material::CosWeightedRandomHemisphereDirection2`) -/

/-- A vector `GVT::Math::Vector3f` with exact components in `K`. -/
structure Vector3 (K : Type) where
  x : K
  y : K
  z : K
deriving DecidableEq, Repr

namespace Vector3

/-- The operator `^` of `Vector3f`, the cross product (the operators of
`GVT/Math` are declared in a header that is not part of the sources at
hand). -/
def cross {K : Type} [Mul K] [Sub K] (a b : Vector3 K) : Vector3 K :=
  { x := a.y * b.z - a.z * b.y, y := a.z * b.x - a.x * b.z, z := a.x * b.y - a.y * b.x }

/-- The operator `*` between two vectors, the dot product. -/
def dot {K : Type} [Mul K] [Add K] (a b : Vector3 K) : K :=
  a.x * b.x + a.y * b.y + a.z * b.z

/-- The operator `*` between a vector and a scalar. -/
def scale {K : Type} [Mul K] (a : Vector3 K) (c : K) : Vector3 K :=
  { x := a.x * c, y := a.y * c, z := a.z * c }

/-- The operator `+` of vectors. -/
def add {K : Type} [Add K] (a b : Vector3 K) : Vector3 K :=
  { x := a.x + b.x, y := a.y + b.y, z := a.z + b.z }

end Vector3

/-- Member `Material::CosWeightedRandomHemisphereDirection2` up to the final
`normalize()`: the vector `x * xs + y * ys + z * zs`, for the coefficients
`xs`, `ys`, `zs` that the two random draws give. -/
def CosWeightedRandomHemisphereDirection2 {K : Type} [LinearOrderedCommRing K]
    (n : Vector3 K) (xs ys zs : K) : Vector3 K :=
  let y := n
  let h : Vector3 K :=
    if |y.x| ≤ |y.y| ∧ |y.x| ≤ |y.z| then { y with x := 1 }
    else if |y.y| ≤ |y.x| ∧ |y.y| ≤ |y.z| then { y with y := 1 }
    else { y with z := 1 }
  let x := h.cross y
  let z := x.cross y
  ((x.scale xs).add (y.scale ys)).add (z.scale zs)

/-! ## Concrete configurations used as witnesses -/

/-- A two-rank and a three-rank world. -/
def mpi02 : MpiInfo := { rank := 0, size := 2 }

/-- Rank 1 of a three-rank world. -/
def mpi13 : MpiInfo := { rank := 1, size := 3 }

/-- Rank 0 of a three-rank world. -/
def mpi03 : MpiInfo := { rank := 0, size := 3 }

/-- The coordinator of a three-rank world right after it proposed. -/
def proposing03 : TpcVoter := ((TpcVoter.new mpi03).updateState true).voter

/-- A cohort of a three-rank world. -/
def cohort13 : TpcVoter := TpcVoter.new mpi13

/-- A cohort whose pending-ray counter was driven below zero through
`addNumPendingRays`. -/
def negativePending13 : TpcVoter := (TpcVoter.new mpi13).addNumPendingRays (-1)

/-- The queues of a two-rank world after the local filter: rank 0 holds two
rays for instance 1, rank 1 holds nothing. -/
def twoRankQueues : Int → RayQueues Nat :=
  fun r => if r = 0 then [(1, [7, 8])] else []

/-- An owner map of a two-rank world: instance `i` belongs to rank `i mod 2`. -/
def twoRankOwner : Int → Int := fun i => i % 2

/-- A frame of the two-rank world: rank 0 ships its two rays to rank 1, which
traces them to the end; then the coordinator proposes, the cohort votes to
commit and both ranks report done. -/
def twoRankRun : List (Event Nat) :=
  [Event.send 0, Event.deliver 0 1, Event.recv 1, Event.trace 1 [(1, [])], Event.deliver 1 0,
    Event.tick 0, Event.deliver 0 1, Event.tick 1, Event.deliver 1 0, Event.tick 0,
    Event.deliver 0 1, Event.tick 1]

/-- The world at the end of `twoRankRun`. -/
def twoRankEnd : Option (World Nat) :=
  World.run 2 twoRankOwner (World.init 2 twoRankQueues) twoRankRun

/-- Calls on the counter of a cohort: five rays and one ray added, two and four
rays subtracted. -/
def pendingCalls13 : List VoterEvent :=
  [VoterEvent.add_pending 5, VoterEvent.sub_pending 2, VoterEvent.add_pending 1,
    VoterEvent.sub_pending 4]

/-- A request of rank 0 for instance 3 that carries two rays. -/
def request03 : RemoteRays Nat :=
  { header := { transfer_type := TransferType.Request, sender := 0, inst := 3, num_rays := 2 }
    rays := [7, 8] }

/-- Queues with a bucket for instance 1 and one for instance 4. -/
def queues14 : RayQueues Nat := [(1, [5]), (4, [])]

/-- Rank 0 of a two-rank world ships a batch of two rays and a batch of one
ray to rank 1; the grant for the second batch arrives first. -/
def sendAndGrants : List (PendingCall Nat) :=
  [PendingCall.send [(1, [7, 8]), (2, [6]), (3, [9])], PendingCall.grant 1,
    PendingCall.grant 2]

/-- Three data nodes, by UUID. -/
def dataNodes3 : List Nat := [40, 41, 42]

/-- Five instances, by the UUID of their mesh. -/
def instancenodes5 : List Nat := [42, 40, 41, 42, 40]

/-- Queues of rank 0 in a two-rank world: instances 0, 2 and 4 are its own and
hold one ray, two rays and two rays; instance 3 belongs to rank 1 and holds
three. -/
def queues234 : RayQueues Nat := [(0, [1]), (2, [5, 6]), (3, [7, 8, 9]), (4, [3, 4])]

/-- Arithmetic on integers, standing for the `float` arithmetic, with `8` for
the constant. -/
def intArithmetic : Arithmetic Int Int :=
  { add := fun x y => x + y, scale := fun x c => x * c, mul := fun x y => x * y, c08 := 8 }

/-- Four rays with their hits: instance 2, no hit, instance 3, instance 2. -/
def raysAndHits : List (actor.Ray Int Nat × BVH.hit Int) :=
  [({ origin := 1, direction := 1, rest := 0 }, { next := 2, t := 1 }),
    ({ origin := 2, direction := 1, rest := 1 }, { next := -1, t := 0 }),
    ({ origin := 3, direction := 1, rest := 2 }, { next := 3, t := 2 }),
    ({ origin := 4, direction := 2, rest := 3 }, { next := 2, t := 3 })]

/-- The four rays in two chunks of two. -/
def chunksOfTwo : List (List (actor.Ray Int Nat × BVH.hit Int)) :=
  [raysAndHits.take 2, raysAndHits.drop 2]

/-- The insertions of the two chunks, the second chunk first. -/
def insertionsSecondFirst : List (Int × List (actor.Ray Int Nat)) :=
  shuffleDropRays.localQueue intArithmetic twoRankOwner 0 (raysAndHits.drop 2) [] ++
    shuffleDropRays.localQueue intArithmetic twoRankOwner 0 (raysAndHits.take 2) []

/-- Rank 1 of a two-rank world with one ray queued for instance 0, which rank 0
owns, and one request of rank 0 buffered. -/
def tracer12 : DomainTracer Nat :=
  { mpiInfo := { rank := 1, size := 2 }
    queue := [(0, [4])]
    workQ := [{ header := { transfer_type := TransferType.Request, sender := 0, inst := 1,
                            num_rays := 1 }
                rays := [9] }]
    voter := some (TpcVoter.new { rank := 1, size := 2 }) }

/-- Local framebuffers of a two-rank world with one pixel: every byte is 200 on
rank 0 and 100 on rank 1. -/
def brightBuffers : Int → Int → Nat := fun r _ => if r = 0 then 200 else 100

/-- Local framebuffers of a two-rank world: byte `q` is `q mod 256` on rank 0
and `10` on rank 1. -/
def dimBuffers : Int → Int → Nat := fun r q => if r = 0 then q.toNat % 256 else 10

/-- Integer arithmetic standing for the `float` arithmetic of the trace
loop. -/
def intFloatOps : FloatOps Int Int :=
  { add := fun x y => x + y
    scale := fun x c => x * c
    dot := fun x y => x * y
    mul := fun x y => x * y
    inv := fun _ => 1
    gt := fun x y => decide (x > y)
    one := 1
    multiplier := 1 }

/-- A scene without lights: `generateShadowRays` pushes nothing. -/
def noShadowRays : actor.Ray Int (RayFields Int) → Int → List (actor.Ray Int (RayFields Int)) :=
  fun _ _ => []

/-- A primary ray of weight 5 with the given depth and id. -/
def primaryRay (depth : Int) (id : Nat) : actor.Ray Int (RayFields Int) :=
  { origin := 0, direction := 1
    rest := { w := 5, t := 0, depth := depth, type := RayType.PRIMARY, domains := [], id := id } }

/-- The answer "hit at distance 1, normal 1, draw 0, new direction 1". -/
def answerHit : Answer Int Int := { wasHit := true, minT := 1, normal := 1, p := 0, direction := 1 }

/-- The answer "no hit". -/
def answerMiss : Answer Int Int :=
  { wasHit := false, minT := 0, normal := 0, p := 0, direction := 0 }

/-- In every pass the first ray of the packet hits and every other ray
misses; no shadow ray is hit. -/
def firstRayHits : Nat → PassAnswers Int Int :=
  fun _ => { ray := fun i => if i = 0 then answerHit else answerMiss, shadowWasHit := fun _ => false }

/-- A packet of two primary rays: ray 0 of depth 3, ray 1 of depth 1. -/
def twoRayPacket : Packet Int Int := Packet.start [primaryRay 3 0, primaryRay 1 1] []

/-- A header with tag 1, system tag 9, from rank 0 to rank 1. -/
def header01 : Message.header :=
  { USER_TAG := 1, SYSTEM_TAG := 9, USER_MSG_SIZE := 0, dst := 1, src := 0 }

/-- A message without buffer. -/
def emptyMessage : Message := { _buffer_size := 0, content := [] }

/-- Calls on the coordinator of a three-rank world: a `VOTE_COMMIT` that
arrives before the round, the tick that proposes, then the two votes of the
round, `VOTE_ABORT` and `VOTE_COMMIT`. -/
def staleVoteCalls : List VoterEvent :=
  [VoterEvent.vote VoteType.VOTE_COMMIT, VoterEvent.tick true,
    VoterEvent.vote VoteType.VOTE_ABORT, VoterEvent.vote VoteType.VOTE_COMMIT]

/-! # Properties -/

/-! ## Auxiliary facts -/

theorem wrapInt_of_isInt32 {x : Int} (h : IsInt32 x) : wrapInt x = x := by
  unfold IsInt32 at h
  unfold wrapInt
  omega

theorem SendAllOther_mem (mpi : MpiInfo) (w : Vote) (p : Int × Vote) :
    p ∈ SendAllOther mpi w ↔ p.2 = w ∧ 0 ≤ p.1 ∧ p.1 < mpi.size ∧ p.1 ≠ mpi.rank := by
  obtain ⟨d, x⟩ := p
  simp only [SendAllOther, List.mem_map, List.mem_filter, List.mem_range, decide_eq_true_eq,
    Prod.mk.injEq]
  constructor
  · rintro ⟨i, ⟨hi, hne⟩, rfl, rfl⟩
    refine ⟨rfl, by omega, by omega, hne⟩
  · rintro ⟨rfl, h0, h1, hne⟩
    refine ⟨d.toNat, ⟨by omega, ?_⟩, by omega, rfl⟩
    rw [Int.toNat_of_nonneg h0]
    exact hne

theorem SendAllOther_nodup (mpi : MpiInfo) (w : Vote) : (SendAllOther mpi w).Nodup := by
  unfold SendAllOther
  refine List.Nodup.map ?_ ((List.nodup_range _).filter _)
  intro a b h
  simpa using h

theorem reset_eq_new (v : TpcVoter) : v.reset = TpcVoter.new v.mpi := by
  simp [TpcVoter.reset, TpcVoter.new]

theorem receiveVotes_cons (v : TpcVoter) (x : VoteType) (vs : List VoteType) :
    receiveVotes v (x :: vs) = receiveVotes (receiveVote v x) vs := rfl

/-- Counters of the coordinator after a batch of cohort votes that does not
exceed the `size - 1` votes of a round. -/
theorem receiveVotes_counters (vs : List VoteType) :
    ∀ v : TpcVoter, (∀ x ∈ vs, x = VoteType.VOTE_COMMIT ∨ x = VoteType.VOTE_ABORT) →
      0 ≤ v.commitVoteCount → v.commitVoteCount ≤ v.numVotesReceived →
      v.numVotesReceived + vs.length ≤ v.mpi.size - 1 → v.mpi.size ≤ 2147483647 →
      (receiveVotes v vs).state = v.state ∧ (receiveVotes v vs).mpi = v.mpi ∧
      (receiveVotes v vs).numVotesReceived = v.numVotesReceived + vs.length ∧
      (receiveVotes v vs).commitVoteCount = v.commitVoteCount + vs.count VoteType.VOTE_COMMIT ∧
      (receiveVotes v vs).allVotesAvailable =
        (v.allVotesAvailable ||
          decide (vs ≠ [] ∧ v.numVotesReceived + vs.length = v.mpi.size - 1)) := by
  induction vs with
  | nil => intro v _ _ _ _ _; simp [receiveVotes]
  | cons x xs ih =>
    intro v hx h0 hc hn hs
    have hxs : ∀ y ∈ xs, y = VoteType.VOTE_COMMIT ∨ y = VoteType.VOTE_ABORT :=
      fun y hy => hx y (List.mem_cons_of_mem _ hy)
    have hlen : ((x :: xs).length : Int) = (xs.length : Int) + 1 := by simp
    rw [hlen] at hn
    have hw1 : wrapInt (v.numVotesReceived + 1) = v.numVotesReceived + 1 :=
      wrapInt_of_isInt32 (by unfold IsInt32; omega)
    have hw2 : wrapInt (v.commitVoteCount + 1) = v.commitVoteCount + 1 :=
      wrapInt_of_isInt32 (by unfold IsInt32; omega)
    have hflag : ∀ w : TpcVoter, w.numVotesReceived = v.numVotesReceived + 1 →
        w.allVotesAvailable =
          (if v.numVotesReceived + 1 = v.mpi.size - 1 then true else v.allVotesAvailable) →
        w.mpi = v.mpi →
        (w.allVotesAvailable ||
          decide (xs ≠ [] ∧ w.numVotesReceived + xs.length = w.mpi.size - 1)) =
        (v.allVotesAvailable ||
          decide (x :: xs ≠ [] ∧ v.numVotesReceived + ((xs.length : Int) + 1) =
            v.mpi.size - 1)) := by
      intro w h1 h2 h3
      rw [h1, h2, h3]
      cases xs with
      | nil =>
        by_cases hq : v.numVotesReceived + 1 = v.mpi.size - 1
        · simp [hq]
        · simp [hq]
      | cons y ys =>
        have hq : ¬ (v.numVotesReceived + 1 = v.mpi.size - 1) := by
          simp only [List.length_cons, Nat.cast_add, Nat.cast_one] at hn
          omega
        have hr : (v.numVotesReceived + 1 + ((y :: ys).length : Int) = v.mpi.size - 1) ↔
            (v.numVotesReceived + (((y :: ys).length : Int) + 1) = v.mpi.size - 1) := by
          constructor <;> intro h <;> omega
        simp only [hq, if_false, ne_eq, reduceCtorEq, not_false_eq_true, true_and, hr]
    rw [receiveVotes_cons, hlen]
    rcases hx x (List.mem_cons_self _ _) with rfl | rfl
    · have := ih (receiveVote v VoteType.VOTE_COMMIT) hxs
        (by simp [receiveVote, TpcVoter.voteCommit, hw2]; omega)
        (by simp [receiveVote, TpcVoter.voteCommit, hw1, hw2]; omega)
        (by simp [receiveVote, TpcVoter.voteCommit, hw1]; omega)
        (by simpa [receiveVote, TpcVoter.voteCommit] using hs)
      obtain ⟨e1, e2, e3, e4, e5⟩ := this
      refine ⟨e1, e2, ?_, ?_, ?_⟩
      · rw [e3]; simp [receiveVote, TpcVoter.voteCommit, hw1]; omega
      · rw [e4]; simp [receiveVote, TpcVoter.voteCommit, hw2]; omega
      · rw [e5]
        exact hflag (receiveVote v VoteType.VOTE_COMMIT)
          (by simp [receiveVote, TpcVoter.voteCommit, hw1])
          (by simp [receiveVote, TpcVoter.voteCommit, hw1])
          (by simp [receiveVote, TpcVoter.voteCommit])
    · have := ih (receiveVote v VoteType.VOTE_ABORT) hxs
        (by simpa [receiveVote, TpcVoter.voteAbort] using h0)
        (by simp [receiveVote, TpcVoter.voteAbort, hw1]; omega)
        (by simp [receiveVote, TpcVoter.voteAbort, hw1]; omega)
        (by simpa [receiveVote, TpcVoter.voteAbort] using hs)
      obtain ⟨e1, e2, e3, e4, e5⟩ := this
      refine ⟨e1, e2, ?_, ?_, ?_⟩
      · rw [e3]; simp [receiveVote, TpcVoter.voteAbort, hw1]; omega
      · rw [e4]; simp [receiveVote, TpcVoter.voteAbort]
      · rw [e5]
        exact hflag (receiveVote v VoteType.VOTE_ABORT)
          (by simp [receiveVote, TpcVoter.voteAbort, hw1])
          (by simp [receiveVote, TpcVoter.voteAbort, hw1])
          (by simp [receiveVote, TpcVoter.voteAbort])

/-! ## The steps of the state machine -/

/-- C2. Coordinator step in `PREPARE_COORDINATOR`: without work the tick hands
one `PROPOSE` to `SendAllOther` (one copy to every other rank of the world,
none to itself), moves to `PROPOSE` and reports not-done; with work it sends
nothing, leaves the voter as it is and reports not-done. -/
theorem C2_prepare_coordinator_tick (v : TpcVoter) (tracerIsDone : Bool)
    (hstate : v.state = State.PREPARE_COORDINATOR) :
    (v.hasWork tracerIsDone = false →
      v.updateState tracerIsDone =
        { voter := { v with state := State.PROPOSE }
          sent := [VoteSend.SendAllOther
            { voteWorkType := VoteType.PROPOSE, sender := v.mpi.rank }]
          allDone := false } ∧
      (∀ p : Int × Vote,
        p ∈ (v.updateState tracerIsDone).sent.flatMap (VoteSend.deliveries v.mpi) ↔
          p.2 = { voteWorkType := VoteType.PROPOSE, sender := v.mpi.rank } ∧
            0 ≤ p.1 ∧ p.1 < v.mpi.size ∧ p.1 ≠ v.mpi.rank) ∧
      ((v.updateState tracerIsDone).sent.flatMap (VoteSend.deliveries v.mpi)).Nodup) ∧
    (v.hasWork tracerIsDone = true →
      v.updateState tracerIsDone = { voter := v, sent := [], allDone := false }) := by
  constructor
  · intro hw
    have h : v.updateState tracerIsDone =
        { voter := { v with state := State.PROPOSE }
          sent := [VoteSend.SendAllOther
            { voteWorkType := VoteType.PROPOSE, sender := v.mpi.rank }]
          allDone := false } := by
      simp [TpcVoter.updateState, hstate, hw, TpcVoter.broadcast]
    refine ⟨h, ?_, ?_⟩
    · intro p
      rw [h]
      simp only [List.flatMap_cons, List.flatMap_nil, List.append_nil, VoteSend.deliveries]
      exact SendAllOther_mem _ _ _
    · rw [h]
      simp only [List.flatMap_cons, List.flatMap_nil, List.append_nil, VoteSend.deliveries]
      exact SendAllOther_nodup _ _
  · intro hw
    simp [TpcVoter.updateState, hstate, hw]

theorem C2_prepare_coordinator_tick_witness :
    (TpcVoter.new mpi03).state = State.PREPARE_COORDINATOR ∧
    (TpcVoter.new mpi03).hasWork true = false ∧
    ((TpcVoter.new mpi03).updateState true).sent.flatMap (VoteSend.deliveries mpi03) =
      [(1, { voteWorkType := VoteType.PROPOSE, sender := 0 }),
       (2, { voteWorkType := VoteType.PROPOSE, sender := 0 })] ∧
    (TpcVoter.new mpi03).updateState false =
      { voter := TpcVoter.new mpi03, sent := [], allDone := false } :=
  ⟨by decide, by decide, by decide,
    (C2_prepare_coordinator_tick (TpcVoter.new mpi03) false (by decide)).2 (by decide)⟩

/-- C3. Coordinator commit. In `PROPOSE`, once the votes of a round are all in
and the consensus test holds, the tick hands `DO_COMMIT` to `SendAllOther`,
moves to `TERMINATE` and reports done; that is the case after exactly
`size - 1` votes, all `VOTE_COMMIT`, of a round. While fewer than `size - 1`
votes of the round have arrived the tick sends nothing, changes nothing and
reports not-done. -/
theorem C3_coordinator_commit (v : TpcVoter) (tracerIsDone : Bool) (vs : List VoteType)
    (hround : RoundStart v) (hsize : 2 ≤ v.mpi.size ∧ v.mpi.size ≤ 2147483647)
    (hvs : ∀ x ∈ vs, x = VoteType.VOTE_COMMIT ∨ x = VoteType.VOTE_ABORT) :
    ((vs.length : Int) < v.mpi.size - 1 →
      (receiveVotes v vs).updateState tracerIsDone =
        { voter := receiveVotes v vs, sent := [], allDone := false }) ∧
    ((vs.length : Int) = v.mpi.size - 1 → (∀ x ∈ vs, x = VoteType.VOTE_COMMIT) →
      (receiveVotes v vs).updateState tracerIsDone =
        { voter := { receiveVotes v vs with
            state := State.TERMINATE
            numVotesReceived := 0
            commitVoteCount := 0
            allVotesAvailable := false }
          sent := [VoteSend.SendAllOther
            { voteWorkType := VoteType.DO_COMMIT, sender := v.mpi.rank }]
          allDone := true }) := by
  obtain ⟨hst, hn, hc, hf⟩ := hround
  constructor
  · intro hlen
    obtain ⟨e1, _, _, _, e5⟩ := receiveVotes_counters vs v hvs (by omega) (by omega)
      (by omega) hsize.2
    have hflag : (receiveVotes v vs).allVotesAvailable = false := by
      rw [e5, hf, hn]
      simp only [Bool.false_or, decide_eq_false_iff_not, not_and]
      intro _
      omega
    simp [TpcVoter.updateState, e1, hst, hflag]
  · intro hlen hall
    obtain ⟨e1, e2, _, e4, e5⟩ := receiveVotes_counters vs v hvs (by omega) (by omega)
      (by omega) hsize.2
    have hne : vs ≠ [] := by
      intro h
      rw [h] at hlen
      simp at hlen
      omega
    have hflag : (receiveVotes v vs).allVotesAvailable = true := by
      rw [e5, hf, hn]
      simp only [Bool.false_or, decide_eq_true_eq]
      exact ⟨hne, by omega⟩
    have hcount : vs.count VoteType.VOTE_COMMIT = vs.length :=
      List.count_eq_length.mpr (fun x hx => (hall x hx).symm)
    have hcons : (receiveVotes v vs).achievedConsensus = true := by
      simp only [TpcVoter.achievedConsensus, e4, e2, hc, hcount, beq_iff_eq]
      omega
    simp [TpcVoter.updateState, e1, hst, hflag, hcons, TpcVoter.broadcast, e2]

theorem C3_coordinator_commit_witness :
    RoundStart proposing03 ∧ (2 ≤ proposing03.mpi.size ∧ proposing03.mpi.size ≤ 2147483647) ∧
    ((receiveVotes proposing03 [VoteType.VOTE_COMMIT]).updateState true =
        { voter := receiveVotes proposing03 [VoteType.VOTE_COMMIT], sent := [],
          allDone := false }) ∧
    ((receiveVotes proposing03 [VoteType.VOTE_COMMIT, VoteType.VOTE_COMMIT]).updateState true =
        { voter := { receiveVotes proposing03 [VoteType.VOTE_COMMIT, VoteType.VOTE_COMMIT] with
            state := State.TERMINATE
            numVotesReceived := 0
            commitVoteCount := 0
            allVotesAvailable := false }
          sent := [VoteSend.SendAllOther
            { voteWorkType := VoteType.DO_COMMIT, sender := 0 }]
          allDone := true }) :=
  ⟨⟨rfl, rfl, rfl, rfl⟩, by decide,
    (C3_coordinator_commit proposing03 true [VoteType.VOTE_COMMIT] ⟨rfl, rfl, rfl, rfl⟩
      (by decide) (by simp)).1 (by decide),
    (C3_coordinator_commit proposing03 true [VoteType.VOTE_COMMIT, VoteType.VOTE_COMMIT]
      ⟨rfl, rfl, rfl, rfl⟩ (by decide) (by simp)).2 (by decide) (by simp)⟩

/-- C4. Coordinator abort. In `PROPOSE`, after the `size - 1` votes of a round
with at least one `VOTE_ABORT` among them, the tick hands `DO_ABORT` to
`SendAllOther`, reports not-done, moves to `PREPARE_COORDINATOR` and leaves
`numVotesReceived = 0`, `commitVoteCount = 0` and `allVotesAvailable = false`;
the configuration in which the next round is proposed is a round start again,
and a tick there, before any new vote, neither sends nor changes anything. -/
theorem C4_coordinator_abort (v : TpcVoter) (tracerIsDone : Bool) (vs : List VoteType)
    (hround : RoundStart v) (hsize : 2 ≤ v.mpi.size ∧ v.mpi.size ≤ 2147483647)
    (hvs : ∀ x ∈ vs, x = VoteType.VOTE_COMMIT ∨ x = VoteType.VOTE_ABORT)
    (hlen : (vs.length : Int) = v.mpi.size - 1) (habort : VoteType.VOTE_ABORT ∈ vs) :
    (receiveVotes v vs).updateState tracerIsDone =
      { voter := { receiveVotes v vs with
          state := State.PREPARE_COORDINATOR
          numVotesReceived := 0
          commitVoteCount := 0
          allVotesAvailable := false }
        sent := [VoteSend.SendAllOther
          { voteWorkType := VoteType.DO_ABORT, sender := v.mpi.rank }]
        allDone := false } ∧
    (∀ d : Bool, ((receiveVotes v vs).updateState tracerIsDone).voter.hasWork d = false →
      RoundStart ((((receiveVotes v vs).updateState tracerIsDone).voter.updateState d).voter) ∧
      ∀ d2 : Bool,
        ((((receiveVotes v vs).updateState tracerIsDone).voter.updateState d).voter).updateState d2 =
          { voter := (((receiveVotes v vs).updateState tracerIsDone).voter.updateState d).voter
            sent := []
            allDone := false }) := by
  obtain ⟨hst, hn, hc, hf⟩ := hround
  obtain ⟨e1, e2, _, e4, e5⟩ := receiveVotes_counters vs v hvs (by omega) (by omega)
    (by omega) hsize.2
  have hne : vs ≠ [] := List.ne_nil_of_mem habort
  have hflag : (receiveVotes v vs).allVotesAvailable = true := by
    rw [e5, hf, hn]
    simp only [Bool.false_or, decide_eq_true_eq]
    exact ⟨hne, by omega⟩
  have hcount : vs.count VoteType.VOTE_COMMIT < vs.length := by
    rcases Nat.lt_or_ge (vs.count VoteType.VOTE_COMMIT) vs.length with h | h
    · exact h
    · have h2 : vs.count VoteType.VOTE_COMMIT = vs.length :=
        Nat.le_antisymm (List.count_le_length _ _) h
      have h3 := List.count_eq_length.mp h2 VoteType.VOTE_ABORT habort
      exact absurd h3 (by decide)
  have hcons : (receiveVotes v vs).achievedConsensus = false := by
    simp only [TpcVoter.achievedConsensus, e4, e2, hc, beq_eq_false_iff_ne, ne_eq]
    omega
  have htick : (receiveVotes v vs).updateState tracerIsDone =
      { voter := { receiveVotes v vs with
          state := State.PREPARE_COORDINATOR
          numVotesReceived := 0
          commitVoteCount := 0
          allVotesAvailable := false }
        sent := [VoteSend.SendAllOther
          { voteWorkType := VoteType.DO_ABORT, sender := v.mpi.rank }]
        allDone := false } := by
    simp [TpcVoter.updateState, e1, hst, hflag, hcons, TpcVoter.broadcast, e2]
  refine ⟨htick, ?_⟩
  rw [htick]
  intro d hd
  have hnext : ({ receiveVotes v vs with
          state := State.PREPARE_COORDINATOR
          numVotesReceived := 0
          commitVoteCount := 0
          allVotesAvailable := false } : TpcVoter).updateState d =
      { voter := { receiveVotes v vs with
          state := State.PROPOSE
          numVotesReceived := 0
          commitVoteCount := 0
          allVotesAvailable := false }
        sent := [VoteSend.SendAllOther
          { voteWorkType := VoteType.PROPOSE, sender := v.mpi.rank }]
        allDone := false } := by
    simp only [TpcVoter.hasWork] at hd
    simp [TpcVoter.updateState, TpcVoter.hasWork, hd, TpcVoter.broadcast, e2]
  rw [hnext]
  refine ⟨⟨rfl, rfl, rfl, rfl⟩, ?_⟩
  intro d2
  simp [TpcVoter.updateState]

theorem C4_coordinator_abort_witness :
    RoundStart proposing03 ∧ (2 ≤ proposing03.mpi.size ∧ proposing03.mpi.size ≤ 2147483647) ∧
    VoteType.VOTE_ABORT ∈ [VoteType.VOTE_COMMIT, VoteType.VOTE_ABORT] ∧
    (receiveVotes proposing03 [VoteType.VOTE_COMMIT, VoteType.VOTE_ABORT]).updateState true =
      { voter := { receiveVotes proposing03 [VoteType.VOTE_COMMIT, VoteType.VOTE_ABORT] with
          state := State.PREPARE_COORDINATOR
          numVotesReceived := 0
          commitVoteCount := 0
          allVotesAvailable := false }
        sent := [VoteSend.SendAllOther
          { voteWorkType := VoteType.DO_ABORT, sender := 0 }]
        allDone := false } :=
  ⟨⟨rfl, rfl, rfl, rfl⟩, by decide, by decide,
    (C4_coordinator_abort proposing03 true [VoteType.VOTE_COMMIT, VoteType.VOTE_ABORT]
      ⟨rfl, rfl, rfl, rfl⟩ (by decide) (by simp) (by decide) (by decide)).1⟩

/-- C5. Cohort vote. In `PREPARE_COHORT` a tick taken with the propose flag
set (as `setProposeAvailable` leaves it) moves to `VOTE`, clears the flag and
sends exactly one vote, to the coordinator: `VOTE_COMMIT` if `hasWork()` is
false at that tick and `VOTE_ABORT` otherwise; a tick with the flag clear sends
nothing and changes nothing. -/
theorem C5_cohort_vote (v : TpcVoter) (tracerIsDone : Bool)
    (hstate : v.state = State.PREPARE_COHORT) :
    (v.proposeAvailable = true →
      v.updateState tracerIsDone =
        { voter := { v with state := State.VOTE, proposeAvailable := false }
          sent := [VoteSend.Send COORDINATOR
            { voteWorkType :=
                if v.hasWork tracerIsDone then VoteType.VOTE_ABORT else VoteType.VOTE_COMMIT
              sender := v.mpi.rank }]
          allDone := false }) ∧
    (v.setProposeAvailable.updateState tracerIsDone =
        { voter := { v with state := State.VOTE, proposeAvailable := false }
          sent := [VoteSend.Send 0
            { voteWorkType :=
                if v.hasWork tracerIsDone then VoteType.VOTE_ABORT else VoteType.VOTE_COMMIT
              sender := v.mpi.rank }]
          allDone := false }) ∧
    (v.proposeAvailable = false →
      v.updateState tracerIsDone = { voter := v, sent := [], allDone := false }) := by
  refine ⟨?_, ?_, ?_⟩
  · intro hp
    cases hw : v.hasWork tracerIsDone <;>
      simp_all [TpcVoter.updateState, TpcVoter.hasWork, TpcVoter.sendVote]
  · cases hw : v.hasWork tracerIsDone <;>
      simp_all [TpcVoter.updateState, TpcVoter.hasWork, TpcVoter.sendVote,
        TpcVoter.setProposeAvailable, COORDINATOR]
  · intro hp
    simp [TpcVoter.updateState, hstate, hp]

theorem C5_cohort_vote_witness :
    cohort13.state = State.PREPARE_COHORT ∧
    (cohort13.setProposeAvailable.updateState true).sent =
      [VoteSend.Send 0 { voteWorkType := VoteType.VOTE_COMMIT, sender := 1 }] ∧
    (cohort13.setProposeAvailable.updateState false).sent =
      [VoteSend.Send 0 { voteWorkType := VoteType.VOTE_ABORT, sender := 1 }] ∧
    cohort13.updateState true = { voter := cohort13, sent := [], allDone := false } :=
  ⟨by decide, by decide, by decide,
    (C5_cohort_vote cohort13 true (by decide)).2.2 (by decide)⟩

/-- C6. Cohort resolution. In `VOTE` a tick after `DO_COMMIT` was received
moves to `TERMINATE` and reports done; a tick after `DO_ABORT` was received,
with no `DO_COMMIT`, moves to `PREPARE_COHORT`, clears the decision flag and
reports not-done; a tick with no decision received changes nothing and reports
not-done. No case sends anything. -/
theorem C6_cohort_resolution (v : TpcVoter) (tracerIsDone : Bool)
    (hstate : v.state = State.VOTE) :
    (v.commit.updateState tracerIsDone =
        { voter := { v.commit with state := State.TERMINATE }, sent := [], allDone := true }) ∧
    (v.doCommit = false →
      v.abort.updateState tracerIsDone =
        { voter := { v with state := State.PREPARE_COHORT, commitAbortAvailable := false }
          sent := []
          allDone := false }) ∧
    (v.commitAbortAvailable = true → v.doCommit = true →
      v.updateState tracerIsDone =
        { voter := { v with state := State.TERMINATE }, sent := [], allDone := true }) ∧
    (v.commitAbortAvailable = true → v.doCommit = false →
      v.updateState tracerIsDone =
        { voter := { v with state := State.PREPARE_COHORT, commitAbortAvailable := false }
          sent := []
          allDone := false }) ∧
    (v.commitAbortAvailable = false →
      v.updateState tracerIsDone = { voter := v, sent := [], allDone := false }) := by
  refine ⟨?_, ?_, ?_, ?_, ?_⟩
  · simp [TpcVoter.updateState, TpcVoter.commit, hstate]
  · intro hd
    simp [TpcVoter.updateState, TpcVoter.abort, hstate, hd]
  · intro ha hd
    simp [TpcVoter.updateState, hstate, ha, hd]
  · intro ha hd
    simp [TpcVoter.updateState, hstate, ha, hd]
  · intro ha
    simp [TpcVoter.updateState, hstate, ha]

theorem C6_cohort_resolution_witness :
    (cohort13.setProposeAvailable.updateState true).voter.state = State.VOTE ∧
    ((cohort13.setProposeAvailable.updateState true).voter.commit.updateState true).allDone
      = true ∧
    ((cohort13.setProposeAvailable.updateState true).voter.abort.updateState true).voter.state
      = State.PREPARE_COHORT ∧
    (cohort13.setProposeAvailable.updateState true).voter.updateState true =
      { voter := (cohort13.setProposeAvailable.updateState true).voter, sent := []
        allDone := false } :=
  ⟨by decide, by decide, by decide,
    (C6_cohort_resolution (cohort13.setProposeAvailable.updateState true).voter true
      (by decide)).2.2.2.2 (by decide)⟩

/-- C7. `TERMINATE` resets. In `TERMINATE` a tick leaves exactly the
configuration of a freshly constructed voter of the same rank and world
(`PREPARE_COORDINATOR` on rank 0, `PREPARE_COHORT` elsewhere, all counters 0,
all flags false), sends nothing and reports not-done. -/
theorem C7_terminate_resets (v : TpcVoter) (tracerIsDone : Bool)
    (hstate : v.state = State.TERMINATE) :
    v.updateState tracerIsDone =
      { voter := TpcVoter.new v.mpi, sent := [], allDone := false } ∧
    (v.updateState tracerIsDone).voter =
      { mpi := v.mpi
        state := if v.mpi.rank = 0 then State.PREPARE_COORDINATOR else State.PREPARE_COHORT
        numPendingRays := 0
        allVotesAvailable := false
        numVotesReceived := 0
        commitVoteCount := 0
        commitAbortAvailable := false
        doCommit := false
        proposeAvailable := false } := by
  have h : v.updateState tracerIsDone =
      { voter := TpcVoter.new v.mpi, sent := [], allDone := false } := by
    simp [TpcVoter.updateState, hstate, reset_eq_new]
  refine ⟨h, ?_⟩
  rw [h]
  simp [TpcVoter.new, COORDINATOR]

theorem C7_terminate_resets_witness :
    ((cohort13.setProposeAvailable.updateState true).voter.commit.updateState true).voter.state
      = State.TERMINATE ∧
    (((cohort13.setProposeAvailable.updateState true).voter.commit.updateState
        true).voter.updateState false).voter = TpcVoter.new mpi13 :=
  ⟨by decide,
    by
      have h := (C7_terminate_resets
        ((cohort13.setProposeAvailable.updateState true).voter.commit.updateState true).voter
        false (by decide)).1
      rw [h]
      decide⟩

/-! ## Invariants of one voter -/

theorem updateState_mpi (v : TpcVoter) (d : Bool) : (v.updateState d).voter.mpi = v.mpi := by
  unfold TpcVoter.updateState
  cases v.state <;> simp only [] <;> (try split_ifs) <;> rfl

theorem updateState_stateOfRank (v : TpcVoter) (d : Bool)
    (h : StateOfRank v.mpi.rank v.state) :
    StateOfRank v.mpi.rank (v.updateState d).voter.state := by
  unfold StateOfRank at *
  unfold TpcVoter.updateState
  by_cases hr : v.mpi.rank = COORDINATOR
  · simp only [hr, if_true] at h ⊢
    rcases h with h | h | h <;> rw [h] <;> simp only [] <;>
      (try split) <;> (try split) <;> simp [TpcVoter.reset, hr, h]
  · simp only [hr, if_false] at h ⊢
    rcases h with h | h | h <;> rw [h] <;> simp only [] <;>
      (try split) <;> (try split) <;> simp [TpcVoter.reset, hr, h]

theorem receiveVote_state (v : TpcVoter) (t : VoteType) :
    (receiveVote v t).state = v.state ∧ (receiveVote v t).mpi = v.mpi := by
  cases t <;>
    simp [receiveVote, TpcVoter.setProposeAvailable, TpcVoter.commit, TpcVoter.abort,
      TpcVoter.voteCommit, TpcVoter.voteAbort]

theorem apply_stateOfRank (v w : TpcVoter) (e : VoterEvent) (h : e.apply v = some w)
    (hv : StateOfRank v.mpi.rank v.state) :
    w.mpi = v.mpi ∧ StateOfRank w.mpi.rank w.state := by
  cases e with
  | tick d =>
    simp only [VoterEvent.apply, Option.some.injEq] at h
    subst h
    rw [updateState_mpi]
    exact ⟨rfl, updateState_stateOfRank v d hv⟩
  | vote t =>
    simp only [VoterEvent.apply, Option.some.injEq] at h
    subst h
    rw [(receiveVote_state v t).1, (receiveVote_state v t).2]
    exact ⟨rfl, hv⟩
  | add_pending n =>
    simp only [VoterEvent.apply, Option.some.injEq] at h
    subst h
    exact ⟨rfl, hv⟩
  | sub_pending n =>
    simp only [VoterEvent.apply, TpcVoter.subtractNumPendingRays] at h
    split at h
    · simp only [Option.some.injEq] at h
      subst h
      exact ⟨rfl, hv⟩
    · exact absurd h (by simp)

theorem runVoter_stateOfRank (es : List VoterEvent) :
    ∀ v w : TpcVoter, runVoter v es = some w → StateOfRank v.mpi.rank v.state →
      w.mpi = v.mpi ∧ StateOfRank w.mpi.rank w.state := by
  induction es with
  | nil =>
    intro v w h hv
    simp only [runVoter, Option.some.injEq] at h
    subst h
    exact ⟨rfl, hv⟩
  | cons e es ih =>
    intro v w h hv
    simp only [runVoter] at h
    cases he : e.apply v with
    | none => rw [he] at h; exact absurd h (by simp)
    | some u =>
      rw [he] at h
      simp only [Option.some_bind] at h
      obtain ⟨h1, h2⟩ := apply_stateOfRank v u e he hv
      obtain ⟨h3, h4⟩ := ih u w h h2
      exact ⟨h3.trans h1, h4⟩

/-- C8. Rank/state invariant. In every configuration reached from
construction by ticks, vote events and pending-ray bookkeeping calls (every
call returning), the voter on rank 0 is in `PREPARE_COORDINATOR`, `PROPOSE` or
`TERMINATE`, and the voter on any other rank is in `PREPARE_COHORT`, `VOTE` or
`TERMINATE`. -/
theorem C8_rank_state_invariant (mpi : MpiInfo) (es : List VoterEvent) (v : TpcVoter)
    (hrun : runVoter (TpcVoter.new mpi) es = some v) :
    v.mpi = mpi ∧
    (mpi.rank = 0 →
      v.state = State.PREPARE_COORDINATOR ∨ v.state = State.PROPOSE ∨
        v.state = State.TERMINATE) ∧
    (mpi.rank ≠ 0 →
      v.state = State.PREPARE_COHORT ∨ v.state = State.VOTE ∨ v.state = State.TERMINATE) := by
  have h0 : StateOfRank (TpcVoter.new mpi).mpi.rank (TpcVoter.new mpi).state := by
    unfold StateOfRank TpcVoter.new
    by_cases hr : mpi.rank = COORDINATOR <;> simp [hr]
  obtain ⟨h1, h2⟩ := runVoter_stateOfRank es _ v hrun h0
  have h1 : v.mpi = mpi := h1
  rw [h1] at h2
  unfold StateOfRank COORDINATOR at h2
  refine ⟨h1, ?_, ?_⟩
  · intro hr
    simpa [hr] using h2
  · intro hr
    simpa [hr] using h2

theorem C8_rank_state_invariant_witness :
    runVoter (TpcVoter.new mpi13)
      [VoterEvent.add_pending 4, VoterEvent.vote VoteType.PROPOSE, VoterEvent.tick true,
        VoterEvent.sub_pending 4, VoterEvent.vote VoteType.DO_ABORT, VoterEvent.tick true,
        VoterEvent.vote VoteType.PROPOSE, VoterEvent.tick true,
        VoterEvent.vote VoteType.DO_COMMIT, VoterEvent.tick true]
      = some { TpcVoter.new mpi13 with
          state := State.TERMINATE, commitAbortAvailable := true, doCommit := true } ∧
    ({ TpcVoter.new mpi13 with
          state := State.TERMINATE, commitAbortAvailable := true, doCommit := true }
        : TpcVoter).state = State.TERMINATE :=
  ⟨by decide,
    by
      have h := (C8_rank_state_invariant mpi13
        [VoterEvent.add_pending 4, VoterEvent.vote VoteType.PROPOSE, VoterEvent.tick true,
          VoterEvent.sub_pending 4, VoterEvent.vote VoteType.DO_ABORT, VoterEvent.tick true,
          VoterEvent.vote VoteType.PROPOSE, VoterEvent.tick true,
          VoterEvent.vote VoteType.DO_COMMIT, VoterEvent.tick true]
        { TpcVoter.new mpi13 with
          state := State.TERMINATE, commitAbortAvailable := true, doCommit := true }
        (by decide)).2.2 (by decide)
      rcases h with h | h | h
      · exact absurd h (by decide)
      · exact absurd h (by decide)
      · exact h⟩

/-! ## Transfer gating -/

theorem opensRound_state (v : TpcVoter) (d : Bool) (h : OpensRound (v.updateState d)) :
    (v.updateState d).voter.state = State.PROPOSE ∨
      (v.updateState d).voter.state = State.VOTE := by
  obtain ⟨x, hx, hk⟩ := h
  unfold TpcVoter.updateState at hx ⊢
  cases hs : v.state <;> simp only [hs] at hx ⊢
  · split_ifs at hx ⊢
    · exact Or.inl rfl
    · simp at hx
  · split_ifs at hx ⊢
    · simp only [List.mem_singleton, TpcVoter.broadcast] at hx
      subst hx
      rcases hk with ⟨_, hk⟩ | ⟨_, _, hk⟩
      · simp at hk
      · simp at hk
    · simp only [List.mem_singleton, TpcVoter.broadcast] at hx
      subst hx
      rcases hk with ⟨_, hk⟩ | ⟨_, _, hk⟩
      · simp at hk
      · simp at hk
    · simp at hx
  · split_ifs at hx ⊢
    · exact Or.inr rfl
    · exact Or.inr rfl
    · simp at hx
  · split_ifs at hx ⊢ <;> simp at hx
  · simp at hx

theorem notAllowed_of_inRound (v : TpcVoter)
    (h : v.state = State.PROPOSE ∨ v.state = State.VOTE) :
    v.isCommunicationAllowed = false := by
  unfold TpcVoter.isCommunicationAllowed
  rcases h with h | h <;> simp [h]

theorem apply_state_in_window (v w : TpcVoter) (e : VoterEvent)
    (h : v.state = State.PROPOSE ∨ v.state = State.VOTE)
    (hwin : InWindow v [e] = true) (he : e.apply v = some w) : w.state = v.state := by
  cases e with
  | tick d =>
    simp only [VoterEvent.apply, Option.some.injEq] at he
    subst he
    simp only [InWindow, VoterEvent.apply, Bool.and_true, Bool.not_eq_true',
      outcomeAvailable, Bool.or_eq_false_iff, Bool.and_eq_false_imp, beq_iff_eq] at hwin
    unfold TpcVoter.updateState
    rcases h with h | h
    · have := hwin.1 h
      simp [h, this]
    · have := hwin.2 h
      simp [h, this]
  | vote t =>
    simp only [VoterEvent.apply, Option.some.injEq] at he
    subst he
    exact (receiveVote_state v t).1
  | add_pending n =>
    simp only [VoterEvent.apply, Option.some.injEq] at he
    subst he
    rfl
  | sub_pending n =>
    simp only [VoterEvent.apply, TpcVoter.subtractNumPendingRays] at he
    split at he
    · simp only [Option.some.injEq] at he
      subst he
      rfl
    · exact absurd he (by simp)

theorem runVoter_state_in_window (es : List VoterEvent) :
    ∀ v w : TpcVoter, (v.state = State.PROPOSE ∨ v.state = State.VOTE) →
      InWindow v es = true → runVoter v es = some w → w.state = v.state := by
  induction es with
  | nil =>
    intro v w _ _ h
    simp only [runVoter, Option.some.injEq] at h
    subst h
    rfl
  | cons e es ih =>
    intro v w hv hwin h
    simp only [runVoter] at h
    cases he : e.apply v with
    | none => rw [he] at h; exact absurd h (by simp)
    | some u =>
      rw [he] at h
      simp only [Option.some_bind] at h
      simp only [InWindow, he, Bool.and_eq_true] at hwin
      have hw1 : InWindow v [e] = true := by
        simp only [InWindow, he, Bool.and_true]
        exact hwin.1
      have hw2 : InWindow u es = true := hwin.2
      have hu : u.state = v.state := apply_state_in_window v u e hv hw1 he
      have := ih u w (by rw [hu]; exact hv) hw2 h
      rw [this, hu]

theorem TransferRays_gated {Ray : Type} (mpiInstanceMap : Int → Int) (t : DomainTracer Ray)
    (v : TpcVoter) (hv : t.voter = some v) (hsize : 1 < t.mpiInfo.size)
    (hgate : v.isCommunicationAllowed = false) :
    TransferRays mpiInstanceMap t = TransferRays.vote t v [] [] := by
  simp [TransferRays, hsize, hv, hgate]

/-- C9. Transfer gating during a round. Take the configuration left by a tick
that broadcast `PROPOSE` or sent a vote, and any calls after it (ticks, vote
events, pending-ray bookkeeping) among which no tick consumes the outcome of
the round. The voter is then still in the state the opening tick left,
`PROPOSE` or `VOTE`, and `isCommunicationAllowed()` is false; a `TransferRays`
entered there calls neither `SendRays` nor `RecvRays`: it makes the one call of
`updateState`, hands nothing but that tick's votes to the communicator and
leaves the queues and the inbound work queue as they are. -/
theorem C9_transfer_gating (v0 : TpcVoter) (d : Bool) (es : List VoterEvent) (w : TpcVoter)
    (hopen : OpensRound (v0.updateState d))
    (hwin : InWindow (v0.updateState d).voter es = true)
    (hrun : runVoter (v0.updateState d).voter es = some w) :
    (w.state = State.PROPOSE ∨ w.state = State.VOTE) ∧
    w.state = (v0.updateState d).voter.state ∧
    w.isCommunicationAllowed = false ∧
    ∀ (Ray : Type) (mpiInstanceMap : Int → Int) (t : DomainTracer Ray) (r : Transfer Ray),
      t.voter = some w → 1 < t.mpiInfo.size → TransferRays mpiInstanceMap t = some r →
        r.calls = [Call.updateState] ∧ r.tracer.queue = t.queue ∧ r.tracer.workQ = t.workQ ∧
        r.sent = voteWork w.mpi (w.updateState (IsDone t.queue)).sent := by
  have h1 := opensRound_state v0 d hopen
  have h2 := runVoter_state_in_window es _ w h1 hwin hrun
  have h3 : w.state = State.PROPOSE ∨ w.state = State.VOTE := by rw [h2]; exact h1
  have h4 := notAllowed_of_inRound w h3
  refine ⟨h3, h2, h4, ?_⟩
  intro Ray mpiInstanceMap t r hv hsize hr
  rw [TransferRays_gated mpiInstanceMap t w hv hsize h4] at hr
  unfold TransferRays.vote at hr
  simp only [] at hr
  split at hr
  · simp only [Option.some.injEq] at hr
    subst hr
    simp
  · exact absurd hr (by simp)

theorem C9_transfer_gating_witness :
    OpensRound (cohort13.setProposeAvailable.updateState true) ∧
    InWindow (cohort13.setProposeAvailable.updateState true).voter
      [VoterEvent.tick true, VoterEvent.add_pending 2, VoterEvent.vote VoteType.PROPOSE,
        VoterEvent.tick false] = true ∧
    runVoter (cohort13.setProposeAvailable.updateState true).voter
      [VoterEvent.tick true, VoterEvent.add_pending 2, VoterEvent.vote VoteType.PROPOSE,
        VoterEvent.tick false] =
      some { cohort13 with state := State.VOTE, numPendingRays := 2, proposeAvailable := true } ∧
    ({ cohort13 with state := State.VOTE, numPendingRays := 2, proposeAvailable := true }
      : TpcVoter).isCommunicationAllowed = false :=
  ⟨⟨_, List.mem_singleton.mpr rfl, Or.inr ⟨_, _, rfl⟩⟩, by decide, by decide,
    (C9_transfer_gating cohort13.setProposeAvailable true
      [VoterEvent.tick true, VoterEvent.add_pending 2, VoterEvent.vote VoteType.PROPOSE,
        VoterEvent.tick false]
      { cohort13 with state := State.VOTE, numPendingRays := 2, proposeAvailable := true }
      ⟨_, List.mem_singleton.mpr rfl, Or.inr ⟨_, _, rfl⟩⟩ (by decide) (by decide)).2.2.1⟩

/-! ## Work detection -/

theorem IsDone_iff {Ray : Type} (queue : RayQueues Ray) :
    IsDone queue = true ↔ ∀ q ∈ queue, q.2 = [] := by
  simp [IsDone, List.all_eq_true, List.isEmpty_iff]

theorem C10_has_work_counterexample :
    negativePending13.numPendingRays = -1 ∧
    negativePending13.hasWork (IsDone ([] : RayQueues Unit)) = true ∧
    ¬ ((∃ q ∈ ([] : RayQueues Unit), q.2 ≠ []) ∨ 0 < negativePending13.numPendingRays) := by
  refine ⟨by decide, by decide, ?_⟩
  rintro (⟨q, hq, _⟩ | h)
  · simp at hq
  · exact absurd h (by decide)

/-- C10, amended. `hasWork()` is true if and only if some local ray queue is
not empty or `numPendingRays` is different from 0; on the configurations with
`numPendingRays >= 0` this is the same as some queue being non-empty or
`numPendingRays > 0`. -/
theorem C10_has_work_amended {Ray : Type} (v : TpcVoter) (queue : RayQueues Ray) :
    (v.hasWork (IsDone queue) = true ↔
      ((∃ q ∈ queue, q.2 ≠ []) ∨ v.numPendingRays ≠ 0)) ∧
    (0 ≤ v.numPendingRays →
      (v.hasWork (IsDone queue) = true ↔
        ((∃ q ∈ queue, q.2 ≠ []) ∨ 0 < v.numPendingRays))) := by
  have key : v.hasWork (IsDone queue) = true ↔
      ((∃ q ∈ queue, q.2 ≠ []) ∨ v.numPendingRays ≠ 0) := by
    unfold TpcVoter.hasWork
    cases hd : IsDone queue
    · have h1 : ¬ ∀ q ∈ queue, q.2 = [] := by
        rw [← IsDone_iff, hd]
        simp
      have h2 : ∃ q ∈ queue, q.2 ≠ [] := by
        by_contra hc
        apply h1
        intro q hq
        by_contra hne
        exact hc ⟨q, hq, hne⟩
      simp only [Bool.false_and, Bool.not_false, true_iff]
      exact Or.inl h2
    · have h1 : ∀ q ∈ queue, q.2 = [] := (IsDone_iff queue).mp hd
      have h2 : ¬ ∃ q ∈ queue, q.2 ≠ [] := by
        rintro ⟨q, hq, hne⟩
        exact hne (h1 q hq)
      simp only [Bool.true_and, Bool.not_eq_true', beq_eq_false_iff_ne, ne_eq, h2, false_or]
  refine ⟨key, ?_⟩
  intro h0
  rw [key]
  constructor
  · rintro (h | h)
    · exact Or.inl h
    · exact Or.inr (by omega)
  · rintro (h | h)
    · exact Or.inl h
    · exact Or.inr (by omega)

theorem C10_has_work_amended_witness :
    (0 : Int) ≤ ((TpcVoter.new mpi13).addNumPendingRays 3).numPendingRays ∧
    (((TpcVoter.new mpi13).addNumPendingRays 3).hasWork
        (IsDone ([(0, [])] : RayQueues Unit)) = true ↔
      ((∃ q ∈ ([(0, [])] : RayQueues Unit), q.2 ≠ []) ∨
        0 < ((TpcVoter.new mpi13).addNumPendingRays 3).numPendingRays)) :=
  ⟨by decide,
    (C10_has_work_amended ((TpcVoter.new mpi13).addNumPendingRays 3)
      ([(0, [])] : RayQueues Unit)).2 (by decide)⟩

/-! ## Safety of the vote -/

variable {Ray : Type}

/-! ## The world under its updates -/

@[simp] theorem setNode_node (w : World Ray) (r k : Int) (n : Node Ray) :
    (w.setNode r n).node k = if k = r then n else w.node k := rfl

@[simp] theorem setNode_chan (w : World Ray) (r : Int) (n : Node Ray) :
    (w.setNode r n).chan = w.chan := rfl

@[simp] theorem post_node (w : World Ray) (s : Int) (m : List (Int × Work Ray)) :
    (w.post s m).node = w.node := rfl

@[simp] theorem post_chan (w : World Ray) (s a b : Int) (m : List (Int × Work Ray)) :
    (w.post s m).chan a b = if a = s then w.chan a b ++ msgsTo b m else w.chan a b := rfl

@[simp] theorem pop_node (w : World Ray) (s d : Int) : (w.pop s d).node = w.node := rfl

@[simp] theorem pop_chan (w : World Ray) (s d a b : Int) :
    (w.pop s d).chan a b = if a = s ∧ b = d then (w.chan a b).tail else w.chan a b := rfl

@[simp] theorem votesOf_nil : votesOf ([] : List (Work Ray)) = [] := rfl

@[simp] theorem votesOf_append (l1 l2 : List (Work Ray)) :
    votesOf (l1 ++ l2) = votesOf l1 ++ votesOf l2 := by
  simp [votesOf, List.filterMap_append]

@[simp] theorem votesOf_cons_vote (x : Vote) (l : List (Work Ray)) :
    votesOf (Work.vote x :: l) = x.voteWorkType :: votesOf l := by
  simp [votesOf, List.filterMap_cons]

@[simp] theorem votesOf_cons_rays (x : RemoteRays Ray) (l : List (Work Ray)) :
    votesOf (Work.remoteRays x :: l) = votesOf l := by
  simp [votesOf, List.filterMap_cons]

theorem voter_eq_of_node (w w1 : World Ray) (k : Int)
    (h : (w1.node k).tracer.voter = (w.node k).tracer.voter) : w1.voter k = w.voter k := by
  simp [World.voter, h]

theorem voter_of_some (w : World Ray) (k : Int) (v : TpcVoter)
    (h : (w.node k).tracer.voter = some v) : w.voter k = v := by
  simp [World.voter, h]

theorem shape_eq (w w1 : World Ray) (i : Int)
    (hv : w1.voter i = w.voter i) (hd : votesOf (w1.chan 0 i) = votesOf (w.chan 0 i))
    (hu : votesOf (w1.chan i 0) = votesOf (w.chan i 0)) : w1.shape i = w.shape i := by
  simp [World.shape, hv, hd, hu]

theorem notAllowed_of_state (v : TpcVoter) (h : v.state ≠ State.PREPARE_COORDINATOR)
    (h2 : v.state ≠ State.PREPARE_COHORT) : v.isCommunicationAllowed = false := by
  unfold TpcVoter.isCommunicationAllowed
  simp [h, h2]

theorem notAllowed_coordinator (v : TpcVoter) (hr : v.mpi.rank = 0)
    (h : v.state ≠ State.PREPARE_COORDINATOR) : v.isCommunicationAllowed = false := by
  unfold TpcVoter.isCommunicationAllowed
  simp [h, hr, COORDINATOR]

theorem cohortOK_idle (cs : State) (inV inC : Prop) (sh : Shape) (idle idle1 : Prop)
    (h : CohortOK cs inV inC sh idle)
    (hi : idle → sh.state ≠ State.PREPARE_COHORT → sh.state ≠ State.PREPARE_COORDINATOR →
      idle1) : CohortOK cs inV inC sh idle1 := by
  cases cs <;> simp only [CohortOK] at h ⊢
  · exact h
  · obtain ⟨h1, h2⟩ := h
    constructor
    · intro hV
      obtain ⟨c1, c2⟩ := h1 hV
      exact ⟨c1, fun hC => hi (c2 hC) (by rw [c1]; decide) (by rw [c1]; decide)⟩
    · intro hV
      rcases h2 hV with c | c | c | c | c | ⟨c, d⟩ | c
      · exact Or.inl c
      · exact Or.inr (Or.inl c)
      · exact Or.inr (Or.inr (Or.inl c))
      · exact Or.inr (Or.inr (Or.inr (Or.inl c)))
      · exact Or.inr (Or.inr (Or.inr (Or.inr (Or.inl c))))
      · exact Or.inr (Or.inr (Or.inr (Or.inr (Or.inr (Or.inl
          ⟨c, hi d (by rw [c]; decide) (by rw [c]; decide)⟩)))))
      · exact Or.inr (Or.inr (Or.inr (Or.inr (Or.inr (Or.inr c)))))
  · obtain ⟨h1, h2⟩ := h
    refine ⟨?_, h2⟩
    rcases h2 with c | c | c <;> exact hi h1 (by rw [c]; decide) (by rw [c]; decide)

theorem coordinatorOK_congr (N : Int) (v v1 : TpcVoter) (idle idle1 : Prop) (V C : Finset Int)
    (h : CoordinatorOK N v idle V C)
    (h0 : v1.state = v.state ∧ v1.numVotesReceived = v.numVotesReceived ∧
      v1.commitVoteCount = v.commitVoteCount ∧ v1.allVotesAvailable = v.allVotesAvailable)
    (hi : idle → v.state ≠ State.PREPARE_COORDINATOR → idle1) :
    CoordinatorOK N v1 idle1 V C := by
  obtain ⟨e1, e2, e3, e4⟩ := h0
  unfold CoordinatorOK at h ⊢
  rw [e1, e2, e3, e4]
  cases hcs : v.state <;> simp only [hcs] at h ⊢
  · exact h
  · exact ⟨hi h.1 (by rw [hcs]; decide), h.2⟩
  · exact hi h (by rw [hcs]; decide)

/-- Frame rule of the vote invariant: a step that leaves the vote fields of
the coordinator and the shape of every cohort alone, and that keeps idle every
rank that may not communicate, keeps the cohorts in order. -/
theorem cohortsOK_frame (N : Int) (w w1 : World Ray) (hr : RanksOK N w) (hN : 2 ≤ N)
    (h0 : (w1.voter 0).state = (w.voter 0).state ∧
      (w1.voter 0).numVotesReceived = (w.voter 0).numVotesReceived ∧
      (w1.voter 0).commitVoteCount = (w.voter 0).commitVoteCount ∧
      (w1.voter 0).allVotesAvailable = (w.voter 0).allVotesAvailable)
    (hs : ∀ i, 1 ≤ i → i < N → w1.shape i = w.shape i)
    (hi : ∀ k, 0 ≤ k → k < N → w.idle k →
      w1.idle k ∨ (w.voter k).isCommunicationAllowed = true)
    (h : CohortsOK N w) : CohortsOK N w1 := by
  have hrank0 : (w.voter 0).mpi.rank = 0 := by
    rw [(hr 0 (by omega) (by omega)).2.1]
  obtain ⟨V, C, hc, hk⟩ := h
  refine ⟨V, C, ?_, ?_⟩
  · refine coordinatorOK_congr N _ _ _ _ V C hc h0 ?_
    intro hid hs1
    rcases hi 0 (by omega) (by omega) hid with h | h
    · exact h
    · rw [notAllowed_coordinator _ hrank0 hs1] at h
      exact absurd h (by simp)
  · intro i hi1 hiN
    rw [h0.1, hs i hi1 hiN]
    refine cohortOK_idle _ _ _ _ _ _ (hk i hi1 hiN) ?_
    intro hid hs1 hs2
    rcases hi i (by omega) hiN hid with h | h
    · exact h
    · rw [notAllowed_of_state _ hs2 hs1] at h
      exact absurd h (by simp)

/-- A voter that differs from `v` in the pending-ray counter at most. -/
theorem voter_fields_of_eq (v v1 : TpcVoter)
    (h : v1 = { v with numPendingRays := v1.numPendingRays }) :
    v1.mpi = v.mpi ∧ v1.state = v.state ∧ v1.allVotesAvailable = v.allVotesAvailable ∧
    v1.numVotesReceived = v.numVotesReceived ∧ v1.commitVoteCount = v.commitVoteCount ∧
    v1.commitAbortAvailable = v.commitAbortAvailable ∧ v1.doCommit = v.doCommit ∧
    v1.proposeAvailable = v.proposeAvailable := by
  rw [h]
  simp

/-- Steps that do not touch the vote: rank `r` changes its queues, its work
queue or its pending-ray counter, and no vote is added to or taken from a
channel. -/
theorem inv_local (N : Int) (hN : 2 ≤ N) (w w1 : World Ray) (r : Int) (v1 : TpcVoter)
    (hinv : Inv N w)
    (ha : ∀ k, k ≠ r → w1.node k = w.node k)
    (hb1 : (w1.node r).tracer.voter = some v1)
    (hb2 : v1 = { w.voter r with numPendingRays := v1.numPendingRays })
    (hb3 : (w1.node r).tracer.mpiInfo = (w.node r).tracer.mpiInfo)
    (hb4 : (w1.node r).finished = (w.node r).finished)
    (hc : ∀ a b, votesOf (w1.chan a b) = votesOf (w.chan a b))
    (hd : BatchesOK w1)
    (he : w.idle r → w1.idle r ∨ (w.voter r).isCommunicationAllowed = true) : Inv N w1 := by
  obtain ⟨f1, f2, f3, f4, f5, f6, f7, f8⟩ := voter_fields_of_eq _ _ hb2
  have hvr : w1.voter r = v1 := voter_of_some _ _ _ hb1
  have hvk : ∀ k, k ≠ r → w1.voter k = w.voter k := by
    intro k hk
    simp [World.voter, ha k hk]
  have hfields : ∀ k, (w1.voter k).mpi = (w.voter k).mpi ∧
      (w1.voter k).state = (w.voter k).state ∧
      (w1.voter k).allVotesAvailable = (w.voter k).allVotesAvailable ∧
      (w1.voter k).numVotesReceived = (w.voter k).numVotesReceived ∧
      (w1.voter k).commitVoteCount = (w.voter k).commitVoteCount ∧
      (w1.voter k).commitAbortAvailable = (w.voter k).commitAbortAvailable ∧
      (w1.voter k).doCommit = (w.voter k).doCommit ∧
      (w1.voter k).proposeAvailable = (w.voter k).proposeAvailable := by
    intro k
    by_cases hk : k = r
    · subst hk
      rw [hvr]
      exact ⟨f1, f2, f3, f4, f5, f6, f7, f8⟩
    · rw [hvk k hk]
      simp
  refine ⟨?_, ?_, hd, ?_, ?_⟩
  · intro k hk0 hkN
    obtain ⟨g1, g2, g3⟩ := hinv.ranks k hk0 hkN
    by_cases hk : k = r
    · subst hk
      refine ⟨by rw [hb1, hvr], by rw [(hfields k).1, g2], by rw [hb3, g3]⟩
    · refine ⟨by rw [hvk k hk, ha k hk, g1], by rw [(hfields k).1, g2], by rw [ha k hk, g3]⟩
  · intro a b h1 h2
    rw [hc a b]
    exact hinv.votes a b h1 h2
  · intro k hk0 hkN
    rw [(hfields k).2.1]
    by_cases hk : k = r
    · subst hk
      rw [hb4]
      exact hinv.fin k hk0 hkN
    · rw [ha k hk]
      exact hinv.fin k hk0 hkN
  · refine cohortsOK_frame N w w1 hinv.ranks hN
      ⟨(hfields 0).2.1, (hfields 0).2.2.2.1, (hfields 0).2.2.2.2.1, (hfields 0).2.2.1⟩
      ?_ ?_ hinv.cohorts
    · intro i _ _
      obtain ⟨g1, g2, g3, g4, g5, g6, g7, g8⟩ := hfields i
      simp [World.shape, g2, g6, g7, g8, hc]
    · intro k _ _ hid
      by_cases hk : k = r
      · subst hk
        exact he hid
      · left
        unfold World.idle at hid ⊢
        rw [hvk k hk, ha k hk]
        exact hid

/-! ## What `SendRays` and `RecvRays` hand to the communicator -/

theorem SendRays_voter (owner : Int → Int) (rank : Int) :
    ∀ (queue : RayQueues Ray) (v : TpcVoter),
      (SendRays owner rank v queue).voter =
        { v with numPendingRays := (SendRays owner rank v queue).voter.numPendingRays } := by
  intro queue
  induction queue with
  | nil => intro v; simp [SendRays]
  | cons q rest ih =>
    intro v
    unfold SendRays
    simp only []
    split_ifs
    · have h := ih (v.addNumPendingRays (wrapInt q.2.length))
      simp only [] at h ⊢
      rw [h]
      simp [TpcVoter.addNumPendingRays]
    · exact ih v

theorem SendRays_sent (owner : Int → Int) (rank : Int) :
    ∀ (queue : RayQueues Ray) (v : TpcVoter), batchesFit owner rank queue = true →
      ∀ m ∈ (SendRays owner rank v queue).sent, ∃ rays, m.2 = Work.remoteRays rays ∧
        CountOK rays := by
  intro queue
  induction queue with
  | nil => intro v _ m hm; simp [SendRays] at hm
  | cons q rest ih =>
    intro v hfit m hm
    have hfit2 : batchesFit owner rank rest = true := by
      simp only [batchesFit, List.all_cons, Bool.and_eq_true] at hfit ⊢
      exact hfit.2
    unfold SendRays at hm
    simp only [] at hm
    split_ifs at hm with hc
    · simp only [List.mem_cons] at hm
      rcases hm with rfl | hm
      · refine ⟨_, rfl, ?_⟩
        simp only [batchesFit, List.all_cons, Bool.and_eq_true, Bool.or_eq_true, beq_iff_eq,
          decide_eq_true_eq] at hfit
        unfold CountOK
        simp only []
        rcases hfit.1 with h | h
        · exact absurd h hc.1
        · omega
      · exact ih _ hfit2 m hm
    · exact ih _ hfit2 m hm

theorem SendRays_of_isDone (owner : Int → Int) (rank : Int) :
    ∀ (queue : RayQueues Ray) (v : TpcVoter), IsDone queue = true →
      (SendRays owner rank v queue).voter = v ∧ (SendRays owner rank v queue).queue = queue ∧
      (SendRays owner rank v queue).sent = [] := by
  intro queue
  induction queue with
  | nil => intro v _; simp [SendRays]
  | cons q rest ih =>
    intro v hd
    simp only [IsDone, List.all_cons, Bool.and_eq_true, List.isEmpty_iff] at hd
    have hrest : IsDone rest = true := by
      simp only [IsDone]
      exact hd.2
    unfold SendRays
    simp only [hd.1, List.length_nil, lt_self_iff_false, and_false, if_false]
    obtain ⟨h1, h2, h3⟩ := ih v hrest
    exact ⟨h1, by rw [h2], h3⟩

@[simp] theorem RecvRays_workQ (rank : Int) :
    ∀ (workQ : List (RemoteRays Ray)) (queue : RayQueues Ray),
      (RecvRays rank queue workQ).workQ = [] := by
  intro workQ
  induction workQ with
  | nil => intro queue; rfl
  | cons x rest ih => intro queue; exact ih _

theorem RecvRays_sent (rank : Int) :
    ∀ (workQ : List (RemoteRays Ray)) (queue : RayQueues Ray),
      (∀ rays ∈ workQ, CountOK rays) →
      ∀ m ∈ (RecvRays rank queue workQ).sent, ∃ rays, m.2 = Work.remoteRays rays ∧
        CountOK rays := by
  intro workQ
  induction workQ with
  | nil => intro queue _ m hm; simp [RecvRays] at hm
  | cons x rest ih =>
    intro queue hq m hm
    unfold RecvRays at hm
    simp only [List.mem_cons] at hm
    rcases hm with rfl | hm
    · refine ⟨_, rfl, ?_⟩
      exact hq x (List.mem_cons_self _ _)
    · exact ih _ (fun y hy => hq y (List.mem_cons_of_mem _ hy)) m hm

theorem mem_msgsTo (b : Int) (l : List (Int × Work Ray)) (x : Work Ray)
    (h : x ∈ msgsTo b l) : ∃ m ∈ l, m.2 = x := by
  simp only [msgsTo, List.mem_map, List.mem_filter] at h
  obtain ⟨m, ⟨hm, _⟩, rfl⟩ := h
  exact ⟨m, hm, rfl⟩

theorem votesOf_eq_nil (l : List (Work Ray))
    (h : ∀ x ∈ l, ∃ rays, x = Work.remoteRays rays) : votesOf l = [] := by
  induction l with
  | nil => rfl
  | cons x rest ih =>
    obtain ⟨rays, rfl⟩ := h _ (List.mem_cons_self _ _)
    simp only [votesOf_cons_rays]
    exact ih (fun y hy => h y (List.mem_cons_of_mem _ hy))

theorem votesOf_msgsTo_rays (b : Int) (l : List (Int × Work Ray))
    (h : ∀ m ∈ l, ∃ rays, m.2 = Work.remoteRays rays ∧ CountOK rays) :
    votesOf (msgsTo b l) = [] := by
  apply votesOf_eq_nil
  intro x hx
  obtain ⟨m, hm, rfl⟩ := mem_msgsTo b l x hx
  obtain ⟨rays, h1, _⟩ := h m hm
  exact ⟨rays, h1⟩

/-- Batches stay good when rank `r` posts good batches and leaves a good work
queue. -/
theorem batchesOK_post (w : World Ray) (r : Int) (n : Node Ray) (l : List (Int × Work Ray))
    (hw : BatchesOK w)
    (hl : ∀ m ∈ l, ∃ rays, m.2 = Work.remoteRays rays ∧ CountOK rays)
    (hn : ∀ rays ∈ n.tracer.workQ, CountOK rays) :
    BatchesOK ((w.setNode r n).post r l) := by
  constructor
  · intro a b rays hmem
    simp only [post_chan, setNode_chan] at hmem
    split_ifs at hmem
    · rcases List.mem_append.mp hmem with h | h
      · exact hw.1 a b rays h
      · obtain ⟨m, hm, h2⟩ := mem_msgsTo b l _ h
        obtain ⟨rays2, h3, h4⟩ := hl m hm
        rw [h3] at h2
        injection h2 with h5
        rw [← h5]
        exact h4
    · exact hw.1 a b rays hmem
  · intro k rays hmem
    simp only [post_node, setNode_node] at hmem
    split_ifs at hmem
    · exact hn rays hmem
    · exact hw.2 k rays hmem

/-! ## Steps that do not touch the vote -/

theorem inv_trace (N : Int) (hN : 2 ≤ N) (owner : Int → Int) (w w1 : World Ray) (r : Int)
    (q : RayQueues Ray) (hinv : Inv N w)
    (hstep : w.step N owner (Event.trace r q) = some w1) : Inv N w1 := by
  simp only [World.step] at hstep
  split_ifs at hstep with hc
  obtain ⟨hr0, hrN, _, hnd⟩ := hc
  simp only [Option.some.injEq] at hstep
  subst hstep
  refine inv_local N hN w _ r (w.voter r) hinv ?_ ?_ rfl ?_ ?_ ?_ ?_ ?_
  · intro k hk
    simp [hk]
  · simp only [setNode_node, if_true]
    exact (hinv.ranks r hr0 hrN).1
  · simp
  · simp
  · intro a b
    simp
  · constructor
    · intro a b rays hmem
      exact hinv.batches.1 a b rays hmem
    · intro k rays hmem
      simp only [setNode_node] at hmem
      split_ifs at hmem with hk
      · subst hk
        exact hinv.batches.2 k rays hmem
      · exact hinv.batches.2 k rays hmem
  · intro hid
    rw [hid.1] at hnd
    exact absurd hnd (by simp)

theorem inv_send (N : Int) (hN : 2 ≤ N) (owner : Int → Int) (w w1 : World Ray) (r : Int)
    (hinv : Inv N w) (hstep : w.step N owner (Event.send r) = some w1) : Inv N w1 := by
  simp only [World.step] at hstep
  split_ifs at hstep with hc
  obtain ⟨hr0, hrN, _⟩ := hc
  obtain ⟨hv, _, _⟩ := hinv.ranks r hr0 hrN
  rw [hv] at hstep
  simp only [] at hstep
  split_ifs at hstep with hg
  simp only [Option.some.injEq] at hstep
  subst hstep
  have hsent := SendRays_sent owner (w.node r).tracer.mpiInfo.rank (w.node r).tracer.queue
    (w.voter r) hg.2
  refine inv_local N hN w _ r
    (SendRays owner (w.node r).tracer.mpiInfo.rank (w.voter r) (w.node r).tracer.queue).voter
    hinv ?_ ?_ (SendRays_voter _ _ _ _) ?_ ?_ ?_ ?_ ?_
  · intro k hk
    simp [hk]
  · simp
  · simp
  · simp
  · intro a b
    simp only [post_chan, setNode_chan]
    split_ifs
    · rw [votesOf_append, votesOf_msgsTo_rays b _ hsent, List.append_nil]
    · rfl
  · exact batchesOK_post w r _ _ hinv.batches hsent (fun rays hm => hinv.batches.2 r rays hm)
  · intro _
    exact Or.inr hg.1

theorem inv_recv (N : Int) (hN : 2 ≤ N) (owner : Int → Int) (w w1 : World Ray) (r : Int)
    (hinv : Inv N w) (hstep : w.step N owner (Event.recv r) = some w1) : Inv N w1 := by
  simp only [World.step] at hstep
  split_ifs at hstep with hc
  obtain ⟨hr0, hrN, _⟩ := hc
  obtain ⟨hv, _, _⟩ := hinv.ranks r hr0 hrN
  rw [hv] at hstep
  simp only [] at hstep
  split_ifs at hstep with hg
  simp only [Option.some.injEq] at hstep
  subst hstep
  have hsent := RecvRays_sent (w.node r).tracer.mpiInfo.rank (w.node r).tracer.workQ
    (w.node r).tracer.queue (fun rays hm => hinv.batches.2 r rays hm)
  refine inv_local N hN w _ r (w.voter r) hinv ?_ ?_ rfl ?_ ?_ ?_ ?_ ?_
  · intro k hk
    simp [hk]
  · simp [hv]
  · simp
  · simp
  · intro a b
    simp only [post_chan, setNode_chan]
    split_ifs
    · rw [votesOf_append, votesOf_msgsTo_rays b _ hsent, List.append_nil]
    · rfl
  · exact batchesOK_post w r _ _ hinv.batches hsent (fun rays hm => by simp at hm)
  · intro _
    exact Or.inr hg

theorem mem_chan_pop (w : World Ray) (s d a b : Int) (x : Work Ray)
    (h : x ∈ (w.pop s d).chan a b) : x ∈ w.chan a b := by
  simp only [pop_chan] at h
  split_ifs at h
  · exact List.mem_of_mem_tail h
  · exact h

theorem inv_deliver_rays (N : Int) (hN : 2 ≤ N) (owner : Int → Int) (w w1 : World Ray)
    (src dst : Int) (rays : RemoteRays Ray) (rest : List (Work Ray)) (hinv : Inv N w)
    (hchan : w.chan src dst = Work.remoteRays rays :: rest)
    (hstep : w.step N owner (Event.deliver src dst) = some w1) : Inv N w1 := by
  simp only [World.step, hchan] at hstep
  split_ifs at hstep with hc
  obtain ⟨hd0, hdN⟩ := hc
  obtain ⟨hv, _, _⟩ := hinv.ranks dst hd0 hdN
  have hcount : CountOK rays := hinv.batches.1 src dst rays (by rw [hchan]; simp)
  have hvotes : ∀ a b, votesOf ((w.pop src dst).chan a b) = votesOf (w.chan a b) := by
    intro a b
    simp only [pop_chan]
    split_ifs with h
    · obtain ⟨rfl, rfl⟩ := h
      rw [hchan]
      simp
    · rfl
  simp only [dispatch] at hstep
  cases ht : rays.header.transfer_type
  · -- a request is buffered
    simp only [ht, Option.some.injEq] at hstep
    subst hstep
    refine inv_local N hN w _ dst (w.voter dst) hinv ?_ ?_ rfl ?_ ?_ ?_ ?_ ?_
    · intro k hk
      simp [hk]
    · simp only [setNode_node, if_true]
      exact hv
    · simp
    · simp
    · intro a b
      simp only [setNode_chan]
      exact hvotes a b
    · constructor
      · intro a b x hmem
        simp only [setNode_chan] at hmem
        exact hinv.batches.1 a b x (mem_chan_pop w src dst a b _ hmem)
      · intro k x hmem
        simp only [setNode_node, pop_node] at hmem
        split_ifs at hmem with hk
        · rcases List.mem_append.mp hmem with h | h
          · exact hinv.batches.2 dst x h
          · simp only [List.mem_singleton] at h
            subst h
            exact hcount
        · exact hinv.batches.2 k x hmem
    · intro hid
      left
      unfold World.idle at hid ⊢
      have : ((w.pop src dst).setNode dst
          { (w.node dst) with
            tracer := { (w.node dst).tracer with workQ := (w.node dst).tracer.workQ ++ [rays] } }).voter
          dst = w.voter dst := by
        apply voter_eq_of_node
        simp
      rw [this]
      simpa using hid
  · -- a grant is subtracted from the pending rays
    simp only [ht, hv] at hstep
    cases hsub : (w.voter dst).subtractNumPendingRays rays.header.num_rays with
    | none => rw [hsub] at hstep; exact absurd hstep (by simp)
    | some v1 =>
      rw [hsub] at hstep
      simp only [Option.some.injEq] at hstep
      subst hstep
      have hv1 : v1 = { w.voter dst with numPendingRays := v1.numPendingRays } := by
        simp only [TpcVoter.subtractNumPendingRays] at hsub
        split_ifs at hsub
        simp only [Option.some.injEq] at hsub
        rw [← hsub]
      refine inv_local N hN w _ dst v1 hinv ?_ ?_ hv1 ?_ ?_ ?_ ?_ ?_
      · intro k hk
        simp [hk]
      · simp
      · simp
      · simp
      · intro a b
        simp only [setNode_chan]
        exact hvotes a b
      · constructor
        · intro a b x hmem
          simp only [setNode_chan] at hmem
          exact hinv.batches.1 a b x (mem_chan_pop w src dst a b _ hmem)
        · intro k x hmem
          simp only [setNode_node, pop_node] at hmem
          split_ifs at hmem with hk
          · exact hinv.batches.2 dst x hmem
          · exact hinv.batches.2 k x hmem
      · intro hid
        exfalso
        simp only [TpcVoter.subtractNumPendingRays, hid.2] at hsub
        unfold CountOK at hcount
        split_ifs at hsub with hneg
        unfold wrapInt at hneg
        omega

/-! ## Steps of one cohort -/

theorem idle_eq_of_node (w w1 : World Ray) (k : Int) (h : w1.node k = w.node k) :
    w1.idle k ↔ w.idle k := by
  unfold World.idle World.voter
  rw [h]

/-- Steps of cohort `j` that touch nothing but its own node and the two vote
channels between it and the coordinator. -/
theorem inv_cohort (N : Int) (w w1 : World Ray) (j : Int) (hj1 : 1 ≤ j)
    (hjN : j < N) (v1 : TpcVoter) (hinv : Inv N w)
    (ha : ∀ k, k ≠ j → w1.node k = w.node k)
    (hb1 : (w1.node j).tracer.voter = some v1)
    (hb2 : v1.mpi = (w.voter j).mpi)
    (hb3 : (w1.node j).tracer.mpiInfo = (w.node j).tracer.mpiInfo)
    (hb4 : (w1.node j).finished = true ↔ v1.state = State.TERMINATE)
    (hc : ∀ a b, ¬ (a = 0 ∧ b = j) → ¬ (a = j ∧ b = 0) →
      votesOf (w1.chan a b) = votesOf (w.chan a b))
    (hd : BatchesOK w1)
    (he : ∀ inV inC, CohortOK (w.voter 0).state inV inC (w.shape j) (w.idle j) →
      CohortOK (w.voter 0).state inV inC (w1.shape j) (w1.idle j)) : Inv N w1 := by
  have hvj : w1.voter j = v1 := voter_of_some _ _ _ hb1
  have hvk : ∀ k, k ≠ j → w1.voter k = w.voter k := by
    intro k hk
    simp [World.voter, ha k hk]
  refine ⟨?_, ?_, hd, ?_, ?_⟩
  · intro k hk0 hkN
    obtain ⟨g1, g2, g3⟩ := hinv.ranks k hk0 hkN
    by_cases hk : k = j
    · subst hk
      exact ⟨by rw [hb1, hvj], by rw [hvj, hb2, g2], by rw [hb3, g3]⟩
    · exact ⟨by rw [hvk k hk, ha k hk, g1], by rw [hvk k hk, g2], by rw [ha k hk, g3]⟩
  · intro a b h1 h2
    rw [hc a b (fun h => h1 ⟨h.1, by omega, by omega⟩) (fun h => h2 ⟨h.2, by omega, by omega⟩)]
    exact hinv.votes a b h1 h2
  · intro k hk0 hkN
    by_cases hk : k = j
    · subst hk
      rw [hvj]
      exact hb4
    · rw [hvk k hk, ha k hk]
      exact hinv.fin k hk0 hkN
  · obtain ⟨V, C, hco, hk⟩ := hinv.cohorts
    have h0 : w1.voter 0 = w.voter 0 := hvk 0 (by omega)
    refine ⟨V, C, ?_, ?_⟩
    · rw [h0]
      unfold CoordinatorOK at hco ⊢
      rw [idle_eq_of_node w w1 0 (ha 0 (by omega))]
      exact hco
    · intro i hi1 hiN
      rw [h0]
      by_cases hij : i = j
      · subst hij
        exact he _ _ (hk i hi1 hiN)
      · have hsh : w1.shape i = w.shape i := by
          apply shape_eq
          · exact hvk i hij
          · exact hc 0 i (fun h => hij h.2) (fun h => by omega)
          · exact hc i 0 (fun h => by omega) (fun h => hij h.1)
        rw [hsh, idle_eq_of_node w w1 i (ha i hij)]
        exact hk i hi1 hiN

theorem cohortOK_deliverDown (cs : State) (inV inC : Prop) (sh : Shape) (idle : Prop)
    (h : CohortOK cs inV inC sh idle) (hne : sh.down ≠ []) :
    CohortOK cs inV inC sh.deliverDown idle := by
  cases cs <;> simp only [CohortOK] at h ⊢
  · rcases h with rfl | rfl | rfl
    · exact absurd rfl hne
    · right; right; rfl
    · exact absurd rfl hne
  · obtain ⟨h1, h2⟩ := h
    by_cases hV : inV
    · obtain ⟨rfl, _⟩ := h1 hV
      exact absurd rfl hne
    · refine ⟨fun h => absurd h hV, fun _ => ?_⟩
      rcases h2 hV with rfl | rfl | rfl | rfl | rfl | ⟨rfl, _⟩ | rfl
      · right; left; rfl
      · right; right; left; rfl
      · exact absurd rfl hne
      · right; right; right; right; left; rfl
      · exact absurd rfl hne
      · exact absurd rfl hne
      · exact absurd rfl hne
  · obtain ⟨h1, h2⟩ := h
    refine ⟨h1, ?_⟩
    rcases h2 with rfl | rfl | rfl
    · right; left; rfl
    · exact absurd rfl hne
    · exact absurd rfl hne

theorem shape_deliverDown (w : World Ray) (j : Int) (hj : j ≠ 0) (x : Vote)
    (rest : List (Work Ray)) (n : Node Ray) (hchan : w.chan 0 j = Work.vote x :: rest)
    (hn : n.tracer.voter = some (receiveVote (w.voter j) x.voteWorkType)) :
    ((w.pop 0 j).setNode j n).shape j = (w.shape j).deliverDown := by
  have hv : ((w.pop 0 j).setNode j n).voter j = receiveVote (w.voter j) x.voteWorkType := by
    apply voter_of_some
    simp [hn]
  have hne : ¬ (j = 0 ∧ (0 : Int) = j) := fun h => hj h.1
  simp only [World.shape, hv, setNode_chan, pop_chan, hchan, and_self, if_true, hne, if_false,
    true_and, List.tail_cons, votesOf_cons_vote, Shape.deliverDown]
  cases x.voteWorkType <;>
    simp [receiveVote, TpcVoter.setProposeAvailable, TpcVoter.commit, TpcVoter.abort,
      TpcVoter.voteCommit, TpcVoter.voteAbort]

theorem receiveVote_pending (v : TpcVoter) (t : VoteType) :
    (receiveVote v t).numPendingRays = v.numPendingRays := by
  cases t <;>
    simp [receiveVote, TpcVoter.setProposeAvailable, TpcVoter.commit, TpcVoter.abort,
      TpcVoter.voteCommit, TpcVoter.voteAbort]

theorem inv_deliver_down (N : Int) (owner : Int → Int) (w w1 : World Ray)
    (j : Int) (hj1 : 1 ≤ j) (hjN : j < N) (x : Vote) (rest : List (Work Ray))
    (hinv : Inv N w) (hchan : w.chan 0 j = Work.vote x :: rest)
    (hstep : w.step N owner (Event.deliver 0 j) = some w1) : Inv N w1 := by
  obtain ⟨hv, hmpi, _⟩ := hinv.ranks j (by omega) hjN
  simp only [World.step, hchan, dispatch, hv] at hstep
  split_ifs at hstep
  simp only [Option.some.injEq] at hstep
  have hnode : ∀ k, w1.node k = if k = j then
      { (w.node j) with
        tracer := { (w.node j).tracer with
          voter := some (receiveVote (w.voter j) x.voteWorkType) } } else w.node k := by
    intro k
    rw [← hstep]
    simp
  have hch : ∀ a b, w1.chan a b = (w.pop 0 j).chan a b := by
    intro a b
    rw [← hstep]
    simp
  have hvj : w1.voter j = receiveVote (w.voter j) x.voteWorkType := by
    apply voter_of_some
    rw [hnode j]
    simp
  refine inv_cohort N w w1 j hj1 hjN (receiveVote (w.voter j) x.voteWorkType) hinv
    ?_ ?_ ?_ ?_ ?_ ?_ ?_ ?_
  · intro k hk
    rw [hnode k, if_neg hk]
  · rw [hnode j]
    simp
  · exact (receiveVote_state _ _).2
  · rw [hnode j]
    simp
  · rw [hnode j]
    simp only [if_true, (receiveVote_state _ _).1]
    exact hinv.fin j (by omega) hjN
  · intro a b h1 _
    rw [hch a b, pop_chan, if_neg h1]
  · constructor
    · intro a b y hmem
      rw [hch a b] at hmem
      exact hinv.batches.1 a b y (mem_chan_pop w 0 j a b _ hmem)
    · intro k y hmem
      rw [hnode k] at hmem
      split_ifs at hmem with hk
      · exact hinv.batches.2 j y hmem
      · exact hinv.batches.2 k y hmem
  · intro inV inC hco
    have hsh : w1.shape j = (w.shape j).deliverDown := by
      rw [← hstep]
      exact shape_deliverDown w j (by omega) x rest _ hchan (by simp)
    have hid : w1.idle j ↔ w.idle j := by
      unfold World.idle
      rw [hvj, hnode j, receiveVote_pending]
      simp
    have hne : (w.shape j).down ≠ [] := by
      simp [World.shape, hchan]
    rw [hsh]
    exact cohortOK_idle _ _ _ _ _ _ (cohortOK_deliverDown _ _ _ _ _ hco hne)
      (fun h _ _ => hid.mpr h)

theorem voteWork_mem (mpi : MpiInfo) (sent : List VoteSend) (m : Int × Work Ray)
    (h : m ∈ (voteWork mpi sent : List (Int × Work Ray))) : ∃ x, m.2 = Work.vote x := by
  simp only [voteWork, List.mem_map] at h
  obtain ⟨p, _, rfl⟩ := h
  exact ⟨p.2, rfl⟩

/-- Batches stay good when rank `r` posts votes and leaves a good work
queue. -/
theorem batchesOK_post_votes (w : World Ray) (r : Int) (n : Node Ray)
    (l : List (Int × Work Ray)) (hw : BatchesOK w)
    (hl : ∀ m ∈ l, ∃ x, m.2 = Work.vote x)
    (hn : ∀ rays ∈ n.tracer.workQ, CountOK rays) :
    BatchesOK ((w.setNode r n).post r l) := by
  constructor
  · intro a b rays hmem
    simp only [post_chan, setNode_chan] at hmem
    split_ifs at hmem
    · rcases List.mem_append.mp hmem with h | h
      · exact hw.1 a b rays h
      · obtain ⟨m, hm, h2⟩ := mem_msgsTo b l _ h
        obtain ⟨x, h3⟩ := hl m hm
        rw [h3] at h2
        exact absurd h2 (by simp)
    · exact hw.1 a b rays hmem
  · intro k rays hmem
    simp only [post_node, setNode_node] at hmem
    split_ifs at hmem
    · exact hn rays hmem
    · exact hw.2 k rays hmem

theorem cohortOK_tick (cs : State) (inV inC : Prop) (sh : Shape) (idle : Prop) (work : Bool)
    (h : CohortOK cs inV inC sh idle) (hw : work = false → idle) :
    CohortOK cs inV inC (sh.tick work) idle := by
  cases cs <;> simp only [CohortOK] at h ⊢
  · rcases h with rfl | rfl | rfl
    · left; rfl
    · right; left; rfl
    · left; rfl
  · obtain ⟨h1, h2⟩ := h
    by_cases hV : inV
    · obtain ⟨rfl, h3⟩ := h1 hV
      exact ⟨fun _ => ⟨rfl, h3⟩, fun h => absurd hV h⟩
    · refine ⟨fun h => absurd h hV, fun _ => ?_⟩
      rcases h2 hV with rfl | rfl | rfl | rfl | rfl | ⟨rfl, hid⟩ | rfl
      · left; rfl
      · right; right; right; left; rfl
      · right; right; right; right; left; rfl
      · right; right; right; left; rfl
      · cases work
        · right; right; right; right; right; left
          exact ⟨rfl, hw rfl⟩
        · right; right; right; right; right; right; rfl
      · right; right; right; right; right; left
        exact ⟨rfl, hid⟩
      · right; right; right; right; right; right; rfl
  · obtain ⟨h1, h2⟩ := h
    refine ⟨h1, ?_⟩
    rcases h2 with rfl | rfl | rfl
    · left; rfl
    · right; right; rfl
    · right; right; rfl

/-- The state of a cohort is one of the cohort states. -/
theorem cohortOK_state (cs : State) (inV inC : Prop) (sh : Shape) (idle : Prop)
    (h : CohortOK cs inV inC sh idle) :
    sh.state = State.PREPARE_COHORT ∨ sh.state = State.VOTE ∨ sh.state = State.TERMINATE := by
  cases cs <;> simp only [CohortOK] at h
  · rcases h with rfl | rfl | rfl <;> decide
  · obtain ⟨h1, h2⟩ := h
    by_cases hV : inV
    · obtain ⟨rfl, _⟩ := h1 hV
      decide
    · rcases h2 hV with rfl | rfl | rfl | rfl | rfl | ⟨rfl, _⟩ | rfl <;> decide
  · rcases h.2 with rfl | rfl | rfl <;> decide

/-- The tick of a voter in a cohort state, on the shape and on the wire. -/
theorem updateState_cohort (v : TpcVoter) (d : Bool)
    (hs : v.state = State.PREPARE_COHORT ∨ v.state = State.VOTE) :
    (v.updateState d).voter.mpi = v.mpi ∧
    (v.updateState d).voter.numPendingRays = v.numPendingRays ∧
    ((v.updateState d).allDone = true ↔ (v.updateState d).voter.state = State.TERMINATE) ∧
    (∀ (dn up : List VoteType),
      (⟨(v.updateState d).voter.state, (v.updateState d).voter.proposeAvailable,
        (v.updateState d).voter.commitAbortAvailable, (v.updateState d).voter.doCommit, dn,
        up ++ votesOf (msgsTo 0 (voteWork v.mpi (v.updateState d).sent : List (Int × Work Ray)))⟩
          : Shape) =
        Shape.tick (v.hasWork d)
          ⟨v.state, v.proposeAvailable, v.commitAbortAvailable, v.doCommit, dn, up⟩) ∧
    (∀ b, b ≠ 0 →
      msgsTo b (voteWork v.mpi (v.updateState d).sent : List (Int × Work Ray)) = []) := by
  unfold TpcVoter.updateState
  rcases hs with hs | hs
  · cases hp : v.proposeAvailable <;> cases hw : v.hasWork d <;>
      simp_all [Shape.tick, TpcVoter.hasWork, voteWork, VoteSend.deliveries, msgsTo,
        TpcVoter.sendVote, COORDINATOR]
    · intro b hb h
      exact absurd h.symm hb
    · intro b hb h
      exact absurd h.symm hb
  · cases ha : v.commitAbortAvailable <;> cases hc : v.doCommit <;>
      simp_all [Shape.tick, voteWork, msgsTo]

theorem inv_tick_cohort (N : Int) (owner : Int → Int) (w w1 : World Ray)
    (j : Int) (hj1 : 1 ≤ j) (hjN : j < N) (hinv : Inv N w)
    (hstep : w.step N owner (Event.tick j) = some w1) : Inv N w1 := by
  obtain ⟨hv, hmpi, hinfo⟩ := hinv.ranks j (by omega) hjN
  obtain ⟨V, C, _, hco⟩ := hinv.cohorts
  have hcoj := hco j hj1 hjN
  simp only [World.step, hv, TransferRays.vote] at hstep
  split_ifs at hstep with hg hassert
  obtain ⟨_, _, hfin⟩ := hg
  simp only [Option.some.injEq] at hstep
  -- the voter is in `PREPARE_COHORT` or in `VOTE`
  have hstate : (w.voter j).state = State.PREPARE_COHORT ∨ (w.voter j).state = State.VOTE := by
    rcases cohortOK_state _ _ _ _ _ hcoj with h | h | h
    · exact Or.inl h
    · exact Or.inr h
    · have := (hinv.fin j (by omega) hjN).mpr h
      rw [hfin] at this
      exact absurd this (by simp)
  obtain ⟨t1, t2, t3, t4, t5⟩ :=
    @updateState_cohort Ray (w.voter j) (IsDone (w.node j).tracer.queue) hstate
  have hnode : ∀ k, w1.node k = if k = j then
      { tracer := { (w.node j).tracer with
          voter := some ((w.voter j).updateState (IsDone (w.node j).tracer.queue)).voter }
        finished := ((w.voter j).updateState (IsDone (w.node j).tracer.queue)).allDone }
      else w.node k := by
    intro k
    rw [← hstep]
    simp
  have hch : ∀ a b, w1.chan a b = if a = j then w.chan a b ++
      msgsTo b (voteWork (w.voter j).mpi
        ((w.voter j).updateState (IsDone (w.node j).tracer.queue)).sent) else w.chan a b := by
    intro a b
    rw [← hstep]
    simp
  have hvj : w1.voter j = ((w.voter j).updateState (IsDone (w.node j).tracer.queue)).voter := by
    apply voter_of_some
    rw [hnode j]
    simp
  refine inv_cohort N w w1 j hj1 hjN _ hinv ?_ ?_ t1 ?_ ?_ ?_ ?_ ?_
  · intro k hk
    rw [hnode k, if_neg hk]
  · rw [hnode j]
    simp
  · rw [hnode j]
    simp
  · rw [hnode j]
    simp only [if_true]
    exact t3
  · intro a b _ h2
    rw [hch a b]
    split_ifs with ha
    · have hb : b ≠ 0 := fun hb => h2 ⟨ha, hb⟩
      rw [t5 b hb, List.append_nil]
    · rfl
  · rw [← hstep]
    refine batchesOK_post_votes w j _ _ hinv.batches ?_ ?_
    · intro m hm
      simp only [List.nil_append] at hm
      exact voteWork_mem _ _ m hm
    · intro rays hm
      exact hinv.batches.2 j rays hm
  · intro inV inC hc
    have hsh : w1.shape j =
        (w.shape j).tick ((w.voter j).hasWork (IsDone (w.node j).tracer.queue)) := by
      refine Eq.trans ?_ (t4 (votesOf (w.chan 0 j)) (votesOf (w.chan j 0)))
      have h0j : (0 : Int) ≠ j := by omega
      simp only [World.shape, hvj, hch, if_neg h0j, if_true, votesOf_append]
    have hid : w1.idle j ↔ w.idle j := by
      unfold World.idle
      rw [hvj, hnode j, t2]
      simp
    rw [hsh]
    refine cohortOK_idle _ _ _ _ _ _ (cohortOK_tick _ _ _ _ _ _ hc ?_) (fun h _ _ => hid.mpr h)
    intro hwork
    simp only [TpcVoter.hasWork, Bool.not_eq_false', Bool.and_eq_true, beq_iff_eq] at hwork
    exact hwork

/-! ## A vote reaches the coordinator -/

theorem cohortOK_up (cs : State) (inV inC : Prop) (sh : Shape) (idle : Prop)
    (h : CohortOK cs inV inC sh idle) (hne : sh.up ≠ []) :
    cs = State.PROPOSE ∧ ¬ inV ∧
      ((sh = Shape.voteSent VoteType.VOTE_COMMIT ∧ idle) ∨
        sh = Shape.voteSent VoteType.VOTE_ABORT) := by
  cases cs <;> simp only [CohortOK] at h
  · rcases h with rfl | rfl | rfl <;> exact absurd rfl hne
  · obtain ⟨h1, h2⟩ := h
    by_cases hV : inV
    · obtain ⟨rfl, _⟩ := h1 hV
      exact absurd rfl hne
    · refine ⟨rfl, hV, ?_⟩
      rcases h2 hV with rfl | rfl | rfl | rfl | rfl | ⟨rfl, hid⟩ | rfl
      · exact absurd rfl hne
      · exact absurd rfl hne
      · exact absurd rfl hne
      · exact absurd rfl hne
      · exact absurd rfl hne
      · exact Or.inl ⟨rfl, hid⟩
      · exact Or.inr rfl
  · rcases h.2 with rfl | rfl | rfl <;> exact absurd rfl hne

theorem cohortOK_congr (cs : State) (inV inC inV1 inC1 : Prop) (sh : Shape) (idle : Prop)
    (h : CohortOK cs inV inC sh idle) (hV : inV ↔ inV1) (hC : inC ↔ inC1) :
    CohortOK cs inV1 inC1 sh idle := by
  have e1 : inV = inV1 := propext hV
  have e2 : inC = inC1 := propext hC
  rw [← e1, ← e2]
  exact h

theorem card_lt_of_not_mem (N : Int) (V : Finset Int) (j : Int) (hV : V ⊆ Finset.Ico 1 N)
    (hj1 : 1 ≤ j) (hjN : j < N) (hj : j ∉ V) : (V.card : Int) + 1 ≤ N - 1 := by
  have h1 : insert j V ⊆ Finset.Ico 1 N := by
    intro i hi
    rcases Finset.mem_insert.mp hi with rfl | h
    · exact Finset.mem_Ico.mpr ⟨hj1, hjN⟩
    · exact hV h
  have h2 := Finset.card_le_card h1
  rw [Finset.card_insert_of_not_mem hj, Int.card_Ico] at h2
  omega

theorem inv_deliver_up (N : Int) (hNmax : N ≤ 2147483647) (owner : Int → Int)
    (w w1 : World Ray) (j : Int) (hj1 : 1 ≤ j) (hjN : j < N) (x : Vote)
    (rest : List (Work Ray)) (hinv : Inv N w) (hchan : w.chan j 0 = Work.vote x :: rest)
    (hstep : w.step N owner (Event.deliver j 0) = some w1) : Inv N w1 := by
  obtain ⟨hv, hmpi, hinfo⟩ := hinv.ranks 0 (by omega) (by omega)
  obtain ⟨V, C, hcoord, hco⟩ := hinv.cohorts
  have hupne : (w.shape j).up ≠ [] := by simp [World.shape, hchan]
  obtain ⟨hcs, hjV, hshape⟩ := cohortOK_up _ _ _ _ _ (hco j hj1 hjN) hupne
  simp only [CoordinatorOK, hcs] at hcoord
  obtain ⟨hid0, hCV, hVI, hnum, hcom, hflag⟩ := hcoord
  have hcard := card_lt_of_not_mem N V j hVI hj1 hjN hjV
  have hjC : j ∉ C := fun h => hjV (hCV h)
  have hcardC : (C.card : Int) ≤ V.card := by
    exact_mod_cast Finset.card_le_card hCV
  have hflag0 : (w.voter 0).allVotesAvailable = false := by
    cases hf : (w.voter 0).allVotesAvailable
    · rfl
    · have := hflag.mp hf
      omega
  simp only [World.step, hchan, dispatch, hv] at hstep
  split_ifs at hstep
  simp only [Option.some.injEq] at hstep
  have hnode : ∀ k, w1.node k = if k = 0 then
      { (w.node 0) with
        tracer := { (w.node 0).tracer with
          voter := some (receiveVote (w.voter 0) x.voteWorkType) } } else w.node k := by
    intro k
    rw [← hstep]
    simp
  have hch : ∀ a b, w1.chan a b = (w.pop j 0).chan a b := by
    intro a b
    rw [← hstep]
    simp
  have hv0 : w1.voter 0 = receiveVote (w.voter 0) x.voteWorkType := by
    apply voter_of_some
    rw [hnode 0]
    simp
  have hvk : ∀ k, k ≠ 0 → w1.voter k = w.voter k := by
    intro k hk
    simp [World.voter, hnode k, hk]
  have hidle : ∀ k, w1.idle k ↔ w.idle k := by
    intro k
    by_cases hk : k = 0
    · subst hk
      unfold World.idle
      rw [hv0, hnode 0, receiveVote_pending]
      simp
    · unfold World.idle
      rw [hvk k hk, hnode k, if_neg hk]
  have hvotes : ∀ a b, ¬ (a = j ∧ b = 0) → votesOf (w1.chan a b) = votesOf (w.chan a b) := by
    intro a b hab
    rw [hch a b, pop_chan, if_neg hab]
  have hupj : votesOf (w1.chan j 0) = [] ∧
      (x.voteWorkType = VoteType.VOTE_COMMIT ∧ w.idle j ∨
        x.voteWorkType = VoteType.VOTE_ABORT) := by
    rw [hch j 0, pop_chan, if_pos ⟨rfl, rfl⟩, hchan, List.tail_cons]
    rcases hshape with ⟨h, hid⟩ | h
    · simp only [World.shape, hchan, votesOf_cons_vote, Shape.voteSent, Shape.mk.injEq,
        List.cons.injEq] at h
      exact ⟨h.2.2.2.2.2.2, Or.inl ⟨h.2.2.2.2.2.1, hid⟩⟩
    · simp only [World.shape, hchan, votesOf_cons_vote, Shape.voteSent, Shape.mk.injEq,
        List.cons.injEq] at h
      exact ⟨h.2.2.2.2.2.2, Or.inr h.2.2.2.2.2.1⟩
  have hshj : w1.shape j = Shape.voted := by
    have hsj : (w.shape j).state = State.VOTE ∧ (w.shape j).proposeAvailable = false ∧
        (w.shape j).commitAbortAvailable = false ∧ (w.shape j).doCommit = false ∧
        (w.shape j).down = [] := by
      rcases hshape with ⟨h, _⟩ | h <;> rw [h] <;> simp [Shape.voteSent]
    simp only [World.shape] at hsj
    have h0j : ¬ ((0 : Int) = j ∧ j = 0) := fun h => by omega
    simp only [World.shape, hvk j (by omega), hupj.1, hvotes 0 j h0j, hsj, Shape.voted]
  have hshk : ∀ i, 1 ≤ i → i ≠ j → w1.shape i = w.shape i := by
    intro i hi1 hij
    apply shape_eq
    · exact hvk i (by omega)
    · exact hvotes 0 i (fun h => by omega)
    · exact hvotes i 0 (fun h => hij h.1)
  have hw1 : wrapInt ((w.voter 0).numVotesReceived + 1) = (w.voter 0).numVotesReceived + 1 :=
    wrapInt_of_isInt32 (by unfold IsInt32; omega)
  have hw2 : wrapInt ((w.voter 0).commitVoteCount + 1) = (w.voter 0).commitVoteCount + 1 :=
    wrapInt_of_isInt32 (by unfold IsInt32; omega)
  have ecn : (w.voter 0).voteCommit.numVotesReceived = (V.card : Int) + 1 := by
    show wrapInt ((w.voter 0).numVotesReceived + 1) = _
    rw [hw1, hnum]
  have ecc : (w.voter 0).voteCommit.commitVoteCount = (C.card : Int) + 1 := by
    show wrapInt ((w.voter 0).commitVoteCount + 1) = _
    rw [hw2, hcom]
  have ecf : (w.voter 0).voteCommit.allVotesAvailable = decide ((V.card : Int) + 1 = N - 1) := by
    show (if wrapInt ((w.voter 0).numVotesReceived + 1) = (w.voter 0).mpi.size - 1 then true
      else (w.voter 0).allVotesAvailable) = _
    rw [hw1, hnum, hmpi, hflag0]
    by_cases h : (V.card : Int) + 1 = N - 1 <;> simp [h]
  have ean : (w.voter 0).voteAbort.numVotesReceived = (V.card : Int) + 1 := by
    show wrapInt ((w.voter 0).numVotesReceived + 1) = _
    rw [hw1, hnum]
  have eac : (w.voter 0).voteAbort.commitVoteCount = (C.card : Int) := hcom
  have eaf : (w.voter 0).voteAbort.allVotesAvailable = decide ((V.card : Int) + 1 = N - 1) := by
    show (if wrapInt ((w.voter 0).numVotesReceived + 1) = (w.voter 0).mpi.size - 1 then true
      else (w.voter 0).allVotesAvailable) = _
    rw [hw1, hnum, hmpi, hflag0]
    by_cases h : (V.card : Int) + 1 = N - 1 <;> simp [h]
  refine ⟨?_, ?_, ?_, ?_, ?_⟩
  · intro k hk0 hkN
    obtain ⟨g1, g2, g3⟩ := hinv.ranks k hk0 hkN
    by_cases hk : k = 0
    · subst hk
      refine ⟨by rw [hnode 0, hv0]; simp, by rw [hv0, (receiveVote_state _ _).2, g2], ?_⟩
      rw [hnode 0]
      simpa using g3
    · exact ⟨by rw [hvk k hk, hnode k, if_neg hk, g1], by rw [hvk k hk, g2],
        by rw [hnode k, if_neg hk, g3]⟩
  · intro a b h1 h2
    rw [hvotes a b (fun h => h2 ⟨h.2, by omega, by omega⟩)]
    exact hinv.votes a b h1 h2
  · constructor
    · intro a b y hmem
      rw [hch a b] at hmem
      exact hinv.batches.1 a b y (mem_chan_pop w j 0 a b _ hmem)
    · intro k y hmem
      rw [hnode k] at hmem
      split_ifs at hmem with hk
      · exact hinv.batches.2 0 y hmem
      · exact hinv.batches.2 k y hmem
  · intro k hk0 hkN
    by_cases hk : k = 0
    · subst hk
      rw [hv0, (receiveVote_state _ _).1, hnode 0]
      simpa using hinv.fin 0 hk0 hkN
    · rw [hvk k hk, hnode k, if_neg hk]
      exact hinv.fin k hk0 hkN
  · have hstate1 : (w1.voter 0).state = State.PROPOSE := by
      rw [hv0, (receiveVote_state _ _).1, hcs]
    rcases hupj.2 with ⟨hx, hidj⟩ | hx
    · -- a commit vote is counted
      refine ⟨insert j V, insert j C, ?_, ?_⟩
      · simp only [CoordinatorOK, hstate1]
        refine ⟨(hidle 0).mpr hid0, Finset.insert_subset_insert j hCV, ?_, ?_, ?_, ?_⟩
        · intro i hi
          rcases Finset.mem_insert.mp hi with rfl | h
          · exact Finset.mem_Ico.mpr ⟨hj1, hjN⟩
          · exact hVI h
        · rw [hv0, hx, Finset.card_insert_of_not_mem hjV]
          show (w.voter 0).voteCommit.numVotesReceived = _
          rw [ecn]
          push_cast
          rfl
        · rw [hv0, hx, Finset.card_insert_of_not_mem hjC]
          show (w.voter 0).voteCommit.commitVoteCount = _
          rw [ecc]
          push_cast
          rfl
        · rw [hv0, hx, Finset.card_insert_of_not_mem hjV]
          show (w.voter 0).voteCommit.allVotesAvailable = true ↔ _
          rw [ecf]
          push_cast
          simp
      · intro i hi1 hiN
        rw [hstate1]
        by_cases hij : i = j
        · subst hij
          rw [hshj]
          simp only [CohortOK, Finset.mem_insert, true_or, not_true_eq_false, false_imp_iff,
            and_true, true_imp_iff, true_and]
          exact (hidle i).mpr hidj
        · rw [hshk i hi1 hij]
          have := hco i hi1 hiN
          rw [hcs] at this
          refine cohortOK_congr _ _ _ _ _ _ _
            (cohortOK_idle _ _ _ _ _ _ this (fun h _ _ => (hidle i).mpr h)) ?_ ?_
          · simp [Finset.mem_insert, hij]
          · simp [Finset.mem_insert, hij]
    · -- an abort vote is counted
      refine ⟨insert j V, C, ?_, ?_⟩
      · simp only [CoordinatorOK, hstate1]
        refine ⟨(hidle 0).mpr hid0, hCV.trans (Finset.subset_insert j V), ?_, ?_, ?_, ?_⟩
        · intro i hi
          rcases Finset.mem_insert.mp hi with rfl | h
          · exact Finset.mem_Ico.mpr ⟨hj1, hjN⟩
          · exact hVI h
        · rw [hv0, hx, Finset.card_insert_of_not_mem hjV]
          show (w.voter 0).voteAbort.numVotesReceived = _
          rw [ean]
          push_cast
          rfl
        · rw [hv0, hx]
          exact eac
        · rw [hv0, hx, Finset.card_insert_of_not_mem hjV]
          show (w.voter 0).voteAbort.allVotesAvailable = true ↔ _
          rw [eaf]
          push_cast
          simp
      · intro i hi1 hiN
        rw [hstate1]
        by_cases hij : i = j
        · subst hij
          rw [hshj]
          simp only [CohortOK, Finset.mem_insert, true_or, not_true_eq_false, false_imp_iff,
            and_true, true_imp_iff, true_and]
          intro hC
          exact absurd hC hjC
        · rw [hshk i hi1 hij]
          have := hco i hi1 hiN
          rw [hcs] at this
          refine cohortOK_congr _ _ _ _ _ _ _
            (cohortOK_idle _ _ _ _ _ _ this (fun h _ _ => (hidle i).mpr h)) ?_ (Iff.rfl)
          simp [Finset.mem_insert, hij]

/-! ## The broadcast of the coordinator -/

theorem msgsTo_append (b : Int) (l1 l2 : List (Int × Work Ray)) :
    msgsTo b (l1 ++ l2) = msgsTo b l1 ++ msgsTo b l2 := by
  simp [msgsTo, List.filter_append]

theorem msgsTo_range (n : Nat) (r b : Int) (x : Vote) :
    msgsTo b ((((List.range n).filter (fun (i : Nat) => decide ((i : Int) ≠ r))).map
      (fun (i : Nat) => ((i : Int), x))).map (fun p => (p.1, (Work.vote p.2 : Work Ray)))) =
      if 0 ≤ b ∧ b < n ∧ b ≠ r then [Work.vote x] else [] := by
  induction n with
  | zero =>
    have : ¬ (0 ≤ b ∧ b < ((0 : Nat) : Int) ∧ b ≠ r) := by
      intro h
      have := h.2.1
      simp at this
      omega
    rw [if_neg this]
    rfl
  | succ n ih =>
    rw [List.range_succ, List.filter_append, List.map_append, List.map_append, msgsTo_append, ih]
    have hlast : msgsTo b (List.map (fun p => (p.1, (Work.vote p.2 : Work Ray)))
        (List.map (fun (i : Nat) => ((i : Int), x))
          (List.filter (fun (i : Nat) => decide ((i : Int) ≠ r)) [n]))) =
        if (n : Int) ≠ r ∧ (n : Int) = b then [Work.vote x] else [] := by
      by_cases hn : (n : Int) = r
      · simp [msgsTo, List.filter_cons, hn]
      · simp only [msgsTo, List.filter_cons, List.filter_nil, hn, ne_eq, not_false_eq_true,
          decide_True, if_true, List.map_cons, List.map_nil, true_and]
        by_cases hb : (n : Int) = b
        · simp [hb]
        · simp [hb]
    rw [hlast]
    by_cases c2 : (n : Int) ≠ r ∧ (n : Int) = b
    · rw [if_pos c2, if_neg (fun h => by omega), if_pos ⟨by omega, by push_cast; omega, by omega⟩]
      rfl
    · rw [if_neg c2, List.append_nil]
      have h1 : (0 ≤ b ∧ b < (n : Int) ∧ b ≠ r) ↔
          (0 ≤ b ∧ b < ((n + 1 : Nat) : Int) ∧ b ≠ r) := by
        push_cast
        constructor
        · rintro ⟨a, c, d⟩
          exact ⟨a, by omega, d⟩
        · rintro ⟨a, c, d⟩
          refine ⟨a, ?_, d⟩
          by_contra hlt
          apply c2
          have hb : (n : Int) = b := by omega
          exact ⟨by rw [hb]; exact fun h => d h, hb⟩
      exact if_congr h1 rfl rfl

/-- The copies of a broadcast of the coordinator of a world of `N` ranks that
are addressed to rank `b`: one if `b` is a cohort, none otherwise. -/
theorem msgsTo_broadcast (N : Int) (hN : 0 ≤ N) (b : Int) (x : Vote) :
    msgsTo b (voteWork { rank := 0, size := N } [VoteSend.SendAllOther x] :
      List (Int × Work Ray)) = if 1 ≤ b ∧ b < N then [Work.vote x] else [] := by
  have h := @msgsTo_range Ray N.toNat 0 b x
  have hN2 : ((N.toNat : Nat) : Int) = N := Int.toNat_of_nonneg hN
  rw [hN2] at h
  simp only [voteWork, List.flatMap_cons, List.flatMap_nil, List.append_nil, VoteSend.deliveries,
    SendAllOther]
  rw [h]
  by_cases hb : 1 ≤ b ∧ b < N
  · rw [if_pos hb, if_pos ⟨by omega, hb.2, by omega⟩]
  · rw [if_neg hb, if_neg (fun h => hb ⟨by omega, h.2.1⟩)]

/-- A tick of the coordinator that leaves voter `v1` and broadcasts a vote of
kind `t`. -/
theorem inv_broadcast (N : Int) (w w1 : World Ray) (v1 : TpcVoter) (t : VoteType)
    (fin : Bool) (hinv : Inv N w)
    (hnode : ∀ k, w1.node k = if k = 0 then
      { tracer := { (w.node 0).tracer with voter := some v1 }, finished := fin }
      else w.node k)
    (hch : ∀ a b, w1.chan a b = if a = 0 then w.chan a b ++
      (if 1 ≤ b ∧ b < N then [Work.vote { voteWorkType := t, sender := 0 }] else [])
      else w.chan a b)
    (hmpi1 : v1.mpi = { rank := 0, size := N })
    (hpend : v1.numPendingRays = (w.voter 0).numPendingRays)
    (hfin : fin = true ↔ v1.state = State.TERMINATE)
    (hcoh : ∃ V C : Finset Int, CoordinatorOK N v1 (w.idle 0) V C ∧
      ∀ i, 1 ≤ i → i < N →
        CohortOK v1.state (i ∈ V) (i ∈ C)
          { w.shape i with down := (w.shape i).down ++ [t] } (w.idle i)) : Inv N w1 := by
  have hv0 : w1.voter 0 = v1 := by
    apply voter_of_some
    rw [hnode 0]
    simp
  have hvk : ∀ k, k ≠ 0 → w1.voter k = w.voter k := by
    intro k hk
    simp [World.voter, hnode k, hk]
  have hidle : ∀ k, w1.idle k ↔ w.idle k := by
    intro k
    by_cases hk : k = 0
    · subst hk
      unfold World.idle
      rw [hv0, hnode 0, hpend]
      simp
    · unfold World.idle
      rw [hvk k hk, hnode k, if_neg hk]
  refine ⟨?_, ?_, ?_, ?_, ?_⟩
  · intro k hk0 hkN
    obtain ⟨g1, g2, g3⟩ := hinv.ranks k hk0 hkN
    by_cases hk : k = 0
    · subst hk
      refine ⟨by rw [hnode 0, hv0]; simp, by rw [hv0, hmpi1], ?_⟩
      rw [hnode 0]
      simpa using g3
    · exact ⟨by rw [hvk k hk, hnode k, if_neg hk, g1], by rw [hvk k hk, g2],
        by rw [hnode k, if_neg hk, g3]⟩
  · intro a b h1 h2
    rw [hch a b]
    split_ifs with ha hb
    · exact absurd ⟨ha, hb⟩ h1
    · rw [List.append_nil]
      exact hinv.votes a b h1 h2
    · exact hinv.votes a b h1 h2
  · constructor
    · intro a b y hmem
      rw [hch a b] at hmem
      split_ifs at hmem
      · rcases List.mem_append.mp hmem with h | h
        · exact hinv.batches.1 a b y h
        · simp at h
      · rw [List.append_nil] at hmem
        exact hinv.batches.1 a b y hmem
      · exact hinv.batches.1 a b y hmem
    · intro k y hmem
      rw [hnode k] at hmem
      split_ifs at hmem with hk
      · exact hinv.batches.2 0 y hmem
      · exact hinv.batches.2 k y hmem
  · intro k hk0 hkN
    by_cases hk : k = 0
    · subst hk
      rw [hv0, hnode 0]
      simpa using hfin
    · rw [hvk k hk, hnode k, if_neg hk]
      exact hinv.fin k hk0 hkN
  · obtain ⟨V, C, hco, hk⟩ := hcoh
    refine ⟨V, C, ?_, ?_⟩
    · rw [hv0]
      unfold CoordinatorOK at hco ⊢
      cases hs : v1.state <;> simp only [hs] at hco ⊢
      · exact hco
      · exact ⟨(hidle 0).mpr hco.1, hco.2⟩
      · exact (hidle 0).mpr hco
    · intro i hi1 hiN
      have hsh : w1.shape i = { w.shape i with down := (w.shape i).down ++ [t] } := by
        have hi0 : i ≠ 0 := by omega
        simp only [World.shape, hvk i hi0, hch, if_true, if_neg hi0, if_pos (And.intro hi1 hiN),
          votesOf_append, votesOf_cons_vote, votesOf_nil]
      rw [hv0, hsh]
      exact cohortOK_idle _ _ _ _ _ _ (hk i hi1 hiN) (fun h _ _ => (hidle i).mpr h)

/-- A tick of the coordinator that changes nothing. -/
theorem inv_tick_noop (N : Int) (hN : 2 ≤ N) (w w1 : World Ray) (hinv : Inv N w)
    (hfin : (w.node 0).finished = false)
    (hw1 : (w.setNode 0
        { tracer := { (w.node 0).tracer with voter := some (w.voter 0) }, finished := false }).post
      0 ([] ++ voteWork (w.voter 0).mpi []) = w1) : Inv N w1 := by
  refine inv_local N hN w w1 0 (w.voter 0) hinv ?_ ?_ rfl ?_ ?_ ?_ ?_ ?_
  · intro k hk
    rw [← hw1]
    simp [hk]
  · rw [← hw1]
    simp
  · rw [← hw1]
    simp
  · rw [← hw1, hfin]
    simp
  · intro a b
    rw [← hw1]
    simp [voteWork, msgsTo]
  · rw [← hw1]
    refine batchesOK_post_votes w 0 _ _ hinv.batches ?_ ?_
    · intro m hm
      simp [voteWork] at hm
    · intro rays hm
      exact hinv.batches.2 0 rays hm
  · intro hid
    left
    unfold World.idle at hid ⊢
    have hv : w1.voter 0 = w.voter 0 := by
      apply voter_of_some
      rw [← hw1]
      simp
    rw [hv, ← hw1]
    simpa using hid

theorem eq_Ico_of_card (N : Int) (V : Finset Int) (hV : V ⊆ Finset.Ico 1 N)
    (hc : (V.card : Int) = N - 1) (hN : 2 ≤ N) : V = Finset.Ico 1 N := by
  apply Finset.eq_of_subset_of_card_le hV
  rw [Int.card_Ico]
  omega

theorem inv_tick_coordinator (N : Int) (hN : 2 ≤ N) (owner : Int → Int) (w w1 : World Ray)
    (hinv : Inv N w) (hstep : w.step N owner (Event.tick 0) = some w1) : Inv N w1 := by
  obtain ⟨hv, hmpi, hinfo⟩ := hinv.ranks 0 (by omega) (by omega)
  obtain ⟨V, C, hcoord, hco⟩ := hinv.cohorts
  simp only [World.step, hv, TransferRays.vote] at hstep
  split_ifs at hstep with hg hassert
  obtain ⟨_, _, hfin⟩ := hg
  simp only [Option.some.injEq] at hstep
  have hnotT : (w.voter 0).state ≠ State.TERMINATE := by
    intro h
    have := (hinv.fin 0 (by omega) (by omega)).mpr h
    rw [hfin] at this
    exact absurd this (by simp)
  have hnode : ∀ k, w1.node k = if k = 0 then
      { tracer := { (w.node 0).tracer with
          voter := some ((w.voter 0).updateState (IsDone (w.node 0).tracer.queue)).voter }
        finished := ((w.voter 0).updateState (IsDone (w.node 0).tracer.queue)).allDone }
      else w.node k := by
    intro k
    rw [← hstep]
    simp
  have hch : ∀ a b, w1.chan a b = if a = 0 then w.chan a b ++
      msgsTo b (voteWork (w.voter 0).mpi
        ((w.voter 0).updateState (IsDone (w.node 0).tracer.queue)).sent) else w.chan a b := by
    intro a b
    rw [← hstep]
    simp
  cases hcs : (w.voter 0).state
  · -- `PREPARE_COORDINATOR`
    simp only [CoordinatorOK, hcs] at hcoord
    obtain ⟨c1, c2, c3⟩ := hcoord
    cases hw : (w.voter 0).hasWork (IsDone (w.node 0).tracer.queue)
    · have htick : (w.voter 0).updateState (IsDone (w.node 0).tracer.queue) =
          { voter := { w.voter 0 with state := State.PROPOSE }
            sent := [VoteSend.SendAllOther { voteWorkType := VoteType.PROPOSE, sender := 0 }]
            allDone := false } := by
        simp [TpcVoter.updateState, hcs, hw, TpcVoter.broadcast, hmpi]
      rw [htick] at hnode hch
      have hidle0 : w.idle 0 := by
        simp only [TpcVoter.hasWork, Bool.not_eq_false', Bool.and_eq_true, beq_iff_eq] at hw
        exact hw
      refine inv_broadcast N w w1 _ VoteType.PROPOSE false hinv hnode ?_ hmpi rfl
        (by simp) ⟨∅, ∅, ?_, ?_⟩
      · intro a b
        rw [hch a b, hmpi, msgsTo_broadcast N (by omega)]
      · simp only [CoordinatorOK, Finset.card_empty, Nat.cast_zero, c1, c2, c3]
        refine ⟨hidle0, Finset.Subset.refl _, Finset.empty_subset _, trivial, trivial, ?_⟩
        constructor
        · intro h
          exact absurd h (by simp)
        · intro h
          omega
      · intro i hi1 hiN
        have := hco i hi1 hiN
        simp only [hcs, CohortOK] at this
        simp only [CohortOK, Finset.not_mem_empty, false_imp_iff, not_false_eq_true,
          true_imp_iff, true_and]
        rcases this with h | h | h <;> rw [h]
        · right; right; right; left; rfl
        · left; rfl
        · right; left; rfl
    · have htick : (w.voter 0).updateState (IsDone (w.node 0).tracer.queue) =
          { voter := w.voter 0, sent := [], allDone := false } := by
        simp [TpcVoter.updateState, hcs, hw]
      rw [htick] at hstep
      exact inv_tick_noop N hN w w1 hinv hfin hstep
  · -- `PROPOSE`
    simp only [CoordinatorOK, hcs] at hcoord
    obtain ⟨c0, c1, c2, c3, c4, c5⟩ := hcoord
    cases hf : (w.voter 0).allVotesAvailable
    · have htick : (w.voter 0).updateState (IsDone (w.node 0).tracer.queue) =
          { voter := w.voter 0, sent := [], allDone := false } := by
        simp [TpcVoter.updateState, hcs, hf]
      rw [htick] at hstep
      exact inv_tick_noop N hN w w1 hinv hfin hstep
    · have hVall : V = Finset.Ico 1 N := eq_Ico_of_card N V c2 (c5.mp hf) hN
      have hvoted : ∀ i, 1 ≤ i → i < N → w.shape i = Shape.voted ∧ (i ∈ C → w.idle i) := by
        intro i hi1 hiN
        have := hco i hi1 hiN
        simp only [hcs, CohortOK] at this
        exact this.1 (by rw [hVall]; exact Finset.mem_Ico.mpr ⟨hi1, hiN⟩)
      cases hcons : (w.voter 0).achievedConsensus
      · have htick : (w.voter 0).updateState (IsDone (w.node 0).tracer.queue) =
            { voter := { w.voter 0 with
                state := State.PREPARE_COORDINATOR
                numVotesReceived := 0
                commitVoteCount := 0
                allVotesAvailable := false }
              sent := [VoteSend.SendAllOther { voteWorkType := VoteType.DO_ABORT, sender := 0 }]
              allDone := false } := by
          simp [TpcVoter.updateState, hcs, hf, hcons, TpcVoter.broadcast, hmpi]
        rw [htick] at hnode hch
        refine inv_broadcast N w w1 _ VoteType.DO_ABORT false hinv hnode ?_ hmpi rfl
          (by simp) ⟨∅, ∅, ?_, ?_⟩
        · intro a b
          rw [hch a b, hmpi, msgsTo_broadcast N (by omega)]
        · simp [CoordinatorOK]
        · intro i hi1 hiN
          simp only [CohortOK]
          rw [(hvoted i hi1 hiN).1]
          right; left; rfl
      · have htick : (w.voter 0).updateState (IsDone (w.node 0).tracer.queue) =
            { voter := { w.voter 0 with
                state := State.TERMINATE
                numVotesReceived := 0
                commitVoteCount := 0
                allVotesAvailable := false }
              sent := [VoteSend.SendAllOther { voteWorkType := VoteType.DO_COMMIT, sender := 0 }]
              allDone := true } := by
          simp [TpcVoter.updateState, hcs, hf, hcons, TpcVoter.broadcast, hmpi]
        rw [htick] at hnode hch
        have hCall : C = Finset.Ico 1 N := by
          apply eq_Ico_of_card N C (c1.trans c2) _ hN
          simp only [TpcVoter.achievedConsensus, beq_iff_eq, hmpi] at hcons
          rw [← c4, hcons]
        refine inv_broadcast N w w1 _ VoteType.DO_COMMIT true hinv hnode ?_ hmpi rfl
          (by simp) ⟨∅, ∅, ?_, ?_⟩
        · intro a b
          rw [hch a b, hmpi, msgsTo_broadcast N (by omega)]
        · simp only [CoordinatorOK]
          exact c0
        · intro i hi1 hiN
          simp only [CohortOK]
          obtain ⟨h1, h2⟩ := hvoted i hi1 hiN
          refine ⟨h2 (by rw [hCall]; exact Finset.mem_Ico.mpr ⟨hi1, hiN⟩), ?_⟩
          rw [h1]
          left; rfl
  · simp only [CoordinatorOK, hcs] at hcoord
  · simp only [CoordinatorOK, hcs] at hcoord
  · exact absurd hcs hnotT

/-! ## The invariant holds along every run -/

theorem inv_init (N : Int) (hN : 2 ≤ N) (queue : Int → RayQueues Ray) :
    Inv N (World.init N queue) := by
  have hvoter : ∀ k, (World.init N queue).voter k = TpcVoter.new { rank := k, size := N } := by
    intro k
    apply voter_of_some
    simp only [World.init, DomainTracer.new]
    rw [if_pos (by omega)]
  refine ⟨?_, ?_, ?_, ?_, ?_⟩
  · intro k _ _
    refine ⟨?_, ?_, ?_⟩
    · rw [hvoter k]
      simp only [World.init, DomainTracer.new]
      rw [if_pos (by omega)]
    · rw [hvoter k]
      rfl
    · rfl
  · intro a b _ _
    rfl
  · constructor
    · intro a b rays hmem
      simp [World.init] at hmem
    · intro k rays hmem
      simp [World.init, DomainTracer.new] at hmem
  · intro k _ _
    rw [hvoter k]
    simp only [World.init, TpcVoter.new]
    split_ifs <;> simp
  · refine ⟨∅, ∅, ?_, ?_⟩
    · rw [hvoter 0]
      simp [CoordinatorOK, TpcVoter.new, COORDINATOR]
    · intro i hi1 _
      rw [hvoter 0]
      have hi0 : i ≠ 0 := by omega
      have hst : (TpcVoter.new { rank := 0, size := N }).state = State.PREPARE_COORDINATOR := by
        simp [TpcVoter.new, COORDINATOR]
      rw [hst]
      simp only [CohortOK]
      left
      simp only [World.shape, hvoter i, Shape.rest]
      simp [TpcVoter.new, COORDINATOR, hi0, World.init, votesOf]

theorem inv_step (N : Int) (hN : 2 ≤ N) (hNmax : N ≤ 2147483647) (owner : Int → Int)
    (w w1 : World Ray) (e : Event Ray) (hinv : Inv N w)
    (hstep : w.step N owner e = some w1) : Inv N w1 := by
  cases e with
  | trace r q => exact inv_trace N hN owner w w1 r q hinv hstep
  | send r => exact inv_send N hN owner w w1 r hinv hstep
  | recv r => exact inv_recv N hN owner w w1 r hinv hstep
  | tick r =>
    by_cases hr : r = 0
    · subst hr
      exact inv_tick_coordinator N hN owner w w1 hinv hstep
    · have hg : 0 ≤ r ∧ r < N := by
        by_contra hc
        simp only [World.step] at hstep
        rw [if_neg (fun h => hc ⟨h.1, h.2.1⟩)] at hstep
        exact absurd hstep (by simp)
      exact inv_tick_cohort N owner w w1 r (by omega) hg.2 hinv hstep
  | deliver src dst =>
    have hg : 0 ≤ dst ∧ dst < N := by
      by_contra hc
      simp only [World.step] at hstep
      rw [if_neg hc] at hstep
      exact absurd hstep (by simp)
    cases hchan : w.chan src dst with
    | nil =>
      simp only [World.step, hchan] at hstep
      split_ifs at hstep
    | cons m rest =>
      cases m with
      | remoteRays rays => exact inv_deliver_rays N hN owner w w1 src dst rays rest hinv hchan hstep
      | vote x =>
        have hne : votesOf (w.chan src dst) ≠ [] := by
          rw [hchan]
          simp
        by_cases h1 : src = 0 ∧ 1 ≤ dst ∧ dst < N
        · obtain ⟨rfl, hd1, hdN⟩ := h1
          exact inv_deliver_down N owner w w1 dst hd1 hdN x rest hinv hchan hstep
        · by_cases h2 : dst = 0 ∧ 1 ≤ src ∧ src < N
          · obtain ⟨rfl, hs1, hsN⟩ := h2
            exact inv_deliver_up N hNmax owner w w1 src hs1 hsN x rest hinv hchan hstep
          · exact absurd (hinv.votes src dst h1 h2) hne

theorem inv_run (N : Int) (hN : 2 ≤ N) (hNmax : N ≤ 2147483647) (owner : Int → Int)
    (es : List (Event Ray)) :
    ∀ w w1 : World Ray, Inv N w → World.run N owner w es = some w1 → Inv N w1 := by
  induction es with
  | nil =>
    intro w w1 hinv hrun
    simp only [World.run, Option.some.injEq] at hrun
    rw [← hrun]
    exact hinv
  | cons e es ih =>
    intro w w1 hinv hrun
    simp only [World.run] at hrun
    cases hstep : w.step N owner e with
    | none => rw [hstep] at hrun; exact absurd hrun (by simp)
    | some w2 =>
      rw [hstep] at hrun
      simp only [Option.some_bind] at hrun
      exact ih w2 w1 (inv_step N hN hNmax owner w w2 e hinv hstep) hrun

/-- Under the invariant, once a rank has reported done every rank is idle and
may not communicate. -/
theorem inv_done (N : Int) (w : World Ray) (hinv : Inv N w) (r : Int)
    (hr0 : 0 ≤ r) (hrN : r < N) (hfin : (w.node r).finished = true) :
    ∀ k, 0 ≤ k → k < N → w.idle k ∧ (w.voter k).isCommunicationAllowed = false := by
  have hstate := (hinv.fin r hr0 hrN).mp hfin
  obtain ⟨V, C, hcoord, hco⟩ := hinv.cohorts
  have hcs : (w.voter 0).state = State.TERMINATE := by
    by_cases hr : r = 0
    · subst hr
      exact hstate
    · have h := hco r (by omega) hrN
      cases hc : (w.voter 0).state <;> simp only [hc, CohortOK] at h
      · rcases h with h | h | h <;>
          · have := congrArg Shape.state h
            simp only [World.shape, hstate] at this
            exact absurd this (by decide)
      · by_cases hV : r ∈ V
        · have := congrArg Shape.state (h.1 hV).1
          simp only [World.shape, hstate] at this
          exact absurd this (by decide)
        · rcases h.2 hV with h | h | h | h | h | ⟨h, _⟩ | h <;>
            · have := congrArg Shape.state h
              simp only [World.shape, hstate] at this
              exact absurd this (by decide)
      · rfl
  intro k hk0 hkN
  by_cases hk : k = 0
  · subst hk
    simp only [CoordinatorOK, hcs] at hcoord
    exact ⟨hcoord, notAllowed_of_state _ (by rw [hcs]; decide) (by rw [hcs]; decide)⟩
  · have h := hco k (by omega) hkN
    simp only [hcs, CohortOK] at h
    refine ⟨h.1, ?_⟩
    rcases h.2 with h | h | h <;>
      · have := congrArg Shape.state h
        simp only [World.shape] at this
        exact notAllowed_of_state _ (by rw [this]; decide) (by rw [this]; decide)

/-! ## `TransferRays` is a run of the world -/

theorem World.eq_of_fields (a b : World Ray) (h1 : ∀ k, a.node k = b.node k)
    (h2 : ∀ x y, a.chan x y = b.chan x y) : a = b := by
  cases a with
  | mk an ac =>
    cases b with
    | mk bn bc =>
      have e1 : an = bn := funext h1
      have e2 : ac = bc := funext (fun x => funext (h2 x))
      rw [e1, e2]

theorem SendRays_allowed (owner : Int → Int) (rank : Int) (queue : RayQueues Ray)
    (v : TpcVoter) :
    (SendRays owner rank v queue).voter.isCommunicationAllowed = v.isCommunicationAllowed := by
  rw [SendRays_voter owner rank queue v]
  rfl

theorem SendRays_mpi (owner : Int → Int) (rank : Int) (queue : RayQueues Ray)
    (v : TpcVoter) : (SendRays owner rank v queue).voter.mpi = v.mpi := by
  rw [SendRays_voter owner rank queue v]

/-- One call of `TransferRays` on rank `r` is the run `send`, `recv`, `tick`
of the world when communication is allowed, and the run `tick` when it is
not. -/
theorem TransferRays_run (N : Int) (owner : Int → Int) (w : World Ray) (r : Int)
    (v : TpcVoter) (tr : Transfer Ray) (hr : 0 ≤ r ∧ r < N)
    (hfin : (w.node r).finished = false) (hv : (w.node r).tracer.voter = some v)
    (hsize : 1 < (w.node r).tracer.mpiInfo.size)
    (hfit : batchesFit owner (w.node r).tracer.mpiInfo.rank (w.node r).tracer.queue = true)
    (htr : TransferRays owner (w.node r).tracer = some tr) :
    World.run N owner w
        (if v.isCommunicationAllowed then [Event.send r, Event.recv r, Event.tick r]
          else [Event.tick r]) =
      some ((w.setNode r { tracer := tr.tracer, finished := tr.done }).post r tr.sent) := by
  simp only [TransferRays, hsize, if_true, hv] at htr
  cases hal : v.isCommunicationAllowed
  · simp only [hal, Bool.false_eq_true, if_false] at htr ⊢
    simp [World.run, World.step, hr, hfin, hv, htr]
  · simp only [hal, if_true] at htr ⊢
    have hal2 := SendRays_allowed owner (w.node r).tracer.mpiInfo.rank (w.node r).tracer.queue v
    rw [hal] at hal2
    have hmpi2 := SendRays_mpi owner (w.node r).tracer.mpiInfo.rank (w.node r).tracer.queue v
    simp only [TransferRays.vote] at htr
    split_ifs at htr with hassert
    simp only [Option.some.injEq] at htr
    simp only [World.run, World.step, hr, hfin, hv, hal, hfit, and_self, if_true,
      Option.some_bind, post_node, setNode_node, hal2, TransferRays.vote, hassert,
      Option.bind_some]
    rw [← htr]
    congr 1
    apply World.eq_of_fields
    · intro k
      simp only [post_node, setNode_node]
      split_ifs <;> rfl
    · intro x y
      simp only [post_chan, setNode_chan, List.nil_append]
      split_ifs
      · simp [msgsTo_append, hmpi2]
      · rfl

/-! ## Counting the rays in transit -/

@[simp] theorem countOf_nil (t : TransferType) : countOf t ([] : List (Work Ray)) = 0 := rfl

@[simp] theorem countOf_cons (t : TransferType) (m : Work Ray) (l : List (Work Ray)) :
    countOf t (m :: l) = rayCount t m + countOf t l := by
  simp [countOf]

@[simp] theorem countOf_append (t : TransferType) (l1 l2 : List (Work Ray)) :
    countOf t (l1 ++ l2) = countOf t l1 + countOf t l2 := by
  simp [countOf]

theorem countOf_tail (t : TransferType) (m : Work Ray) (l : List (Work Ray)) :
    countOf t (m :: l).tail = countOf t (m :: l) - rayCount t m := by
  simp

@[simp] theorem bufferedFrom_nil (s : Int) : bufferedFrom s ([] : List (RemoteRays Ray)) = 0 := rfl

theorem bufferedFrom_append (s : Int) (q1 q2 : List (RemoteRays Ray)) :
    bufferedFrom s (q1 ++ q2) = bufferedFrom s q1 + bufferedFrom s q2 := by
  simp [bufferedFrom, List.filter_append]

theorem bufferedFrom_cons (s : Int) (x : RemoteRays Ray) (q : List (RemoteRays Ray)) :
    bufferedFrom s (x :: q) =
      (if x.header.sender = s then x.header.num_rays else 0) + bufferedFrom s q := by
  by_cases h : x.header.sender = s <;> simp [bufferedFrom, List.filter_cons, h]

theorem bufferedFrom_singleton (s : Int) (x : RemoteRays Ray) :
    bufferedFrom s [x] = if x.header.sender = s then x.header.num_rays else 0 := by
  rw [bufferedFrom_cons]
  simp

/-- A sum over the ranks in which one term is changed by `c`. -/
theorem sum_Ico_single (N : Int) (f : Int → Int) (d0 c : Int) (h0 : 0 ≤ d0) (hN : d0 < N) :
    Finset.sum (Finset.Ico 0 N) (fun d => f d + if d = d0 then c else 0) =
      Finset.sum (Finset.Ico 0 N) f + c := by
  rw [Finset.sum_add_distrib, Finset.sum_ite_eq' (Finset.Ico 0 N) d0 (fun _ => c)]
  simp [Finset.mem_Ico, h0, hN]

theorem countOf_nonneg (t : TransferType) (l : List (Work Ray))
    (h : ∀ rays, Work.remoteRays rays ∈ l → CountOK rays) : 0 ≤ countOf t l := by
  induction l with
  | nil => simp
  | cons m rest ih =>
    rw [countOf_cons]
    have h1 := ih (fun rays hm => h rays (List.mem_cons_of_mem _ hm))
    have h2 : 0 ≤ rayCount t m := by
      cases m with
      | vote x => simp [rayCount]
      | remoteRays rays =>
        have := (h rays (List.mem_cons_self _ _)).1
        simp only [rayCount]
        split_ifs <;> omega
    omega

/-- No batch of type `t` among `l` when the count of their rays is 0. -/
theorem countOf_eq_zero (t : TransferType) (l : List (Work Ray))
    (h : ∀ rays, Work.remoteRays rays ∈ l → CountOK rays) (hz : countOf t l = 0) :
    ∀ rays, Work.remoteRays rays ∈ l → rays.header.transfer_type ≠ t := by
  induction l with
  | nil => intro rays hm; simp at hm
  | cons m rest ih =>
    rw [countOf_cons] at hz
    have hrest := countOf_nonneg t rest (fun rays hm => h rays (List.mem_cons_of_mem _ hm))
    have hm0 : 0 ≤ rayCount t m := by
      have := countOf_nonneg t [m] (fun rays hm => h rays (by
        rcases List.mem_singleton.mp hm with rfl
        exact List.mem_cons_self _ _))
      simpa using this
    intro rays hmem
    rcases List.mem_cons.mp hmem with rfl | hmem
    · intro ht
      have := (h rays (List.mem_cons_self _ _)).1
      simp only [rayCount, ht, if_true] at hz hm0
      omega
    · exact ih (fun rays hm => h rays (List.mem_cons_of_mem _ hm)) (by omega) rays hmem

theorem bufferedFrom_nonneg (s : Int) (q : List (RemoteRays Ray))
    (h : ∀ rays ∈ q, CountOK rays) : 0 ≤ bufferedFrom s q := by
  induction q with
  | nil => simp
  | cons x rest ih =>
    rw [bufferedFrom_cons]
    have h1 := ih (fun rays hm => h rays (List.mem_cons_of_mem _ hm))
    have h2 := (h x (List.mem_cons_self _ _)).1
    split_ifs <;> omega

theorem bufferedFrom_eq_zero (s : Int) (q : List (RemoteRays Ray))
    (h : ∀ rays ∈ q, CountOK rays) (hz : bufferedFrom s q = 0) :
    ∀ rays ∈ q, rays.header.sender ≠ s := by
  induction q with
  | nil => intro rays hm; simp at hm
  | cons x rest ih =>
    rw [bufferedFrom_cons] at hz
    have h1 := bufferedFrom_nonneg s rest (fun rays hm => h rays (List.mem_cons_of_mem _ hm))
    have h2 := (h x (List.mem_cons_self _ _)).1
    intro rays hmem
    rcases List.mem_cons.mp hmem with rfl | hmem
    · intro hs
      rw [if_pos hs] at hz
      omega
    · refine ih (fun rays hm => h rays (List.mem_cons_of_mem _ hm)) ?_ rays hmem
      split_ifs at hz <;> omega

theorem outstanding_add (N : Int) (w w1 : World Ray) (s : Int) (g : Int → Int)
    (h : ∀ d, 0 ≤ d → d < N →
      countOf TransferType.Request (w1.chan s d) + bufferedFrom s (w1.node d).tracer.workQ +
          countOf TransferType.Grant (w1.chan d s) =
        countOf TransferType.Request (w.chan s d) + bufferedFrom s (w.node d).tracer.workQ +
          countOf TransferType.Grant (w.chan d s) + g d) :
    w1.outstanding N s = w.outstanding N s + Finset.sum (Finset.Ico 0 N) g := by
  unfold World.outstanding
  rw [← Finset.sum_add_distrib]
  apply Finset.sum_congr rfl
  intro d hd
  rw [Finset.mem_Ico] at hd
  exact h d hd.1 hd.2

theorem outstanding_same (N : Int) (w w1 : World Ray) (s : Int)
    (h : ∀ d, 0 ≤ d → d < N →
      countOf TransferType.Request (w1.chan s d) + bufferedFrom s (w1.node d).tracer.workQ +
          countOf TransferType.Grant (w1.chan d s) =
        countOf TransferType.Request (w.chan s d) + bufferedFrom s (w.node d).tracer.workQ +
          countOf TransferType.Grant (w.chan d s)) :
    w1.outstanding N s = w.outstanding N s := by
  have := outstanding_add N w w1 s (fun _ => 0) (fun d h0 hN => by rw [h d h0 hN]; simp)
  simpa using this

/-- The counters stay in step with the rays in transit when every rank's
counter and outstanding rays change by the same amount. -/
theorem acc_of_delta (N : Int) (w w1 : World Ray) (δ : Int → Int) (hacc : Acc N w)
    (hout : ∀ s, 0 ≤ s → s < N → w1.outstanding N s = w.outstanding N s + δ s)
    (hpend : ∀ s, 0 ≤ s → s < N →
      (w1.voter s).numPendingRays % 4294967296 =
        ((w.voter s).numPendingRays + δ s) % 4294967296)
    (hchan : ∀ a b rays, Work.remoteRays rays ∈ w1.chan a b →
      (0 ≤ a ∧ a < N) ∧ (0 ≤ b ∧ b < N) ∧
        (rays.header.transfer_type = TransferType.Request → rays.header.sender = a))
    (hworkQ : ∀ d, ∀ rays ∈ (w1.node d).tracer.workQ,
      0 ≤ rays.header.sender ∧ rays.header.sender < N) : Acc N w1 := by
  refine ⟨?_, hchan, hworkQ⟩
  intro s h0 hN
  rw [hpend s h0 hN, hout s h0 hN]
  have := hacc.pending s h0 hN
  omega

/-! ### What `SendRays` ships -/

/-- The rays of the batches of type `t` among addressed messages. -/
theorem countOf_msgsTo_cons (t : TransferType) (d : Int) (m : Int × Work Ray)
    (l : List (Int × Work Ray)) :
    countOf t (msgsTo d (m :: l)) =
      (if m.1 = d then rayCount t m.2 else 0) + countOf t (msgsTo d l) := by
  by_cases h : m.1 = d <;> simp [msgsTo, List.filter_cons, h]

theorem sum_countOf_msgsTo (N : Int) (t : TransferType) (l : List (Int × Work Ray))
    (h : ∀ m ∈ l, 0 ≤ m.1 ∧ m.1 < N) :
    Finset.sum (Finset.Ico 0 N) (fun d => countOf t (msgsTo d l)) =
      countOf t (l.map (fun m => m.2)) := by
  induction l with
  | nil => simp [msgsTo]
  | cons m rest ih =>
    have hm := h m (List.mem_cons_self _ _)
    simp only [countOf_msgsTo_cons, List.map_cons, countOf_cons]
    rw [Finset.sum_add_distrib, ih (fun x hx => h x (List.mem_cons_of_mem _ hx)),
      Finset.sum_ite_eq (Finset.Ico 0 N) m.1 (fun _ => rayCount t m.2)]
    simp [Finset.mem_Ico, hm.1, hm.2]

theorem countOf_msgsTo_zero (t : TransferType) (d : Int) (l : List (Int × Work Ray))
    (h : ∀ m ∈ l, rayCount t m.2 = 0) : countOf t (msgsTo d l) = 0 := by
  induction l with
  | nil => simp [msgsTo]
  | cons m rest ih =>
    rw [countOf_msgsTo_cons, ih (fun x hx => h x (List.mem_cons_of_mem _ hx)),
      h m (List.mem_cons_self _ _)]
    simp

theorem SendRays_requests (owner : Int → Int) (rank : Int) :
    ∀ (queue : RayQueues Ray) (v : TpcVoter),
      ∀ m ∈ (SendRays owner rank v queue).sent, ∃ rays, m.2 = Work.remoteRays rays ∧
        rays.header.transfer_type = TransferType.Request ∧ rays.header.sender = rank ∧
        m.1 = owner rays.header.inst := by
  intro queue
  induction queue with
  | nil => intro v m hm; simp [SendRays] at hm
  | cons q rest ih =>
    intro v m hm
    unfold SendRays at hm
    simp only [] at hm
    split_ifs at hm with hc
    · simp only [List.mem_cons] at hm
      rcases hm with rfl | hm
      · exact ⟨_, rfl, rfl, rfl, rfl⟩
      · exact ih _ m hm
    · exact ih _ m hm

theorem SendRays_pending (owner : Int → Int) (rank : Int) :
    ∀ (queue : RayQueues Ray) (v : TpcVoter),
      (SendRays owner rank v queue).voter.numPendingRays % 4294967296 =
        (v.numPendingRays + countOf TransferType.Request
          ((SendRays owner rank v queue).sent.map (fun m => m.2))) % 4294967296 := by
  intro queue
  induction queue with
  | nil => intro v; simp [SendRays]
  | cons q rest ih =>
    intro v
    unfold SendRays
    simp only []
    split_ifs with hc
    · have h := ih (v.addNumPendingRays (wrapInt q.2.length))
      simp only [List.map_cons, countOf_cons, rayCount, if_true] at h ⊢
      rw [h]
      simp only [TpcVoter.addNumPendingRays, wrapInt]
      omega
    · exact ih v

/-! ### What `RecvRays` answers -/

theorem RecvRays_sent_eq (rank : Int) :
    ∀ (workQ : List (RemoteRays Ray)) (queue : RayQueues Ray),
      (RecvRays rank queue workQ).sent =
        workQ.map (fun rays => (rays.header.sender,
          Work.remoteRays
            { header :=
                { transfer_type := TransferType.Grant
                  sender := rank
                  inst := rays.header.inst
                  num_rays := rays.header.num_rays }
              rays := [] })) := by
  intro workQ
  induction workQ with
  | nil => intro queue; simp [RecvRays]
  | cons x rest ih =>
    intro queue
    unfold RecvRays
    simp only [List.map_cons]
    rw [ih]

theorem countOf_grants_msgsTo (rank s : Int) (workQ : List (RemoteRays Ray)) :
    countOf TransferType.Grant (msgsTo s (workQ.map (fun rays => (rays.header.sender,
      (Work.remoteRays
        { header :=
            { transfer_type := TransferType.Grant
              sender := rank
              inst := rays.header.inst
              num_rays := rays.header.num_rays }
          rays := [] } : Work Ray))))) = bufferedFrom s workQ := by
  induction workQ with
  | nil => simp [msgsTo]
  | cons x rest ih =>
    rw [List.map_cons, countOf_msgsTo_cons, ih, bufferedFrom_cons]
    simp [rayCount]

theorem updateState_pending (v : TpcVoter) (d : Bool) (h : v.state ≠ State.TERMINATE) :
    (v.updateState d).voter.numPendingRays = v.numPendingRays := by
  unfold TpcVoter.updateState
  cases hs : v.state <;> simp only [] <;> (try split_ifs) <;> first | rfl | exact absurd hs h

/-! ### The steps of the world against the accounting -/

/-- Steps that neither move a batch nor change a pending-ray counter. -/
theorem acc_frame (N : Int) (w w1 : World Ray) (hacc : Acc N w)
    (hc : ∀ a b t, countOf t (w1.chan a b) = countOf t (w.chan a b))
    (hm : ∀ a b rays, Work.remoteRays rays ∈ w1.chan a b → Work.remoteRays rays ∈ w.chan a b)
    (hq : ∀ d, (w1.node d).tracer.workQ = (w.node d).tracer.workQ)
    (hp : ∀ s, 0 ≤ s → s < N → (w1.voter s).numPendingRays = (w.voter s).numPendingRays) :
    Acc N w1 := by
  refine acc_of_delta N w w1 (fun _ => 0) hacc ?_ ?_ ?_ ?_
  · intro s _ _
    rw [outstanding_same N w w1 s]
    · simp
    · intro d _ _
      rw [hc, hc, hq]
  · intro s h0 hN
    rw [hp s h0 hN]
    simp
  · intro a b rays hmem
    exact hacc.chan a b rays (hm a b rays hmem)
  · intro d rays hmem
    rw [hq d] at hmem
    exact hacc.workQ d rays hmem

theorem acc_trace (N : Int) (owner : Int → Int) (w w1 : World Ray) (r : Int)
    (q : RayQueues Ray) (hacc : Acc N w)
    (hstep : w.step N owner (Event.trace r q) = some w1) : Acc N w1 := by
  simp only [World.step] at hstep
  split_ifs at hstep with hc
  simp only [Option.some.injEq] at hstep
  subst hstep
  refine acc_frame N w _ hacc ?_ ?_ ?_ ?_
  · intro a b t
    simp
  · intro a b rays h
    simpa using h
  · intro d
    simp only [setNode_node]
    split_ifs with hd
    · rw [hd]
    · rfl
  · intro s _ _
    rw [voter_eq_of_node]
    simp only [setNode_node]
    split_ifs with hd
    · rw [hd]
    · rfl

theorem countOf_votes (t : TransferType) (b : Int) (l : List (Int × Work Ray))
    (h : ∀ m ∈ l, ∃ x, m.2 = Work.vote x) : countOf t (msgsTo b l) = 0 := by
  apply countOf_msgsTo_zero
  intro m hm
  obtain ⟨x, hx⟩ := h m hm
  rw [hx]
  rfl

theorem acc_tick (N : Int) (owner : Int → Int) (w w1 : World Ray) (r : Int)
    (hinv : Inv N w) (hacc : Acc N w)
    (hstep : w.step N owner (Event.tick r) = some w1) : Acc N w1 := by
  simp only [World.step] at hstep
  split_ifs at hstep with hg
  obtain ⟨hr0, hrN, hfin⟩ := hg
  obtain ⟨hv, _, _⟩ := hinv.ranks r hr0 hrN
  simp only [hv, TransferRays.vote] at hstep
  split_ifs at hstep with hassert
  simp only [Option.some.injEq] at hstep
  have hnotT : (w.voter r).state ≠ State.TERMINATE := by
    intro h
    have := (hinv.fin r hr0 hrN).mpr h
    rw [hfin] at this
    exact absurd this (by simp)
  have hvotes : ∀ m ∈ ([] ++ voteWork (w.voter r).mpi
      ((w.voter r).updateState (IsDone (w.node r).tracer.queue)).sent : List (Int × Work Ray)),
      ∃ x, m.2 = Work.vote x := by
    intro m hm
    simp only [List.nil_append] at hm
    exact voteWork_mem _ _ m hm
  subst hstep
  refine acc_frame N w _ hacc ?_ ?_ ?_ ?_
  · intro a b t
    simp only [post_chan, setNode_chan]
    split_ifs
    · rw [countOf_append, countOf_votes t b _ hvotes]
      simp
    · rfl
  · intro a b rays h
    simp only [post_chan, setNode_chan] at h
    split_ifs at h
    · rcases List.mem_append.mp h with h | h
      · exact h
      · obtain ⟨m, hm, h2⟩ := mem_msgsTo b _ _ h
        obtain ⟨x, hx⟩ := hvotes m hm
        rw [hx] at h2
        exact absurd h2 (by simp)
    · exact h
  · intro d
    simp only [post_node, setNode_node]
    split_ifs with hd
    · rw [hd]
    · rfl
  · intro s _ _
    by_cases hs : s = r
    · subst hs
      rw [voter_of_some _ s ((w.voter s).updateState (IsDone (w.node s).tracer.queue)).voter
        (by simp)]
      exact updateState_pending _ _ hnotT
    · rw [voter_eq_of_node]
      simp [hs]

theorem acc_send (N : Int) (owner : Int → Int) (howner : ∀ i, 0 ≤ owner i ∧ owner i < N)
    (w w1 : World Ray) (r : Int) (hinv : Inv N w) (hacc : Acc N w)
    (hstep : w.step N owner (Event.send r) = some w1) : Acc N w1 := by
  simp only [World.step] at hstep
  split_ifs at hstep with hc
  obtain ⟨hr0, hrN, _⟩ := hc
  obtain ⟨hv, _, hinfo⟩ := hinv.ranks r hr0 hrN
  rw [hv] at hstep
  simp only [] at hstep
  split_ifs at hstep with hg
  simp only [Option.some.injEq] at hstep
  have hrank : (w.node r).tracer.mpiInfo.rank = r := by rw [hinfo]
  rw [hrank] at hstep
  have hreq := SendRays_requests owner r (w.node r).tracer.queue (w.voter r)
  have hpend := SendRays_pending owner r (w.node r).tracer.queue (w.voter r)
  generalize hS : SendRays owner r (w.voter r) (w.node r).tracer.queue = S at hstep hreq hpend
  have hdst : ∀ m ∈ S.sent, 0 ≤ m.1 ∧ m.1 < N := by
    intro m hm
    obtain ⟨rays, _, _, _, h4⟩ := hreq m hm
    rw [h4]
    exact howner _
  have hgrant0 : ∀ m ∈ S.sent, rayCount TransferType.Grant m.2 = 0 := by
    intro m hm
    obtain ⟨rays, h1, h2, _, _⟩ := hreq m hm
    rw [h1]
    simp [rayCount, h2]
  have hch : ∀ a b, w1.chan a b =
      if a = r then w.chan a b ++ msgsTo b S.sent else w.chan a b := by
    intro a b
    rw [← hstep]
    simp
  have hwq : ∀ d, (w1.node d).tracer.workQ = (w.node d).tracer.workQ := by
    intro d
    rw [← hstep]
    simp only [post_node, setNode_node]
    split_ifs with hd
    · rw [hd]
    · rfl
  have hvr : w1.voter r = S.voter := by
    apply voter_of_some
    rw [← hstep]
    simp
  have hvk : ∀ k, k ≠ r → w1.voter k = w.voter k := by
    intro k hk
    apply voter_eq_of_node
    rw [← hstep]
    simp [hk]
  refine acc_of_delta N w w1
    (fun s => if s = r then countOf TransferType.Request (S.sent.map (fun m => m.2)) else 0)
    hacc ?_ ?_ ?_ ?_
  · intro s hs0 hsN
    rw [outstanding_add N w w1 s
      (fun d => if s = r then countOf TransferType.Request (msgsTo d S.sent) else 0)]
    · by_cases hsr : s = r
      · simp only [hsr, if_true]
        rw [sum_countOf_msgsTo N _ _ hdst]
      · simp [hsr]
    · intro d _ _
      rw [hwq d, hch s d, hch d s]
      by_cases hsr : s = r
      · by_cases hdr : d = r
        · simp only [hsr, hdr, if_true, countOf_append, countOf_msgsTo_zero _ _ _ hgrant0]
          ring
        · simp only [hsr, hdr, if_true, if_false, countOf_append]
          ring
      · by_cases hdr : d = r
        · simp only [hsr, hdr, if_true, if_false, countOf_append,
            countOf_msgsTo_zero _ _ _ hgrant0]
          ring
        · simp only [hsr, hdr, if_false]
          ring
  · intro s _ _
    by_cases hsr : s = r
    · subst hsr
      rw [hvr]
      simp only [if_true]
      exact hpend
    · rw [hvk s hsr]
      simp [hsr]
  · intro a b rays hmem
    rw [hch a b] at hmem
    split_ifs at hmem with ha
    · rcases List.mem_append.mp hmem with h | h
      · exact hacc.chan a b rays h
      · simp only [msgsTo, List.mem_map, List.mem_filter, beq_iff_eq] at h
        obtain ⟨m, ⟨hm, hmb⟩, h2⟩ := h
        obtain ⟨rays2, h3, _, h5, _⟩ := hreq m hm
        rw [h3] at h2
        injection h2 with h6
        subst h6
        refine ⟨by rw [ha]; exact ⟨hr0, hrN⟩, by rw [← hmb]; exact hdst m hm, fun _ => ?_⟩
        rw [h5, ha]
    · exact hacc.chan a b rays hmem
  · intro d rays hmem
    rw [hwq d] at hmem
    exact hacc.workQ d rays hmem

theorem acc_recv (N : Int) (owner : Int → Int) (w w1 : World Ray) (r : Int)
    (hinv : Inv N w) (hacc : Acc N w)
    (hstep : w.step N owner (Event.recv r) = some w1) : Acc N w1 := by
  simp only [World.step] at hstep
  split_ifs at hstep with hc
  obtain ⟨hr0, hrN, _⟩ := hc
  obtain ⟨hv, _, hinfo⟩ := hinv.ranks r hr0 hrN
  rw [hv] at hstep
  simp only [] at hstep
  split_ifs at hstep with hg
  simp only [Option.some.injEq] at hstep
  rw [RecvRays_sent_eq] at hstep
  generalize hG : (w.node r).tracer.workQ.map (fun rays => (rays.header.sender,
      (Work.remoteRays
        { header :=
            { transfer_type := TransferType.Grant
              sender := (w.node r).tracer.mpiInfo.rank
              inst := rays.header.inst
              num_rays := rays.header.num_rays }
          rays := [] } : Work Ray))) = G at hstep
  have hgrant : ∀ s, countOf TransferType.Grant (msgsTo s G) =
      bufferedFrom s (w.node r).tracer.workQ := by
    intro s
    rw [← hG]
    exact countOf_grants_msgsTo _ s _
  have hG2 : ∀ m ∈ G, ∃ rays ∈ (w.node r).tracer.workQ, m.1 = rays.header.sender ∧
      ∃ rays2, m.2 = Work.remoteRays rays2 ∧
        rays2.header.transfer_type = TransferType.Grant := by
    intro m hm
    rw [← hG] at hm
    simp only [List.mem_map] at hm
    obtain ⟨rays, hr, rfl⟩ := hm
    exact ⟨rays, hr, rfl, _, rfl, rfl⟩
  have hreq0 : ∀ m ∈ G, rayCount TransferType.Request m.2 = 0 := by
    intro m hm
    obtain ⟨_, _, _, rays2, h1, h2⟩ := hG2 m hm
    rw [h1]
    simp [rayCount, h2]
  have hch : ∀ a b, w1.chan a b =
      if a = r then w.chan a b ++ msgsTo b G else w.chan a b := by
    intro a b
    rw [← hstep]
    simp
  have hwq : ∀ d, (w1.node d).tracer.workQ =
      if d = r then [] else (w.node d).tracer.workQ := by
    intro d
    rw [← hstep]
    simp only [post_node, setNode_node]
    split_ifs
    · exact RecvRays_workQ _ _ _
    · rfl
  have hvk : ∀ k, w1.voter k = w.voter k := by
    intro k
    apply voter_eq_of_node
    rw [← hstep]
    simp only [post_node, setNode_node]
    split_ifs with hk
    · rw [hk]
      exact hv.symm
    · rfl
  refine acc_of_delta N w w1 (fun _ => 0) hacc ?_ ?_ ?_ ?_
  · intro s _ _
    rw [outstanding_same N w w1 s]
    · simp
    · intro d _ _
      rw [hwq d, hch s d, hch d s]
      by_cases hsr : s = r
      · by_cases hdr : d = r
        · simp only [hsr, hdr, if_true, countOf_append, countOf_msgsTo_zero _ _ _ hreq0, hgrant,
            bufferedFrom_nil]
          ring
        · simp only [hsr, hdr, if_true, if_false, countOf_append,
            countOf_msgsTo_zero _ _ _ hreq0]
          ring
      · by_cases hdr : d = r
        · simp only [hsr, hdr, if_true, if_false, countOf_append, hgrant, bufferedFrom_nil]
          ring
        · simp only [hsr, hdr, if_false]
  · intro s _ _
    rw [hvk s]
    simp
  · intro a b rays hmem
    rw [hch a b] at hmem
    split_ifs at hmem with ha
    · rcases List.mem_append.mp hmem with h | h
      · exact hacc.chan a b rays h
      · simp only [msgsTo, List.mem_map, List.mem_filter, beq_iff_eq] at h
        obtain ⟨m, ⟨hm, hmb⟩, h2⟩ := h
        obtain ⟨rays1, hr1, h3, rays2, h4, h5⟩ := hG2 m hm
        rw [h4] at h2
        injection h2 with h6
        subst h6
        refine ⟨by rw [ha]; exact ⟨hr0, hrN⟩, ?_, fun h => ?_⟩
        · rw [← hmb, h3]
          exact hacc.workQ r rays1 hr1
        · rw [h5] at h
          exact absurd h (by decide)
    · exact hacc.chan a b rays hmem
  · intro d rays hmem
    rw [hwq d] at hmem
    split_ifs at hmem
    · simp at hmem
    · exact hacc.workQ d rays hmem

theorem countOf_pop (t : TransferType) (w : World Ray) (src dst a b : Int) (m : Work Ray)
    (rest : List (Work Ray)) (hchan : w.chan src dst = m :: rest) :
    countOf t ((w.pop src dst).chan a b) =
      countOf t (w.chan a b) - if a = src ∧ b = dst then rayCount t m else 0 := by
  simp only [pop_chan]
  split_ifs with h
  · obtain ⟨rfl, rfl⟩ := h
    rw [hchan]
    simp
  · simp

theorem acc_deliver (N : Int) (owner : Int → Int) (w w1 : World Ray) (src dst : Int)
    (hinv : Inv N w) (hacc : Acc N w)
    (hstep : w.step N owner (Event.deliver src dst) = some w1) : Acc N w1 := by
  simp only [World.step] at hstep
  split_ifs at hstep with hg
  obtain ⟨hd0, hdN⟩ := hg
  obtain ⟨hv, _, _⟩ := hinv.ranks dst hd0 hdN
  cases hchan : w.chan src dst with
  | nil => rw [hchan] at hstep; exact absurd hstep (by simp)
  | cons m rest =>
    rw [hchan] at hstep
    simp only [] at hstep
    have hmem1 : ∀ a b rays, Work.remoteRays rays ∈ (w.pop src dst).chan a b →
        (0 ≤ a ∧ a < N) ∧ (0 ≤ b ∧ b < N) ∧
          (rays.header.transfer_type = TransferType.Request → rays.header.sender = a) :=
      fun a b rays h => hacc.chan a b rays (mem_chan_pop w src dst a b _ h)
    cases m with
    | vote x =>
      simp only [dispatch, hv, Option.some.injEq] at hstep
      subst hstep
      refine acc_frame N w _ hacc ?_ ?_ ?_ ?_
      · intro a b t
        rw [setNode_chan, countOf_pop t w src dst a b _ rest hchan]
        simp [rayCount]
      · intro a b rays h
        rw [setNode_chan] at h
        exact mem_chan_pop w src dst a b _ h
      · intro d
        simp only [setNode_node, pop_node]
        split_ifs with hd
        · rw [hd]
        · rfl
      · intro s _ _
        by_cases hs : s = dst
        · subst hs
          rw [voter_of_some _ s (receiveVote (w.voter s) x.voteWorkType) (by simp)]
          exact receiveVote_pending _ _
        · rw [voter_eq_of_node]
          simp [hs]
    | remoteRays rays =>
      obtain ⟨⟨hs0, hsN⟩, _, hsender⟩ := hacc.chan src dst rays (by rw [hchan]; simp)
      simp only [dispatch] at hstep
      cases ht : rays.header.transfer_type
      · -- a request moves from the channel into the work queue
        simp only [ht, Option.some.injEq] at hstep
        have hsrc : rays.header.sender = src := hsender ht
        have hch : ∀ a b, w1.chan a b = (w.pop src dst).chan a b := by
          intro a b
          rw [← hstep]
          simp
        have hwq : ∀ d, (w1.node d).tracer.workQ =
            if d = dst then (w.node dst).tracer.workQ ++ [rays] else (w.node d).tracer.workQ := by
          intro d
          rw [← hstep]
          simp only [setNode_node, pop_node]
          split_ifs <;> rfl
        have hvk : ∀ k, w1.voter k = w.voter k := by
          intro k
          apply voter_eq_of_node
          rw [← hstep]
          simp only [setNode_node, pop_node]
          split_ifs with hk
          · rw [hk]
          · rfl
        refine acc_of_delta N w w1 (fun _ => 0) hacc ?_ ?_ ?_ ?_
        · intro s _ _
          rw [outstanding_same N w w1 s]
          · simp
          · intro d _ _
            rw [hwq d, hch s d, hch d s,
              countOf_pop TransferType.Request w src dst s d _ rest hchan,
              countOf_pop TransferType.Grant w src dst d s _ rest hchan]
            simp only [rayCount, ht, if_true]
            have hg0 : (if TransferType.Request = TransferType.Grant then rays.header.num_rays
                else 0) = 0 := by simp
            rw [hg0]
            by_cases hdd : d = dst
            · by_cases hss : s = src
              · simp only [hdd, hss, and_self, if_true, bufferedFrom_append,
                  bufferedFrom_singleton, hsrc]
                split_ifs <;> ring
              · have hne : ¬ rays.header.sender = s := by
                  rw [hsrc]
                  exact fun h => hss h.symm
                simp only [hdd, hss, false_and, if_false, if_true, bufferedFrom_append,
                  bufferedFrom_singleton, hne]
                split_ifs <;> ring
            · simp only [hdd, and_false, if_false]
              split_ifs <;> ring
        · intro s _ _
          rw [hvk s]
          simp
        · intro a b y hmem
          rw [hch a b] at hmem
          exact hmem1 a b y hmem
        · intro d y hmem
          rw [hwq d] at hmem
          split_ifs at hmem
          · rcases List.mem_append.mp hmem with h | h
            · exact hacc.workQ dst y h
            · simp only [List.mem_singleton] at h
              subst h
              rw [hsrc]
              exact ⟨hs0, hsN⟩
          · exact hacc.workQ d y hmem
      · -- a grant is taken off the pending rays of its destination
        simp only [ht, hv] at hstep
        cases hsub : (w.voter dst).subtractNumPendingRays rays.header.num_rays with
        | none => rw [hsub] at hstep; exact absurd hstep (by simp)
        | some v1 =>
          rw [hsub] at hstep
          simp only [Option.some.injEq] at hstep
          have hv1 : v1.numPendingRays =
              wrapInt ((w.voter dst).numPendingRays - rays.header.num_rays) := by
            simp only [TpcVoter.subtractNumPendingRays] at hsub
            split_ifs at hsub
            simp only [Option.some.injEq] at hsub
            rw [← hsub]
          have hch : ∀ a b, w1.chan a b = (w.pop src dst).chan a b := by
            intro a b
            rw [← hstep]
            simp
          have hwq : ∀ d, (w1.node d).tracer.workQ = (w.node d).tracer.workQ := by
            intro d
            rw [← hstep]
            simp only [setNode_node, pop_node]
            split_ifs with hd
            · rw [hd]
            · rfl
          have hvd : w1.voter dst = v1 := by
            apply voter_of_some
            rw [← hstep]
            simp
          have hvk : ∀ k, k ≠ dst → w1.voter k = w.voter k := by
            intro k hk
            apply voter_eq_of_node
            rw [← hstep]
            simp [hk]
          refine acc_of_delta N w w1
            (fun s => if s = dst then - rays.header.num_rays else 0) hacc ?_ ?_ ?_ ?_
          · intro s _ _
            rw [outstanding_add N w w1 s
              (fun d => 0 + if d = src then (if s = dst then - rays.header.num_rays else 0)
                else 0)]
            · rw [sum_Ico_single N (fun _ => 0) src _ hs0 hsN]
              simp
            · intro d _ _
              rw [hwq d, hch s d, hch d s,
                countOf_pop TransferType.Request w src dst s d _ rest hchan,
                countOf_pop TransferType.Grant w src dst d s _ rest hchan]
              simp only [rayCount, ht, if_true]
              have hg0 : (if TransferType.Grant = TransferType.Request then rays.header.num_rays
                  else 0) = 0 := by simp
              rw [hg0]
              by_cases hdd : d = src <;> by_cases hss : s = dst <;>
                simp only [hdd, hss, and_self, and_false, false_and, if_true, if_false] <;>
                split_ifs <;> ring
          · intro s _ _
            by_cases hs : s = dst
            · subst hs
              rw [hvd, hv1]
              simp only [if_true, wrapInt]
              omega
            · rw [hvk s hs]
              simp [hs]
          · intro a b y hmem
            rw [hch a b] at hmem
            exact hmem1 a b y hmem
          · intro d y hmem
            rw [hwq d] at hmem
            exact hacc.workQ d y hmem

/-! ### The accounting holds along every run -/

theorem acc_init (N : Int) (queue : Int → RayQueues Ray) : Acc N (World.init N queue) := by
  refine ⟨?_, ?_, ?_⟩
  · intro r _ _
    have h1 : ((World.init N queue).voter r).numPendingRays = 0 := by
      simp only [World.voter, World.init, DomainTracer.new]
      split_ifs <;> rfl
    have h2 : (World.init N queue).outstanding N r = 0 := by
      unfold World.outstanding
      apply Finset.sum_eq_zero
      intro d _
      simp [World.init, DomainTracer.new]
    rw [h1, h2]
  · intro a b rays hmem
    simp [World.init] at hmem
  · intro d rays hmem
    simp [World.init, DomainTracer.new] at hmem

theorem acc_step (N : Int) (owner : Int → Int) (howner : ∀ i, 0 ≤ owner i ∧ owner i < N)
    (w w1 : World Ray) (e : Event Ray) (hinv : Inv N w) (hacc : Acc N w)
    (hstep : w.step N owner e = some w1) : Acc N w1 := by
  cases e with
  | trace r q => exact acc_trace N owner w w1 r q hacc hstep
  | send r => exact acc_send N owner howner w w1 r hinv hacc hstep
  | recv r => exact acc_recv N owner w w1 r hinv hacc hstep
  | tick r => exact acc_tick N owner w w1 r hinv hacc hstep
  | deliver src dst => exact acc_deliver N owner w w1 src dst hinv hacc hstep

theorem acc_run (N : Int) (hN : 2 ≤ N) (hNmax : N ≤ 2147483647) (owner : Int → Int)
    (howner : ∀ i, 0 ≤ owner i ∧ owner i < N) (es : List (Event Ray)) :
    ∀ w w1 : World Ray, Inv N w → Acc N w → World.run N owner w es = some w1 → Acc N w1 := by
  induction es with
  | nil =>
    intro w w1 _ hacc hrun
    simp only [World.run, Option.some.injEq] at hrun
    rw [← hrun]
    exact hacc
  | cons e es ih =>
    intro w w1 hinv hacc hrun
    simp only [World.run] at hrun
    cases hstep : w.step N owner e with
    | none => rw [hstep] at hrun; exact absurd hrun (by simp)
    | some w2 =>
      rw [hstep] at hrun
      simp only [Option.some_bind] at hrun
      exact ih w2 w1 (inv_step N hN hNmax owner w w2 e hinv hstep)
        (acc_step N owner howner w w2 e hinv hacc hstep) hrun

theorem outstanding_terms_nonneg (N : Int) (w : World Ray) (hinv : Inv N w) (r d : Int) :
    0 ≤ countOf TransferType.Request (w.chan r d) ∧
    0 ≤ bufferedFrom r (w.node d).tracer.workQ ∧
    0 ≤ countOf TransferType.Grant (w.chan d r) :=
  ⟨countOf_nonneg _ _ (fun rays h => hinv.batches.1 r d rays h),
    bufferedFrom_nonneg _ _ (fun rays h => hinv.batches.2 d rays h),
    countOf_nonneg _ _ (fun rays h => hinv.batches.1 d r rays h)⟩

theorem outstanding_nonneg (N : Int) (w : World Ray) (hinv : Inv N w) (r : Int) :
    0 ≤ w.outstanding N r := by
  unfold World.outstanding
  apply Finset.sum_nonneg
  intro d _
  obtain ⟨h1, h2, h3⟩ := outstanding_terms_nonneg N w hinv r d
  omega

/-- With no ray outstanding on any rank there is no batch in flight and no
batch buffered. -/
theorem no_batch_of_outstanding (N : Int) (w : World Ray) (hinv : Inv N w) (hacc : Acc N w)
    (hz : ∀ r, 0 ≤ r → r < N → w.outstanding N r = 0) :
    (∀ a b rays, Work.remoteRays rays ∉ w.chan a b) ∧
    (∀ k, 0 ≤ k → k < N → (w.node k).tracer.workQ = []) := by
  have hterm : ∀ r d, 0 ≤ r → r < N → 0 ≤ d → d < N →
      countOf TransferType.Request (w.chan r d) = 0 ∧
      bufferedFrom r (w.node d).tracer.workQ = 0 ∧
      countOf TransferType.Grant (w.chan d r) = 0 := by
    intro r d hr0 hrN hd0 hdN
    have h := hz r hr0 hrN
    unfold World.outstanding at h
    rw [Finset.sum_eq_zero_iff_of_nonneg] at h
    · have h2 := h d (Finset.mem_Ico.mpr ⟨hd0, hdN⟩)
      obtain ⟨h3, h4, h5⟩ := outstanding_terms_nonneg N w hinv r d
      simp only [] at h2
      exact ⟨by omega, by omega, by omega⟩
    · intro i _
      obtain ⟨h3, h4, h5⟩ := outstanding_terms_nonneg N w hinv r i
      omega
  constructor
  · intro a b rays hmem
    obtain ⟨⟨ha0, haN⟩, ⟨hb0, hbN⟩, _⟩ := hacc.chan a b rays hmem
    cases ht : rays.header.transfer_type
    · exact countOf_eq_zero TransferType.Request (w.chan a b)
        (fun y h => hinv.batches.1 a b y h) (hterm a b ha0 haN hb0 hbN).1 rays hmem ht
    · exact countOf_eq_zero TransferType.Grant (w.chan a b)
        (fun y h => hinv.batches.1 a b y h) (hterm b a hb0 hbN ha0 haN).2.2 rays hmem ht
  · intro k hk0 hkN
    apply List.eq_nil_iff_forall_not_mem.mpr
    intro rays hmem
    obtain ⟨hs0, hsN⟩ := hacc.workQ k rays hmem
    exact bufferedFrom_eq_zero rays.header.sender (w.node k).tracer.workQ
      (fun y h => hinv.batches.2 k y h) (hterm _ k hs0 hsN hk0 hkN).2.1 rays hmem rfl

/-- C1. Voter safety. In every world reached from the start of a frame of
`N >= 2` ranks by a run of the tracer loops and of message deliveries in
per-pair order (every shipped batch having an `int` ray count, no assertion
failing): (1) a tick that sends `VOTE_COMMIT` is taken with `hasWork()` false;
(2) a tick of the coordinator that broadcasts `PROPOSE` is taken with
`hasWork()` false; (3) a rank in `PROPOSE`, `VOTE` or `TERMINATE` may not
communicate, so neither `SendRays` nor `RecvRays` can run on it; (4) once a
tick has returned done on some rank, every rank has all its queues empty, has
`numPendingRays = 0` and may not communicate; (5) when the owner map names
ranks of the world, every pending-ray counter equals, modulo the width of an
`int`, the rays of the rank's batches that are in flight, buffered or granted
and not yet subtracted, so that once a tick has returned done no batch is in
flight and none is buffered anywhere, as long as fewer than `2^32` rays per
rank are outstanding. -/
theorem C1_voter_safety (N : Int) (mpiInstanceMap : Int → Int) (queue : Int → RayQueues Ray)
    (es : List (Event Ray)) (w : World Ray)
    (hsize : 2 ≤ N ∧ N ≤ 2147483647)
    (hrun : World.run N mpiInstanceMap (World.init N queue) es = some w) :
    (∀ r dst sender,
      VoteSend.Send dst { voteWorkType := VoteType.VOTE_COMMIT, sender := sender } ∈
          ((w.voter r).updateState (IsDone (w.node r).tracer.queue)).sent →
        (w.voter r).hasWork (IsDone (w.node r).tracer.queue) = false) ∧
    (∀ sender,
      VoteSend.SendAllOther { voteWorkType := VoteType.PROPOSE, sender := sender } ∈
          ((w.voter 0).updateState (IsDone (w.node 0).tracer.queue)).sent →
        (w.voter 0).hasWork (IsDone (w.node 0).tracer.queue) = false) ∧
    (∀ k, 0 ≤ k → k < N →
      (w.voter k).state = State.PROPOSE ∨ (w.voter k).state = State.VOTE ∨
          (w.voter k).state = State.TERMINATE →
        (w.voter k).isCommunicationAllowed = false ∧
        w.step N mpiInstanceMap (Event.send k) = none ∧
        w.step N mpiInstanceMap (Event.recv k) = none) ∧
    (∀ r, 0 ≤ r → r < N → (w.node r).finished = true →
      ∀ k, 0 ≤ k → k < N →
        IsDone (w.node k).tracer.queue = true ∧ (w.voter k).numPendingRays = 0 ∧
        (w.voter k).isCommunicationAllowed = false) ∧
    ((∀ i, 0 ≤ mpiInstanceMap i ∧ mpiInstanceMap i < N) →
      (∀ r, 0 ≤ r → r < N →
        (w.voter r).numPendingRays % 4294967296 = w.outstanding N r % 4294967296) ∧
      (∀ r, 0 ≤ r → r < N → (w.node r).finished = true →
        (∀ k, 0 ≤ k → k < N → w.outstanding N k < 4294967296) →
        (∀ a b rays, Work.remoteRays rays ∉ w.chan a b) ∧
        (∀ k, 0 ≤ k → k < N → (w.node k).tracer.workQ = []))) := by
  have hinv : Inv N w :=
    inv_run N hsize.1 hsize.2 mpiInstanceMap es _ w (inv_init N hsize.1 queue) hrun
  refine ⟨?_, ?_, ?_, ?_, ?_⟩
  · intro r dst sender hmem
    unfold TpcVoter.updateState at hmem
    cases hs : (w.voter r).state <;> simp only [hs] at hmem
    · split_ifs at hmem
      · simp [TpcVoter.broadcast] at hmem
      · simp at hmem
    · split_ifs at hmem
      · simp [TpcVoter.broadcast] at hmem
      · simp [TpcVoter.broadcast] at hmem
      · simp at hmem
    · split_ifs at hmem with h1 h2
      · simp [TpcVoter.sendVote] at hmem
      · simpa [TpcVoter.hasWork] using h2
      · simp at hmem
    · split_ifs at hmem <;> simp at hmem
    · simp at hmem
  · intro sender hmem
    unfold TpcVoter.updateState at hmem
    cases hs : (w.voter 0).state <;> simp only [hs] at hmem
    · split_ifs at hmem with h1
      · simpa using h1
      · simp at hmem
    · split_ifs at hmem
      · simp [TpcVoter.broadcast] at hmem
      · simp [TpcVoter.broadcast] at hmem
      · simp at hmem
    · split_ifs at hmem
      · simp [TpcVoter.sendVote] at hmem
      · simp [TpcVoter.sendVote] at hmem
      · simp at hmem
    · split_ifs at hmem <;> simp at hmem
    · simp at hmem
  · intro k hk0 hkN hs
    have hgate : (w.voter k).isCommunicationAllowed = false := by
      rcases hs with h | h | h <;>
        exact notAllowed_of_state _ (by rw [h]; decide) (by rw [h]; decide)
    have hv := (hinv.ranks k hk0 hkN).1
    refine ⟨hgate, ?_, ?_⟩
    · simp [World.step, hv, hgate]
    · simp [World.step, hv, hgate]
  · intro r hr0 hrN hfin k hk0 hkN
    obtain ⟨h1, h2⟩ := inv_done N w hinv r hr0 hrN hfin k hk0 hkN
    exact ⟨h1.1, h1.2, h2⟩
  · intro howner
    have hacc : Acc N w :=
      acc_run N hsize.1 hsize.2 mpiInstanceMap howner es _ w (inv_init N hsize.1 queue)
        (acc_init N queue) hrun
    refine ⟨hacc.pending, ?_⟩
    intro r hr0 hrN hfin hbound
    apply no_batch_of_outstanding N w hinv hacc
    intro k hk0 hkN
    have h1 := (inv_done N w hinv r hr0 hrN hfin k hk0 hkN).1.2
    have h2 := hacc.pending k hk0 hkN
    have h3 := outstanding_nonneg N w hinv k
    have h4 := hbound k hk0 hkN
    rw [h1] at h2
    omega

theorem C1_voter_safety_witness :
    (2 ≤ (2 : Int) ∧ (2 : Int) ≤ 2147483647) ∧
    twoRankEnd.isSome = true ∧
    twoRankEnd.map (fun w => ((w.node 0).finished, (w.node 1).finished)) = some (true, true) ∧
    twoRankEnd.map (fun w => (IsDone (w.node 0).tracer.queue, IsDone (w.node 1).tracer.queue,
      (w.voter 0).numPendingRays, (w.voter 1).numPendingRays)) = some (true, true, 0, 0) ∧
    twoRankEnd.map (fun w => ((w.node 0).tracer.workQ, (w.node 1).tracer.workQ)) =
      some ([], []) := by
  refine ⟨by decide, by decide, by decide, ?_⟩
  cases hw : twoRankEnd with
  | none =>
    have h : twoRankEnd.isSome = true := by decide
    rw [hw] at h
    exact absurd h (by simp)
  | some w =>
    have hfin : (w.node 0).finished = true := by
      have h : twoRankEnd.map (fun w => (w.node 0).finished) = some true := by decide
      rw [hw] at h
      simpa using h
    have hout : ∀ k, 0 ≤ k → k < 2 → w.outstanding 2 k < 4294967296 := by
      have h : twoRankEnd.map (fun w => (w.outstanding 2 0, w.outstanding 2 1)) =
          some (0, 0) := by decide
      rw [hw] at h
      simp only [Option.map_some', Option.some.injEq, Prod.mk.injEq] at h
      intro k hk0 hk2
      have hk : k = 0 ∨ k = 1 := by omega
      rcases hk with rfl | rfl
      · rw [h.1]; decide
      · rw [h.2]; decide
    have hall := C1_voter_safety 2 twoRankOwner twoRankQueues twoRankRun w (by decide) hw
    have h := hall.2.2.2.1 0 (by decide) (by decide) hfin
    have hq := ((hall.2.2.2.2 (fun i => by unfold twoRankOwner; omega)).2
      0 (by decide) (by decide) hfin hout).2
    obtain ⟨a1, a2, _⟩ := h 0 (by decide) (by decide)
    obtain ⟨b1, b2, _⟩ := h 1 (by decide) (by decide)
    have q0 := hq 0 (by decide) (by decide)
    have q1 := hq 1 (by decide) (by decide)
    simp [a1, a2, b1, b2, q0, q1]

/-! ## The predicates and entry points of the voter -/

/-- C11. `isCommunicationAllowed()` is true exactly when the voter is the
coordinator (rank 0) in `PREPARE_COORDINATOR` or a cohort (rank other than 0)
in `PREPARE_COHORT`. -/
theorem C11_communication_allowed (v : TpcVoter) :
    v.isCommunicationAllowed = true ↔
      (v.mpi.rank = 0 ∧ v.state = State.PREPARE_COORDINATOR) ∨
      (v.mpi.rank ≠ 0 ∧ v.state = State.PREPARE_COHORT) := by
  simp [TpcVoter.isCommunicationAllowed, COORDINATOR]

/-- The counter stays at or above zero over calls whose additions fit. -/
theorem pending_nonneg_of_addsFit (es : List VoterEvent) :
    ∀ (v0 v : TpcVoter), 0 ≤ v0.numPendingRays → AddsFit v0 es = true →
      runVoter v0 es = some v → 0 ≤ v.numPendingRays := by
  induction es with
  | nil =>
    intro v0 v h0 _ hrun
    simp only [runVoter, Option.some.injEq] at hrun
    rw [← hrun]; exact h0
  | cons e rest ih =>
    intro v0 v h0 hfit hrun
    simp only [runVoter] at hrun
    cases he : e.apply v0 with
    | none => rw [he] at hrun; simp at hrun
    | some v1 =>
      rw [he] at hrun
      simp only [Option.some_bind] at hrun
      simp only [AddsFit, he, Bool.and_eq_true] at hfit
      refine ih v1 v ?_ hfit.2 hrun
      cases e with
      | tick d =>
        simp only [VoterEvent.apply, Option.some.injEq] at he
        rw [← he]
        by_cases hs : v0.state = State.TERMINATE
        · simp [TpcVoter.updateState, hs, TpcVoter.reset]
        · rw [updateState_pending v0 d hs]; exact h0
      | vote t =>
        simp only [VoterEvent.apply, Option.some.injEq] at he
        rw [← he, receiveVote_pending]; exact h0
      | add_pending n =>
        simp only [VoterEvent.apply, Option.some.injEq] at he
        have hn := hfit.1
        simp only [decide_eq_true_eq] at hn
        rw [← he]
        simp only [TpcVoter.addNumPendingRays, wrapInt]
        omega
      | sub_pending n =>
        simp only [VoterEvent.apply, TpcVoter.subtractNumPendingRays] at he
        split_ifs at he with hc
        simp only [Option.some.injEq] at he
        rw [← he]
        exact hc

/-- C12, as stated, fails: on a freshly constructed voter the call
`addNumPendingRays(-1)` returns and leaves `numPendingRays = -1`. -/
theorem C12_pending_nonnegative_counterexample :
    ¬ ∀ (mpi : MpiInfo) (es : List VoterEvent) (v : TpcVoter),
        (∀ e ∈ es, ∃ n, IsInt32 n ∧
          (e = VoterEvent.add_pending n ∨ e = VoterEvent.sub_pending n)) →
        runVoter (TpcVoter.new mpi) es = some v → 0 ≤ v.numPendingRays := by
  intro h
  have h1 := h mpi13 [VoterEvent.add_pending (-1)] negativePending13
    (by
      intro e he
      simp only [List.mem_singleton] at he
      exact ⟨-1, by decide, Or.inl he⟩)
    (by decide)
  revert h1
  decide

/-- C12, amended. Starting from a freshly constructed voter, over every
sequence of calls in which each `add_pending(n)` passes a count `n >= 0` that
the counter takes without leaving the range of an `int`, `numPendingRays >= 0`
holds after every call that returns (the sequence is any sequence of calls, so
the end of the sequence is any point of a run; `sub_pending` takes any `n`). -/
theorem C12_pending_nonnegative_amended (mpi : MpiInfo) (es : List VoterEvent) (v : TpcVoter)
    (hfit : AddsFit (TpcVoter.new mpi) es = true)
    (hrun : runVoter (TpcVoter.new mpi) es = some v) : 0 ≤ v.numPendingRays :=
  pending_nonneg_of_addsFit es (TpcVoter.new mpi) v (by simp [TpcVoter.new]) hfit hrun

theorem C12_pending_nonnegative_amended_witness :
    AddsFit (TpcVoter.new mpi13) pendingCalls13 = true ∧
    runVoter (TpcVoter.new mpi13) pendingCalls13 = some (TpcVoter.new mpi13) ∧
    0 ≤ (TpcVoter.new mpi13).numPendingRays :=
  ⟨by decide, by decide,
    C12_pending_nonnegative_amended mpi13 pendingCalls13 (TpcVoter.new mpi13) (by decide)
      (by decide)⟩

/-- C13, as stated, fails: `voteCommit()` called on the coordinator while it
is in `PREPARE_COORDINATOR`, not in `PROPOSE`, returns and counts the vote. -/
theorem C13_wrong_state_vote_counterexample :
    (TpcVoter.new mpi03).state = State.PREPARE_COORDINATOR ∧
    runVoter (TpcVoter.new mpi03) [VoterEvent.vote VoteType.VOTE_COMMIT] =
      some (TpcVoter.new mpi03).voteCommit ∧
    (TpcVoter.new mpi03).voteCommit.commitVoteCount = 1 ∧
    (TpcVoter.new mpi03).voteCommit.numVotesReceived = 1 ∧
    (TpcVoter.new mpi03).voteCommit ≠ TpcVoter.new mpi03 := by
  decide

/-- C13, amended. A vote entry point called in any state, the expected one or
not, returns without an assertion and leaves `state`, `mpi` and
`numPendingRays` as they are; it only records the event: `setProposeAvailable`
sets `proposeAvailable`, `commit` sets `commitAbortAvailable` and `doCommit`,
`abort` sets `commitAbortAvailable`, `voteCommit` adds one to `commitVoteCount`
and to `numVotesReceived`, `voteAbort` adds one to `numVotesReceived`, and the
last two set `allVotesAvailable` when `numVotesReceived` reaches `size - 1`. -/
theorem C13_vote_recorded_in_any_state (v : TpcVoter) :
    (∀ t, VoterEvent.apply v (VoterEvent.vote t) = some (receiveVote v t) ∧
      (receiveVote v t).state = v.state ∧ (receiveVote v t).mpi = v.mpi ∧
      (receiveVote v t).numPendingRays = v.numPendingRays) ∧
    v.setProposeAvailable = { v with proposeAvailable := true } ∧
    v.commit = { v with commitAbortAvailable := true, doCommit := true } ∧
    v.abort = { v with commitAbortAvailable := true } ∧
    v.voteCommit =
      { v with
        commitVoteCount := wrapInt (v.commitVoteCount + 1)
        numVotesReceived := wrapInt (v.numVotesReceived + 1)
        allVotesAvailable :=
          v.allVotesAvailable || decide (wrapInt (v.numVotesReceived + 1) = v.mpi.size - 1) } ∧
    v.voteAbort =
      { v with
        numVotesReceived := wrapInt (v.numVotesReceived + 1)
        allVotesAvailable :=
          v.allVotesAvailable || decide (wrapInt (v.numVotesReceived + 1) = v.mpi.size - 1) } := by
  refine ⟨?_, rfl, rfl, rfl, ?_, ?_⟩
  · intro t
    refine ⟨rfl, ?_, ?_, ?_⟩ <;>
      cases t <;>
        simp [receiveVote, TpcVoter.setProposeAvailable, TpcVoter.commit, TpcVoter.abort,
          TpcVoter.voteCommit, TpcVoter.voteAbort]
  · simp only [TpcVoter.voteCommit]
    by_cases h : wrapInt (v.numVotesReceived + 1) = v.mpi.size - 1 <;> simp [h]
  · simp only [TpcVoter.voteAbort]
    by_cases h : wrapInt (v.numVotesReceived + 1) = v.mpi.size - 1 <;> simp [h]

/-! ## The transfer plane -/

/-- C14. `SendRays` hands to the communicator exactly one `REQUEST` for each
non-empty queue whose owner is another rank, in key order, addressed to that
owner, with `sender` this rank, `instance` the key of the queue, `num_rays` its
length and its rays, in order, as payload; afterwards every queue owned by
another rank is empty and every queue owned by this rank is as it was. Nothing
is sent for an empty queue or for a queue of this rank. -/
theorem C14_send_rays (mpiInstanceMap : Int → Int) (rank : Int) (voter : TpcVoter)
    (queue : RayQueues Ray) :
    (SendRays mpiInstanceMap rank voter queue).sent =
      (queue.filter (fun q => decide (mpiInstanceMap q.1 ≠ rank ∧ 0 < q.2.length))).map
        (fun q => (mpiInstanceMap q.1,
          Work.remoteRays
            { header :=
                { transfer_type := TransferType.Request
                  sender := rank
                  inst := q.1
                  num_rays := q.2.length }
              rays := q.2 })) ∧
    (SendRays mpiInstanceMap rank voter queue).queue =
      queue.map (fun q => if mpiInstanceMap q.1 ≠ rank then (q.1, []) else q) := by
  induction queue generalizing voter with
  | nil => simp [SendRays]
  | cons q rest ih =>
    unfold SendRays
    simp only []
    split_ifs with hc
    · obtain ⟨h1, h2⟩ := ih (voter.addNumPendingRays (wrapInt q.2.length))
      refine ⟨?_, ?_⟩
      · rw [List.filter_cons_of_pos (by simpa using hc), List.map_cons, h1]
      · rw [List.map_cons, if_pos hc.1, h2]
    · obtain ⟨h1, h2⟩ := ih voter
      refine ⟨?_, ?_⟩
      · rw [List.filter_cons_of_neg (by simpa using hc)]
        exact h1
      · rw [List.map_cons, h2]
        by_cases ho : mpiInstanceMap q.1 ≠ rank
        · have hl : q.2 = [] := by
            have : ¬ 0 < q.2.length := fun h => hc ⟨ho, h⟩
            exact List.length_eq_zero.mp (by omega)
          rw [if_pos ho, ← hl]
        · rw [if_neg ho]

/-! ### Buckets under `CopyRays` -/

theorem rays_nil (i : Int) : RayQueues.rays ([] : RayQueues Ray) i = [] := rfl

theorem rays_cons (q : Int × List Ray) (rest : RayQueues Ray) (i : Int) :
    RayQueues.rays (q :: rest) i = if q.1 = i then q.2 else RayQueues.rays rest i := by
  unfold RayQueues.rays
  by_cases h : q.1 = i
  · rw [List.find?_cons_of_pos _ (by simpa using h), if_pos h]
  · rw [List.find?_cons_of_neg _ (by simpa using h), if_neg h]

theorem contains_cons (q : Int × List Ray) (rest : RayQueues Ray) (i : Int) :
    RayQueues.contains (q :: rest) i = (decide (q.1 = i) || RayQueues.contains rest i) := by
  simp only [RayQueues.contains, List.any_cons]
  congr 1

theorem rays_of_not_contains (queue : RayQueues Ray) (i : Int)
    (h : queue.contains i = false) : queue.rays i = [] := by
  induction queue with
  | nil => rfl
  | cons q rest ih =>
    rw [contains_cons, Bool.or_eq_false_iff, decide_eq_false_iff_not] at h
    rw [rays_cons, if_neg h.1]
    exact ih h.2

theorem rays_appendTo (queue : RayQueues Ray) (i j : Int) (rs : List Ray) :
    (queue.appendTo i rs).rays j =
      if j = i ∧ queue.contains i = true then queue.rays j ++ rs else queue.rays j := by
  induction queue with
  | nil => simp [RayQueues.appendTo, RayQueues.contains, rays_nil]
  | cons q rest ih =>
    have hcons : RayQueues.appendTo (q :: rest) i rs =
        (if q.1 = i then (q.1, q.2 ++ rs) else q) :: RayQueues.appendTo rest i rs := by
      simp [RayQueues.appendTo]
    rw [hcons, rays_cons, rays_cons, contains_cons, ih]
    by_cases hq : q.1 = i
    · by_cases hj : j = i
      · subst hj
        simp [hq]
      · have hqj : q.1 ≠ j := fun h => hj (h.symm.trans hq)
        have hij : ¬ i = j := fun h => hj h.symm
        simp [hq, hj, hij]
    · by_cases hj : j = i
      · subst hj
        simp [hq]
      · simp [hq, hj]

theorem contains_appendTo (queue : RayQueues Ray) (i j : Int) (rs : List Ray) :
    (queue.appendTo i rs).contains j = queue.contains j := by
  induction queue with
  | nil => rfl
  | cons q rest ih =>
    have hcons : RayQueues.appendTo (q :: rest) i rs =
        (if q.1 = i then (q.1, q.2 ++ rs) else q) :: RayQueues.appendTo rest i rs := by
      simp [RayQueues.appendTo]
    rw [hcons, contains_cons, contains_cons, ih]
    by_cases hq : q.1 = i <;> simp [hq]

theorem contains_insertEmpty (queue : RayQueues Ray) (i j : Int) :
    (queue.insertEmpty i).contains j = (decide (i = j) || queue.contains j) := by
  induction queue with
  | nil =>
    simp only [RayQueues.insertEmpty, contains_cons]
  | cons q rest ih =>
    unfold RayQueues.insertEmpty
    split_ifs with h
    · rw [contains_cons]
    · rw [contains_cons, ih, contains_cons]
      cases decide (q.1 = j) <;> cases decide (i = j) <;> simp

theorem rays_insertEmpty (queue : RayQueues Ray) (i j : Int)
    (h : queue.contains i = false) : (queue.insertEmpty i).rays j = queue.rays j := by
  induction queue with
  | nil =>
    simp only [RayQueues.insertEmpty, rays_cons, rays_nil]
    split_ifs <;> rfl
  | cons q rest ih =>
    rw [contains_cons, Bool.or_eq_false_iff, decide_eq_false_iff_not] at h
    unfold RayQueues.insertEmpty
    split_ifs with hlt
    · rw [rays_cons]
      split_ifs with hij
      · simp only [] at hij
        subst hij
        rw [rays_cons, if_neg h.1]
        exact (rays_of_not_contains rest _ h.2).symm
      · rfl
    · rw [rays_cons, rays_cons, ih h.2]

/-- Bucket `j` after `CopyRays`: the copied rays follow what bucket `inst`
held, every other bucket is as it was. -/
theorem rays_CopyRays (queue : RayQueues Ray) (rays : RemoteRays Ray) (j : Int) :
    (CopyRays queue rays).rays j =
      if j = rays.header.inst then
        queue.rays j ++ rays.rays.take rays.header.num_rays.toNat
      else queue.rays j := by
  unfold CopyRays
  simp only []
  split_ifs with hc hj hj
  · rw [rays_appendTo, if_pos ⟨hj, hc⟩]
  · rw [rays_appendTo, if_neg (fun h => hj h.1)]
  · have hc2 : queue.contains rays.header.inst = false := by simpa using hc
    rw [rays_appendTo, if_pos ⟨hj, by rw [contains_insertEmpty]; simp⟩, rays_insertEmpty _ _ _ hc2]
  · have hc2 : queue.contains rays.header.inst = false := by simpa using hc
    rw [rays_appendTo, if_neg (fun h => hj h.1), rays_insertEmpty _ _ _ hc2]

theorem contains_CopyRays (queue : RayQueues Ray) (rays : RemoteRays Ray) (j : Int) :
    (CopyRays queue rays).contains j = (decide (rays.header.inst = j) || queue.contains j) := by
  unfold CopyRays
  simp only []
  split_ifs with hc
  · rw [contains_appendTo]
    by_cases hj : rays.header.inst = j
    · subst hj; simp [hc]
    · simp [hj]
  · rw [contains_appendTo, contains_insertEmpty]

/-- C15. `CopyRays` of a request that carries instance id `j` and the rays `rs`
(`num_rays` of them) leaves bucket `j` equal to what it held before (nothing
when the map had no bucket `j`) followed by `rs` in order, and leaves every
other bucket as it was: same rays, and present exactly when it was present. -/
theorem C15_copy_rays_appends (queue : RayQueues Ray) (rays : RemoteRays Ray)
    (hnum : rays.header.num_rays = rays.rays.length) :
    (CopyRays queue rays).rays rays.header.inst = queue.rays rays.header.inst ++ rays.rays ∧
    (queue.contains rays.header.inst = false →
      (CopyRays queue rays).rays rays.header.inst = rays.rays) ∧
    (CopyRays queue rays).contains rays.header.inst = true ∧
    ∀ i, i ≠ rays.header.inst →
      (CopyRays queue rays).rays i = queue.rays i ∧
      (CopyRays queue rays).contains i = queue.contains i := by
  have htake : rays.rays.take rays.header.num_rays.toNat = rays.rays := by
    rw [hnum]
    simp
  refine ⟨?_, ?_, ?_, ?_⟩
  · rw [rays_CopyRays, if_pos rfl, htake]
  · intro hc
    rw [rays_CopyRays, if_pos rfl, htake, rays_of_not_contains queue _ hc, List.nil_append]
  · rw [contains_CopyRays]
    simp
  · intro i hi
    refine ⟨?_, ?_⟩
    · rw [rays_CopyRays, if_neg hi]
    · rw [contains_CopyRays]
      have : ¬ rays.header.inst = i := fun h => hi h.symm
      simp [this]

theorem C15_copy_rays_appends_witness :
    request03.header.num_rays = request03.rays.length ∧
    (CopyRays queues14 request03).rays 3 = [7, 8] ∧
    (CopyRays queues14 request03).rays 1 = [5] ∧
    CopyRays queues14 request03 = [(1, [5]), (3, [7, 8]), (4, [])] :=
  ⟨by decide,
    by
      have h := (C15_copy_rays_appends queues14 request03 (by decide)).1
      exact h.trans (by decide),
    by decide, by decide⟩

theorem RecvRays_queue (rank : Int) :
    ∀ (workQ : List (RemoteRays Ray)) (queue : RayQueues Ray),
      (RecvRays rank queue workQ).queue = workQ.foldl CopyRays queue := by
  intro workQ
  induction workQ with
  | nil => intro queue; rfl
  | cons x rest ih =>
    intro queue
    unfold RecvRays
    simp only [List.foldl_cons]
    exact ih _

/-- C16. `RecvRays` takes the buffered requests oldest first: it copies the rays
of each into the queues in that order and hands to the communicator exactly one
`GRANT` per buffered request, in the same order, addressed to the sender of the
request, with `sender` this rank and the instance id and ray count of the
request; it leaves the work queue empty. -/
theorem C16_one_grant_per_request (rank : Int) (queue : RayQueues Ray)
    (workQ : List (RemoteRays Ray)) :
    (RecvRays rank queue workQ).sent =
      workQ.map (fun request => (request.header.sender,
        Work.remoteRays
          { header :=
              { transfer_type := TransferType.Grant
                sender := rank
                inst := request.header.inst
                num_rays := request.header.num_rays }
            rays := [] })) ∧
    (RecvRays rank queue workQ).sent.length = workQ.length ∧
    (RecvRays rank queue workQ).queue = workQ.foldl CopyRays queue ∧
    (RecvRays rank queue workQ).workQ = [] := by
  refine ⟨RecvRays_sent_eq rank workQ queue, ?_, RecvRays_queue rank workQ queue,
    RecvRays_workQ rank workQ queue⟩
  rw [RecvRays_sent_eq, List.length_map]

/-! ## The pending-ray counter over sends and grants -/

theorem batchCounts_nil : batchCounts ([] : List (Int × Work Ray)) = [] := rfl

theorem SendRays_mpi_rank (owner : Int → Int) (rank : Int) (queue : RayQueues Ray)
    (v : TpcVoter) : (SendRays owner rank v queue).voter.mpi = v.mpi := by
  rw [SendRays_voter]

/-- The batches `SendRays` ships are non-empty, and the counter grows by the
sum of their ray counts when that sum fits. -/
theorem SendRays_counts (owner : Int → Int) (rank : Int) :
    ∀ (queue : RayQueues Ray) (v : TpcVoter),
      (∀ n ∈ batchCounts (SendRays owner rank v queue).sent, 0 < n) ∧
      (0 ≤ v.numPendingRays →
        v.numPendingRays + (batchCounts (SendRays owner rank v queue).sent).sum ≤ 2147483647 →
        (SendRays owner rank v queue).voter.numPendingRays =
          v.numPendingRays + (batchCounts (SendRays owner rank v queue).sent).sum) := by
  intro queue
  induction queue with
  | nil =>
    intro v
    simp [SendRays, batchCounts]
  | cons q rest ih =>
    intro v
    unfold SendRays
    simp only []
    split_ifs with hc
    · obtain ⟨ih1, ih2⟩ := ih (v.addNumPendingRays (wrapInt q.2.length))
      have hb : batchCounts
          ((owner q.1, Work.remoteRays
            { header :=
                { transfer_type := TransferType.Request
                  sender := rank
                  inst := q.1
                  num_rays := (q.2.length : Int) }
              rays := q.2 }) ::
            (SendRays owner rank (v.addNumPendingRays (wrapInt q.2.length)) rest).sent) =
          (q.2.length : Int) ::
            batchCounts (SendRays owner rank (v.addNumPendingRays (wrapInt q.2.length)) rest).sent := by
        simp [batchCounts]
      rw [hb]
      have hpos : (0 : Int) < q.2.length := by exact_mod_cast hc.2
      have hnn : 0 ≤ (batchCounts
          (SendRays owner rank (v.addNumPendingRays (wrapInt q.2.length)) rest).sent).sum :=
        List.sum_nonneg (fun n hn => le_of_lt (ih1 n hn))
      refine ⟨?_, ?_⟩
      · intro n hn
        simp only [List.mem_cons] at hn
        rcases hn with rfl | hn
        · exact hpos
        · exact ih1 n hn
      · intro h0 hfit
        rw [List.sum_cons] at hfit ⊢
        have hadd : (v.addNumPendingRays (wrapInt q.2.length)).numPendingRays =
            v.numPendingRays + q.2.length := by
          simp only [TpcVoter.addNumPendingRays, wrapInt]
          omega
        rw [ih2 (by rw [hadd]; omega) (by rw [hadd]; omega), hadd]
        omega
    · exact ih v

theorem accounted_take (owner : Int → Int) (es : List (PendingCall Ray)) :
    ∀ (p : Pending) (k : Nat), Accounted owner p es = true →
      Accounted owner p (es.take k) = true := by
  induction es with
  | nil => intro p k h; simpa using h
  | cons e rest ih =>
    intro p k h
    cases k with
    | zero => rfl
    | succ k =>
      simp only [List.take_succ_cons, Accounted, Bool.and_eq_true] at h ⊢
      refine ⟨h.1, ?_⟩
      cases he : e.apply owner p with
      | none => rfl
      | some p1 =>
        rw [he] at h
        exact ih p1 k h.2

/-- The counter equals the sum of the unacknowledged ray counts along every
accounted sequence of calls, and no assertion fails. -/
theorem pending_eq_unacknowledged (owner : Int → Int) (es : List (PendingCall Ray)) :
    ∀ (p : Pending), p.voter.numPendingRays = p.unacknowledged.sum →
      (∀ n ∈ p.unacknowledged, 0 < n) → p.unacknowledged.sum ≤ 2147483647 →
      Accounted owner p es = true →
      ∃ p1, runPending owner p es = some p1 ∧
        p1.voter.numPendingRays = p1.unacknowledged.sum ∧
        ∀ n ∈ p1.unacknowledged, 0 < n := by
  induction es with
  | nil =>
    intro p h1 h2 _ _
    exact ⟨p, rfl, h1, h2⟩
  | cons e rest ih =>
    intro p h1 h2 h3 hok
    simp only [Accounted, Bool.and_eq_true] at hok
    have hnn : 0 ≤ p.unacknowledged.sum := List.sum_nonneg (fun n hn => le_of_lt (h2 n hn))
    cases e with
    | send queue =>
      obtain ⟨hfit, hrest⟩ := hok
      simp only [decide_eq_true_eq] at hfit
      simp only [PendingCall.apply] at hrest
      obtain ⟨c1, c2⟩ := SendRays_counts owner p.voter.mpi.rank queue p.voter
      have hp := c2 (by rw [h1]; exact hnn) (by rw [h1]; exact hfit)
      simp only [runPending, PendingCall.apply, Option.some_bind]
      refine ih _ ?_ ?_ ?_ hrest
      · simp only [List.sum_append]
        rw [hp, h1]
      · intro n hn
        simp only [List.mem_append] at hn
        rcases hn with hn | hn
        · exact h2 n hn
        · exact c1 n hn
      · simp only [List.sum_append]
        exact hfit
    | grant num_rays =>
      obtain ⟨hmem, hrest⟩ := hok
      simp only [decide_eq_true_eq] at hmem
      have hsum : num_rays + (p.unacknowledged.erase num_rays).sum = p.unacknowledged.sum :=
        List.sum_erase hmem
      have hnn2 : 0 ≤ (p.unacknowledged.erase num_rays).sum :=
        List.sum_nonneg (fun n hn => le_of_lt (h2 n (List.mem_of_mem_erase hn)))
      have hpos := h2 num_rays hmem
      have hw : wrapInt (p.voter.numPendingRays - num_rays) =
          (p.unacknowledged.erase num_rays).sum := by
        rw [h1]
        unfold wrapInt
        omega
      have hsub : p.voter.subtractNumPendingRays num_rays =
          some { p.voter with numPendingRays := (p.unacknowledged.erase num_rays).sum } := by
        simp only [TpcVoter.subtractNumPendingRays, hw]
        rw [if_pos hnn2]
      simp only [PendingCall.apply, hsub, Option.map_some'] at hrest
      simp only [runPending, PendingCall.apply, hsub, Option.map_some', Option.some_bind]
      refine ih _ rfl ?_ ?_ hrest
      · intro n hn
        exact h2 n (List.mem_of_mem_erase hn)
      · simp only []
        omega

/-- C17. GRANT closure. Starting from a freshly constructed voter
(`numPendingRays = 0`), along every sequence of `SendRays` calls and `GRANT`
arrivals in which each grant is for a batch shipped and not yet granted, with
the ray count of that batch, and the outstanding ray counts stay in the range
of an `int`: at every point of the sequence no assertion has failed and
`numPendingRays` is the sum of the ray counts of the batches not yet granted;
it is 0 when every batch has been granted and greater than 0 while a batch is
unacknowledged (every shipped batch is non-empty). -/
theorem C17_grant_closure (mpiInstanceMap : Int → Int) (mpi : MpiInfo)
    (es : List (PendingCall Ray)) (k : Nat)
    (hok : Accounted mpiInstanceMap { voter := TpcVoter.new mpi, unacknowledged := [] } es =
      true) :
    ∃ p, runPending mpiInstanceMap { voter := TpcVoter.new mpi, unacknowledged := [] }
          (es.take k) = some p ∧
      p.voter.numPendingRays = p.unacknowledged.sum ∧
      (∀ n ∈ p.unacknowledged, 0 < n) ∧
      (p.unacknowledged = [] → p.voter.numPendingRays = 0) ∧
      (p.unacknowledged ≠ [] → 0 < p.voter.numPendingRays) := by
  obtain ⟨p, h1, h2, h3⟩ := pending_eq_unacknowledged mpiInstanceMap (es.take k)
    { voter := TpcVoter.new mpi, unacknowledged := [] } (by simp [TpcVoter.new])
    (by simp) (by simp) (accounted_take mpiInstanceMap es _ k hok)
  refine ⟨p, h1, h2, h3, ?_, ?_⟩
  · intro he
    rw [h2, he]
    rfl
  · intro hne
    rw [h2]
    cases hl : p.unacknowledged with
    | nil => exact absurd hl hne
    | cons n rest =>
      rw [hl] at h3
      rw [List.sum_cons]
      have h4 := h3 n (List.mem_cons_self _ _)
      have h5 : 0 ≤ rest.sum :=
        List.sum_nonneg (fun m hm => le_of_lt (h3 m (List.mem_cons_of_mem _ hm)))
      omega

theorem C17_grant_closure_witness :
    Accounted twoRankOwner { voter := TpcVoter.new mpi02, unacknowledged := [] }
      sendAndGrants = true ∧
    (runPending twoRankOwner { voter := TpcVoter.new mpi02, unacknowledged := [] }
      (sendAndGrants.take 1)).map (fun p => (p.voter.numPendingRays, p.unacknowledged)) =
        some (3, [2, 1]) ∧
    (runPending twoRankOwner { voter := TpcVoter.new mpi02, unacknowledged := [] }
      (sendAndGrants.take 2)).map (fun p => (p.voter.numPendingRays, p.unacknowledged)) =
        some (2, [2]) ∧
    ∃ p, runPending twoRankOwner { voter := TpcVoter.new mpi02, unacknowledged := [] }
          (sendAndGrants.take 3) = some p ∧
      p.voter.numPendingRays = p.unacknowledged.sum ∧
      (∀ n ∈ p.unacknowledged, 0 < n) ∧
      (p.unacknowledged = [] → p.voter.numPendingRays = 0) ∧
      (p.unacknowledged ≠ [] → 0 < p.voter.numPendingRays) :=
  ⟨by decide, by decide, by decide,
    C17_grant_closure twoRankOwner mpi02 sendAndGrants 3 (by decide)⟩

/-! ## The owner map -/

theorem dataIdx_eq {UUID : Type} [DecidableEq UUID] (meshNode : UUID) (dataNodes : List UUID) :
    ∀ d : Int, DomainTracer.dataIdx meshNode dataNodes d =
      if meshNode ∈ dataNodes then d + (dataNodes.indexOf meshNode : Int)
      else 18446744073709551615 := by
  induction dataNodes with
  | nil => intro d; simp [DomainTracer.dataIdx]
  | cons node rest ih =>
    intro d
    unfold DomainTracer.dataIdx
    by_cases h : node = meshNode
    · subst h
      simp
    · have h2 : ¬ meshNode = node := fun e => h e.symm
      rw [if_neg h, ih, List.indexOf_cons_ne _ h]
      simp only [List.mem_cons, h2, false_or]
      split_ifs
      · push_cast
        omega
      · rfl

theorem mpiInstanceMapFrom_spec {UUID : Type} [DecidableEq UUID] (mpiInfo : MpiInfo)
    (dataNodes : List UUID) (hlen : (dataNodes.length : Int) < 18446744073709551615)
    (hsize : 1 ≤ mpiInfo.size ∧ mpiInfo.size ≤ 2147483647) (instancenodes : List UUID) :
    ∀ i0 : Int,
      ((∀ mesh ∈ instancenodes, mesh ∈ dataNodes) →
        ∃ m, DomainTracer.mpiInstanceMapFrom mpiInfo dataNodes instancenodes i0 = some m) ∧
      ∀ m, DomainTracer.mpiInstanceMapFrom mpiInfo dataNodes instancenodes i0 = some m →
        m.length = instancenodes.length ∧
        ∀ (k : Nat) (hk : k < instancenodes.length),
          instancenodes[k] ∈ dataNodes ∧
          m.lookup (i0 + (k : Int)) =
            some ((dataNodes.indexOf instancenodes[k] : Int) % mpiInfo.size) := by
  induction instancenodes with
  | nil =>
    intro i0
    refine ⟨fun _ => ⟨[], rfl⟩, ?_⟩
    intro m hm
    simp only [DomainTracer.mpiInstanceMapFrom, Option.some.injEq] at hm
    subst hm
    exact ⟨rfl, fun k hk => absurd hk (by simp)⟩
  | cons meshNode rest ih =>
    intro i0
    have hsz : toSizeT mpiInfo.size = mpiInfo.size := by
      unfold toSizeT
      omega
    have hidx : meshNode ∈ dataNodes →
        DomainTracer.dataIdx meshNode dataNodes 0 = (dataNodes.indexOf meshNode : Int) ∧
        DomainTracer.dataIdx meshNode dataNodes 0 ≠ 18446744073709551615 := by
      intro hmem
      have hlt : dataNodes.indexOf meshNode < dataNodes.length := List.indexOf_lt_length.mpr hmem
      rw [dataIdx_eq, if_pos hmem]
      refine ⟨by omega, by omega⟩
    refine ⟨?_, ?_⟩
    · intro hall
      obtain ⟨m1, hm1⟩ := (ih (i0 + 1)).1 (fun mesh hmesh => hall mesh (List.mem_cons_of_mem _ hmesh))
      obtain ⟨_, h2⟩ := hidx (hall meshNode (List.mem_cons_self _ _))
      unfold DomainTracer.mpiInstanceMapFrom
      simp only []
      rw [if_pos h2, hm1]
      exact ⟨_, rfl⟩
    · intro m hm
      unfold DomainTracer.mpiInstanceMapFrom at hm
      simp only [] at hm
      split_ifs at hm with hne
      have hmem : meshNode ∈ dataNodes := by
        by_contra hnot
        rw [dataIdx_eq, if_neg hnot] at hne
        exact hne rfl
      obtain ⟨h1, _⟩ := hidx hmem
      cases hrest : DomainTracer.mpiInstanceMapFrom mpiInfo dataNodes rest (i0 + 1) with
      | none => rw [hrest] at hm; simp at hm
      | some m1 =>
        rw [hrest] at hm
        simp only [Option.map_some', Option.some.injEq] at hm
        subst hm
        obtain ⟨hl, hk1⟩ := (ih (i0 + 1)).2 m1 hrest
        refine ⟨by simp [hl], ?_⟩
        intro k hk
        cases k with
        | zero =>
          refine ⟨hmem, ?_⟩
          simp [List.lookup, h1, hsz]
        | succ k =>
          have hk2 : k < rest.length := by simpa using hk
          obtain ⟨a1, a2⟩ := hk1 k hk2
          refine ⟨by simpa using a1, ?_⟩
          have hne2 : (i0 + ((k + 1 : Nat) : Int) == i0) = false := by
            simp only [beq_eq_false_iff_ne, ne_eq]
            push_cast
            omega
          rw [List.lookup, hne2]
          simp only [List.getElem_cons_succ]
          rw [← a2]
          congr 1
          push_cast
          omega

theorem mpiInstanceMapFrom_rank {UUID : Type} [DecidableEq UUID] (mpiInfo : MpiInfo)
    (rank : Int) (dataNodes instancenodes : List UUID) :
    ∀ i0 : Int,
      DomainTracer.mpiInstanceMapFrom { rank := rank, size := mpiInfo.size } dataNodes
          instancenodes i0 =
        DomainTracer.mpiInstanceMapFrom mpiInfo dataNodes instancenodes i0 := by
  induction instancenodes with
  | nil => intro i0; rfl
  | cons meshNode rest ih =>
    intro i0
    unfold DomainTracer.mpiInstanceMapFrom
    simp only []
    rw [ih]

/-- C18. Deterministic ownership. For a world of `size >= 1` ranks, the
constructor, when it returns, has set for every instance index `i`
`mpiInstanceMap[i] = d mod size`, with `d` the index of the first data node that
has the UUID of the mesh of instance `i`; it returns when every instance refers
to the mesh of some data node, and what it computes is the same on every rank:
it depends on the data nodes, the instance nodes and `size` only. -/
theorem C18_deterministic_ownership {UUID : Type} [DecidableEq UUID] (mpiInfo : MpiInfo)
    (dataNodes instancenodes : List UUID)
    (hsize : 1 ≤ mpiInfo.size ∧ mpiInfo.size ≤ 2147483647)
    (hlen : (dataNodes.length : Int) < 18446744073709551615) :
    (∀ rank : Int,
      DomainTracer.mpiInstanceMap { rank := rank, size := mpiInfo.size } dataNodes instancenodes =
        DomainTracer.mpiInstanceMap mpiInfo dataNodes instancenodes) ∧
    ((∀ mesh ∈ instancenodes, mesh ∈ dataNodes) →
      ∃ m, DomainTracer.mpiInstanceMap mpiInfo dataNodes instancenodes = some m) ∧
    (∀ m, DomainTracer.mpiInstanceMap mpiInfo dataNodes instancenodes = some m →
      m.length = instancenodes.length ∧
      ∀ (i : Nat) (hi : i < instancenodes.length),
        instancenodes[i] ∈ dataNodes ∧
        m.lookup (i : Int) =
          some ((dataNodes.indexOf instancenodes[i] : Int) % mpiInfo.size)) := by
  obtain ⟨h1, h2⟩ := mpiInstanceMapFrom_spec mpiInfo dataNodes hlen hsize instancenodes 0
  refine ⟨?_, h1, ?_⟩
  · intro rank
    exact mpiInstanceMapFrom_rank mpiInfo rank dataNodes instancenodes 0
  · intro m hm
    obtain ⟨a, b⟩ := h2 m hm
    refine ⟨a, fun i hi => ?_⟩
    have := b i hi
    simpa using this

theorem C18_deterministic_ownership_witness :
    DomainTracer.mpiInstanceMap mpi02 dataNodes3 instancenodes5 =
      some [(0, 0), (1, 0), (2, 1), (3, 0), (4, 0)] ∧
    DomainTracer.mpiInstanceMap { rank := 1, size := 2 } dataNodes3 instancenodes5 =
      DomainTracer.mpiInstanceMap mpi02 dataNodes3 instancenodes5 :=
  ⟨by decide,
    (C18_deterministic_ownership mpi02 dataNodes3 instancenodes5 (by decide)
      (by decide)).1 1⟩

/-! ## Selection of the next instance -/

theorem select_spec (owner : Int → Int) (rank : Int) (queue : RayQueues Ray)
    (hsorted : (queue.map Prod.fst).Pairwise (fun a b => a < b)) :
    ∀ (t0 : Int) (c0 : Nat),
      c0 ≤ (Trace.select owner rank queue (t0, c0)).2 ∧
      (∀ q ∈ queue, owner q.1 = rank →
        q.2.length ≤ (Trace.select owner rank queue (t0, c0)).2) ∧
      (Trace.select owner rank queue (t0, c0) = (t0, c0) ∨
        (c0 < (Trace.select owner rank queue (t0, c0)).2 ∧
          ∃ rays, ((Trace.select owner rank queue (t0, c0)).1, rays) ∈ queue ∧
            owner (Trace.select owner rank queue (t0, c0)).1 = rank ∧
            rays.length = (Trace.select owner rank queue (t0, c0)).2 ∧
            ∀ q ∈ queue, owner q.1 = rank →
              q.2.length = (Trace.select owner rank queue (t0, c0)).2 →
              (Trace.select owner rank queue (t0, c0)).1 ≤ q.1)) := by
  induction queue with
  | nil =>
    intro t0 c0
    exact ⟨le_refl _, fun q hq => absurd hq (List.not_mem_nil _), Or.inl rfl⟩
  | cons q rest ih =>
    intro t0 c0
    rw [List.map_cons, List.pairwise_cons] at hsorted
    obtain ⟨hlt, hrest⟩ := hsorted
    have hkey : ∀ q2 ∈ rest, q.1 < q2.1 := fun q2 hq2 =>
      hlt q2.1 (List.mem_map_of_mem Prod.fst hq2)
    unfold Trace.select
    simp only [decide_eq_true_eq]
    split_ifs with hc
    · obtain ⟨a1, a2, a3⟩ := ih hrest q.1 q.2.length
      generalize Trace.select owner rank rest (q.1, q.2.length) = res at a1 a2 a3
      refine ⟨by omega, ?_, Or.inr ?_⟩
      · intro q2 hq2 ho
        simp only [List.mem_cons] at hq2
        rcases hq2 with rfl | hq2
        · exact a1
        · exact a2 q2 hq2 ho
      · rcases a3 with a3 | ⟨b1, rays, b2, b3, b4, b5⟩
        · subst a3
          refine ⟨hc.2, q.2, ?_, hc.1, rfl, ?_⟩
          · exact List.mem_cons_self _ _
          · intro q2 hq2 _ _
            simp only [List.mem_cons] at hq2
            rcases hq2 with rfl | hq2
            · exact le_refl _
            · exact le_of_lt (hkey q2 hq2)
        · refine ⟨by omega, rays, List.mem_cons_of_mem _ b2, b3, b4, ?_⟩
          intro q2 hq2 ho hl
          simp only [List.mem_cons] at hq2
          rcases hq2 with rfl | hq2
          · omega
          · exact b5 q2 hq2 ho hl
    · obtain ⟨a1, a2, a3⟩ := ih hrest t0 c0
      generalize Trace.select owner rank rest (t0, c0) = res at a1 a2 a3
      have hq : owner q.1 = rank → q.2.length ≤ c0 := by
        intro ho
        by_contra hgt
        exact hc ⟨ho, by omega⟩
      refine ⟨a1, ?_, ?_⟩
      · intro q2 hq2 ho
        simp only [List.mem_cons] at hq2
        rcases hq2 with rfl | hq2
        · exact le_trans (hq ho) a1
        · exact a2 q2 hq2 ho
      · rcases a3 with a3 | ⟨b1, rays, b2, b3, b4, b5⟩
        · exact Or.inl a3
        · refine Or.inr ⟨b1, rays, List.mem_cons_of_mem _ b2, b3, b4, ?_⟩
          intro q2 hq2 ho hl
          simp only [List.mem_cons] at hq2
          rcases hq2 with rfl | hq2
          · have := hq ho
            omega
          · exact b5 q2 hq2 ho hl

/-- C19. Selection. For queues in key order with instance ids `>= 0`: when
some queue of this rank is non-empty, the scan returns the id `i` of a
non-empty queue of this rank that is at least as long as every queue of this
rank, the lowest id among those of that length, and the loop iteration traces
it; the scan returns `-1` exactly when no queue of this rank is non-empty, and
exactly then the trace step is skipped. -/
theorem C19_selection (mpiInstanceMap : Int → Int) (rank : Int) (queue : RayQueues Ray)
    (hsorted : (queue.map Prod.fst).Pairwise (fun a b => a < b))
    (hkeys : ∀ q ∈ queue, 0 ≤ q.1) :
    ((∃ q ∈ queue, mpiInstanceMap q.1 = rank ∧ q.2 ≠ []) →
      ∃ rays, (Trace.instTarget mpiInstanceMap rank queue, rays) ∈ queue ∧
        mpiInstanceMap (Trace.instTarget mpiInstanceMap rank queue) = rank ∧
        rays ≠ [] ∧
        (∀ q ∈ queue, mpiInstanceMap q.1 = rank →
          q.2.length ≤ rays.length ∧
          (q.2.length = rays.length → Trace.instTarget mpiInstanceMap rank queue ≤ q.1)) ∧
        Trace.traces mpiInstanceMap rank queue = true) ∧
    (Trace.instTarget mpiInstanceMap rank queue = -1 ↔
      ¬ ∃ q ∈ queue, mpiInstanceMap q.1 = rank ∧ q.2 ≠ []) ∧
    (Trace.traces mpiInstanceMap rank queue = false ↔
      Trace.instTarget mpiInstanceMap rank queue = -1) := by
  obtain ⟨a1, a2, a3⟩ := select_spec mpiInstanceMap rank queue hsorted (-1) 0
  unfold Trace.traces Trace.instTarget
  generalize Trace.select mpiInstanceMap rank queue (-1, 0) = res at a1 a2 a3
  have hsome : (∃ q ∈ queue, mpiInstanceMap q.1 = rank ∧ q.2 ≠ []) → 0 < res.2 := by
    rintro ⟨q, hq, ho, hne⟩
    have h1 := a2 q hq ho
    have h2 : 0 < q.2.length := List.length_pos.mpr hne
    omega
  have hfound : 0 < res.2 →
      ∃ rays, (res.1, rays) ∈ queue ∧ mpiInstanceMap res.1 = rank ∧ rays.length = res.2 ∧
        ∀ q ∈ queue, mpiInstanceMap q.1 = rank → q.2.length = res.2 → res.1 ≤ q.1 := by
    intro hpos
    rcases a3 with a3 | ⟨_, h⟩
    · rw [a3] at hpos
      exact absurd hpos (by decide)
    · exact h
  have hnone : res.2 = 0 → res.1 = -1 := by
    intro hz
    rcases a3 with a3 | ⟨h, _⟩
    · rw [a3]
    · omega
  refine ⟨?_, ?_, ?_⟩
  · intro hex
    have hpos := hsome hex
    obtain ⟨rays, b1, b2, b3, b4⟩ := hfound hpos
    refine ⟨rays, b1, b2, ?_, ?_, ?_⟩
    · exact List.length_pos.mp (by omega)
    · intro q hq ho
      exact ⟨by rw [b3]; exact a2 q hq ho, fun hl => b4 q hq ho (by rw [hl, b3])⟩
    · simp only [decide_eq_true_eq]
      exact hkeys _ b1
  · constructor
    · intro ht hex
      obtain ⟨rays, b1, _⟩ := hfound (hsome hex)
      have := hkeys _ b1
      simp only [] at this
      omega
    · intro hno
      apply hnone
      by_contra hne
      obtain ⟨rays, b1, b2, b3, _⟩ := hfound (by omega)
      exact hno ⟨_, b1, b2, List.length_pos.mp (by simp only []; omega)⟩
  · simp only [decide_eq_false_iff_not]
    constructor
    · intro hneg
      apply hnone
      by_contra hne
      obtain ⟨rays, b1, _⟩ := hfound (by omega)
      exact hneg (hkeys _ b1)
    · intro ht
      rw [ht]
      decide

theorem C19_selection_witness :
    ((queues234.map Prod.fst).Pairwise (fun a b => a < b)) ∧
    (∀ q ∈ queues234, 0 ≤ q.1) ∧
    Trace.instTarget twoRankOwner 0 queues234 = 2 ∧
    (Trace.instTarget twoRankOwner 0 queues234 = -1 ↔
      ¬ ∃ q ∈ queues234, twoRankOwner q.1 = 0 ∧ q.2 ≠ []) :=
  ⟨by decide, by decide, by decide,
    (C19_selection twoRankOwner 0 queues234 (by decide) (by decide)).2.1⟩

/-! ## The local filter -/

theorem rays_insertAtEnd (queue : RayQueues Ray) (i j : Int) (rs : List Ray) :
    (queue.insertAtEnd i rs).rays j = if j = i then queue.rays j ++ rs else queue.rays j := by
  unfold RayQueues.insertAtEnd
  split_ifs with hc hj hj
  · rw [rays_appendTo, if_pos ⟨hj, hc⟩]
  · rw [rays_appendTo, if_neg (fun h => hj h.1)]
  · have hc2 : queue.contains i = false := by simpa using hc
    rw [rays_appendTo, if_pos ⟨hj, by rw [contains_insertEmpty]; simp⟩, rays_insertEmpty _ _ _ hc2]
  · have hc2 : queue.contains i = false := by simpa using hc
    rw [rays_appendTo, if_neg (fun h => hj h.1), rays_insertEmpty _ _ _ hc2]

theorem contains_insertAtEnd (queue : RayQueues Ray) (i j : Int) (rs : List Ray) :
    (queue.insertAtEnd i rs).contains j = (decide (i = j) || queue.contains j) := by
  unfold RayQueues.insertAtEnd
  split_ifs with hc
  · rw [contains_appendTo]
    by_cases hj : i = j
    · subst hj; simp [hc]
    · simp [hj]
  · rw [contains_appendTo, contains_insertEmpty]

theorem keys_appendTo (queue : RayQueues Ray) (i : Int) (rs : List Ray) :
    (queue.appendTo i rs).map Prod.fst = queue.map Prod.fst := by
  induction queue with
  | nil => rfl
  | cons q rest ih =>
    have hcons : RayQueues.appendTo (q :: rest) i rs =
        (if q.1 = i then (q.1, q.2 ++ rs) else q) :: RayQueues.appendTo rest i rs := by
      simp [RayQueues.appendTo]
    rw [hcons, List.map_cons, List.map_cons, ih]
    split_ifs <;> rfl

theorem mem_keys_iff_contains (queue : RayQueues Ray) (i : Int) :
    i ∈ queue.map Prod.fst ↔ queue.contains i = true := by
  simp [RayQueues.contains]

theorem mem_keys_insertEmpty (queue : RayQueues Ray) (i k : Int) :
    k ∈ (queue.insertEmpty i).map Prod.fst ↔ k = i ∨ k ∈ queue.map Prod.fst := by
  rw [mem_keys_iff_contains, contains_insertEmpty, mem_keys_iff_contains]
  simp only [Bool.or_eq_true, decide_eq_true_eq]
  constructor
  · rintro (h | h)
    · exact Or.inl h.symm
    · exact Or.inr h
  · rintro (h | h)
    · exact Or.inl h.symm
    · exact Or.inr h

theorem sorted_insertEmpty (queue : RayQueues Ray) (i : Int)
    (hsorted : (queue.map Prod.fst).Pairwise (fun a b => a < b))
    (hc : queue.contains i = false) :
    ((queue.insertEmpty i).map Prod.fst).Pairwise (fun a b => a < b) := by
  induction queue with
  | nil => simp [RayQueues.insertEmpty]
  | cons q rest ih =>
    rw [contains_cons, Bool.or_eq_false_iff, decide_eq_false_iff_not] at hc
    rw [List.map_cons, List.pairwise_cons] at hsorted
    unfold RayQueues.insertEmpty
    split_ifs with hlt
    · rw [List.map_cons, List.map_cons, List.pairwise_cons, List.pairwise_cons]
      refine ⟨?_, hsorted⟩
      intro k hk
      simp only [List.mem_cons] at hk
      rcases hk with rfl | hk
      · exact hlt
      · exact lt_trans hlt (hsorted.1 k hk)
    · rw [List.map_cons, List.pairwise_cons]
      refine ⟨?_, ih hsorted.2 hc.2⟩
      intro k hk
      rw [mem_keys_insertEmpty] at hk
      rcases hk with rfl | hk
      · have := hc.1
        omega
      · exact hsorted.1 k hk

theorem sorted_insertAtEnd (queue : RayQueues Ray) (i : Int) (rs : List Ray)
    (hsorted : (queue.map Prod.fst).Pairwise (fun a b => a < b)) :
    ((queue.insertAtEnd i rs).map Prod.fst).Pairwise (fun a b => a < b) := by
  unfold RayQueues.insertAtEnd
  split_ifs with hc
  · rw [keys_appendTo]
    exact hsorted
  · rw [keys_appendTo]
    exact sorted_insertEmpty queue i hsorted (by simpa using hc)

theorem total_nil : RayQueues.total ([] : RayQueues Ray) = 0 := rfl

theorem total_cons (q : Int × List Ray) (rest : RayQueues Ray) :
    RayQueues.total (q :: rest) = q.2.length + RayQueues.total rest := by
  simp [RayQueues.total]

theorem total_appendTo (queue : RayQueues Ray) (i : Int) (rs : List Ray)
    (hsorted : (queue.map Prod.fst).Pairwise (fun a b => a < b)) :
    (queue.appendTo i rs).total =
      queue.total + (if queue.contains i = true then rs.length else 0) := by
  induction queue with
  | nil => rfl
  | cons q rest ih =>
    rw [List.map_cons, List.pairwise_cons] at hsorted
    have hcons : RayQueues.appendTo (q :: rest) i rs =
        (if q.1 = i then (q.1, q.2 ++ rs) else q) :: RayQueues.appendTo rest i rs := by
      simp [RayQueues.appendTo]
    rw [hcons, total_cons, total_cons, ih hsorted.2, contains_cons]
    by_cases hq : q.1 = i
    · have hrest : RayQueues.contains rest i = false := by
        cases hc : RayQueues.contains rest i with
        | false => rfl
        | true =>
          have := hsorted.1 i ((mem_keys_iff_contains rest i).mpr hc)
          omega
      simp [hq, hrest]
      omega
    · simp [hq]
      omega

theorem total_insertEmpty (queue : RayQueues Ray) (i : Int) :
    (queue.insertEmpty i).total = queue.total := by
  induction queue with
  | nil => rfl
  | cons q rest ih =>
    unfold RayQueues.insertEmpty
    split_ifs
    · rw [total_cons]
      simp
    · rw [total_cons, total_cons, ih]

theorem total_insertAtEnd (queue : RayQueues Ray) (i : Int) (rs : List Ray)
    (hsorted : (queue.map Prod.fst).Pairwise (fun a b => a < b)) :
    (queue.insertAtEnd i rs).total = queue.total + rs.length := by
  unfold RayQueues.insertAtEnd
  split_ifs with hc
  · rw [total_appendTo _ _ _ hsorted, if_pos hc]
  · rw [total_appendTo _ _ _ (sorted_insertEmpty queue i hsorted (by simpa using hc)),
      total_insertEmpty, if_pos (by rw [contains_insertEmpty]; simp)]

/-- The queues after a sequence of locked insertions. -/
theorem foldl_insertAtEnd (ins : List (Int × List Ray)) :
    ∀ (queue : RayQueues Ray), (queue.map Prod.fst).Pairwise (fun a b => a < b) →
      ((ins.foldl (fun q x => q.insertAtEnd x.1 x.2) queue).map Prod.fst).Pairwise
          (fun a b => a < b) ∧
      (∀ j, (ins.foldl (fun q x => q.insertAtEnd x.1 x.2) queue).rays j =
        queue.rays j ++ (ins.filter (fun x => decide (x.1 = j))).flatMap (fun x => x.2)) ∧
      (∀ j, (ins.foldl (fun q x => q.insertAtEnd x.1 x.2) queue).contains j =
        (queue.contains j || ins.any (fun x => decide (x.1 = j)))) ∧
      (ins.foldl (fun q x => q.insertAtEnd x.1 x.2) queue).total =
        queue.total + (ins.map (fun x => x.2.length)).sum := by
  induction ins with
  | nil =>
    intro queue hs
    simp [hs]
  | cons x rest ih =>
    intro queue hs
    obtain ⟨a1, a2, a3, a4⟩ := ih (queue.insertAtEnd x.1 x.2) (sorted_insertAtEnd _ _ _ hs)
    simp only [List.foldl_cons]
    refine ⟨a1, ?_, ?_, ?_⟩
    · intro j
      rw [a2, rays_insertAtEnd]
      by_cases hj : x.1 = j
      · rw [if_pos hj.symm, List.filter_cons_of_pos (by simpa using hj), List.flatMap_cons,
          List.append_assoc]
      · rw [if_neg (fun h => hj h.symm), List.filter_cons_of_neg (by simpa using hj)]
    · intro j
      rw [a3, contains_insertAtEnd, List.any_cons]
      cases decide (x.1 = j) <;> cases RayQueues.contains queue j <;> simp
    · rw [a4, total_insertAtEnd _ _ _ hs, List.map_cons, List.sum_cons]
      omega

/-- In a map, the insertions of the buckets with key `j` are the one bucket
`j`. -/
theorem flatMap_filter_key (queue : RayQueues Ray) (j : Int)
    (hsorted : (queue.map Prod.fst).Pairwise (fun a b => a < b)) :
    (queue.filter (fun x => decide (x.1 = j))).flatMap (fun x => x.2) = queue.rays j := by
  induction queue with
  | nil => rfl
  | cons q rest ih =>
    rw [List.map_cons, List.pairwise_cons] at hsorted
    rw [rays_cons]
    by_cases hq : q.1 = j
    · rw [List.filter_cons_of_pos (by simpa using hq), List.flatMap_cons, if_pos hq,
        ih hsorted.2]
      have hrest : RayQueues.contains rest j = false := by
        cases hc : RayQueues.contains rest j with
        | false => rfl
        | true =>
          have := hsorted.1 j ((mem_keys_iff_contains rest j).mpr hc)
          omega
      rw [rays_of_not_contains rest j hrest, List.append_nil]
    · rw [List.filter_cons_of_neg (by simpa using hq), if_neg hq, ih hsorted.2]

/-- The map `local_queue` of one chunk. -/
theorem localQueue_spec {V S R : Type} (a : Arithmetic V S) (owner : Int → Int) (rank : Int)
    (chunk : List (actor.Ray V R × BVH.hit S)) :
    ∀ (lq : RayQueues (actor.Ray V R)), (lq.map Prod.fst).Pairwise (fun a b => a < b) →
      ((shuffleDropRays.localQueue a owner rank chunk lq).map Prod.fst).Pairwise
          (fun a b => a < b) ∧
      (∀ j, (shuffleDropRays.localQueue a owner rank chunk lq).rays j =
        lq.rays j ++
          (chunk.filter (fun p => decide (p.2.next = j ∧ p.2.next ≠ -1 ∧
              owner p.2.next = rank))).map
            (fun p =>
              { origin := a.add p.1.origin (a.scale p.1.direction (a.mul p.2.t a.c08))
                direction := p.1.direction
                rest := p.1.rest })) ∧
      (∀ j, (shuffleDropRays.localQueue a owner rank chunk lq).contains j =
        (lq.contains j || chunk.any (fun p => decide (p.2.next = j ∧ p.2.next ≠ -1 ∧
              owner p.2.next = rank)))) ∧
      (shuffleDropRays.localQueue a owner rank chunk lq).total =
        lq.total +
          (chunk.filter (fun p => decide (p.2.next ≠ -1 ∧ owner p.2.next = rank))).length := by
  induction chunk with
  | nil =>
    intro lq hs
    simp [shuffleDropRays.localQueue, hs]
  | cons p rest ih =>
    intro lq hs
    obtain ⟨r, hit⟩ := p
    unfold shuffleDropRays.localQueue
    simp only [decide_eq_true_eq]
    split_ifs with h1 h2
    · obtain ⟨b1, b2, b3, b4⟩ := ih (lq.insertAtEnd hit.next
          [{ r with origin := a.add r.origin (a.scale r.direction (a.mul hit.t a.c08)) }])
        (sorted_insertAtEnd _ _ _ hs)
      refine ⟨b1, ?_, ?_, ?_⟩
      · intro j
        rw [b2, rays_insertAtEnd]
        by_cases hj : hit.next = j
        · rw [if_pos hj.symm, List.filter_cons_of_pos (by simp only []; exact decide_eq_true ⟨hj, h1, h2⟩),
            List.map_cons, List.append_assoc]
          rfl
        · rw [if_neg (fun h => hj h.symm), List.filter_cons_of_neg (by simp [hj])]
      · intro j
        rw [b3, contains_insertAtEnd, List.any_cons]
        by_cases hj : hit.next = j
        · subst hj
          have hd : decide (hit.next = hit.next ∧ hit.next ≠ -1 ∧ owner hit.next = rank) =
              true := decide_eq_true ⟨rfl, h1, h2⟩
          rw [hd]
          simp
        · simp [hj]
      · rw [b4, total_insertAtEnd _ _ _ hs, List.filter_cons_of_pos (by simp [h1, h2])]
        simp only [List.length_cons, List.length_nil]
        omega
    · obtain ⟨b1, b2, b3, b4⟩ := ih lq hs
      refine ⟨b1, ?_, ?_, ?_⟩
      · intro j
        rw [b2, List.filter_cons_of_neg (by simp [h2])]
      · intro j
        rw [b3, List.any_cons]
        simp [h2]
      · rw [b4, List.filter_cons_of_neg (by simp [h2])]
    · obtain ⟨b1, b2, b3, b4⟩ := ih lq hs
      refine ⟨b1, ?_, ?_, ?_⟩
      · intro j
        rw [b2, List.filter_cons_of_neg (by simp [h1])]
      · intro j
        rw [b3, List.any_cons]
        simp [h1]
      · rw [b4, List.filter_cons_of_neg (by simp [h1])]

/-- The insertions of all chunks together, bucket by bucket. -/
theorem insertions_spec {V S R : Type} (a : Arithmetic V S) (owner : Int → Int) (rank : Int)
    (chunks : List (List (actor.Ray V R × BVH.hit S))) :
    (∀ j, ((shuffleDropRays.insertions a owner rank chunks).filter
          (fun x => decide (x.1 = j))).flatMap (fun x => x.2) =
        (chunks.flatten.filter (fun p => decide (p.2.next = j ∧ p.2.next ≠ -1 ∧
              owner p.2.next = rank))).map
          (fun p =>
            { origin := a.add p.1.origin (a.scale p.1.direction (a.mul p.2.t a.c08))
              direction := p.1.direction
              rest := p.1.rest })) ∧
    (∀ j, (shuffleDropRays.insertions a owner rank chunks).any (fun x => decide (x.1 = j)) =
        chunks.flatten.any (fun p => decide (p.2.next = j ∧ p.2.next ≠ -1 ∧
              owner p.2.next = rank))) ∧
    ((shuffleDropRays.insertions a owner rank chunks).map (fun x => x.2.length)).sum =
      (chunks.flatten.filter
        (fun p => decide (p.2.next ≠ -1 ∧ owner p.2.next = rank))).length := by
  induction chunks with
  | nil => exact ⟨fun _ => rfl, fun _ => rfl, rfl⟩
  | cons c rest ih =>
    obtain ⟨i1, i2, i3⟩ := ih
    obtain ⟨b1, b2, b3, b4⟩ := localQueue_spec a owner rank c [] List.Pairwise.nil
    have hcons : shuffleDropRays.insertions a owner rank (c :: rest) =
        shuffleDropRays.localQueue a owner rank c [] ++
          shuffleDropRays.insertions a owner rank rest := by
      simp [shuffleDropRays.insertions]
    rw [hcons]
    refine ⟨?_, ?_, ?_⟩
    · intro j
      rw [List.filter_append, List.flatMap_append, i1, flatMap_filter_key _ j b1, b2,
        List.flatten_cons, List.filter_append, List.map_append]
      rfl
    · intro j
      rw [List.any_append, i2, List.flatten_cons, List.any_append]
      congr 1
      have h := b3 j
      simp only [RayQueues.contains, List.any_nil, Bool.false_or] at h
      exact h
    · rw [List.map_append, List.sum_append, i3, List.flatten_cons, List.filter_append,
        List.length_append]
      congr 1
      have h := b4
      rw [total_nil, Nat.zero_add] at h
      rw [← h]
      rfl

/-- C20. Local filter. For the ray vector cut into consecutive chunks, every
ray given with the answer of the BVH for it, and the locked insertions of the
chunks taking place in any order: afterwards every queue `j` holds the rays it
held before followed by, in some order, exactly the input rays whose `next`
instance is `j`, is not `-1` and is owned by this rank, each with `origin`
replaced by `origin + direction * (t * 0.8f)` and the other fields as they
were; a bucket is there exactly when it was there before or such a ray exists;
the number of queued rays grows by the number of input rays that hit an
instance of this rank, so that no ray is queued twice and a ray with no hit or
with a hit on an instance of another rank is queued nowhere; and the ray
vector is empty. -/
theorem C20_local_filter {V S R : Type} (a : Arithmetic V S) (mpiInstanceMap : Int → Int)
    (rank : Int) (rays : List (actor.Ray V R × BVH.hit S))
    (chunks : List (List (actor.Ray V R × BVH.hit S)))
    (insertions : List (Int × List (actor.Ray V R))) (queue : RayQueues (actor.Ray V R))
    (hsorted : (queue.map Prod.fst).Pairwise (fun a b => a < b))
    (hchunks : chunks.flatten = rays)
    (hinsertions :
      insertions.Perm (shuffleDropRays.insertions a mpiInstanceMap rank chunks)) :
    (∀ j, ((shuffleDropRays queue insertions).queue.rays j).Perm
      (queue.rays j ++
        (rays.filter (fun p => decide (p.2.next = j ∧ p.2.next ≠ -1 ∧
            mpiInstanceMap p.2.next = rank))).map
          (fun p =>
            { origin := a.add p.1.origin (a.scale p.1.direction (a.mul p.2.t a.c08))
              direction := p.1.direction
              rest := p.1.rest }))) ∧
    (∀ j, (shuffleDropRays queue insertions).queue.contains j =
      (queue.contains j || rays.any (fun p => decide (p.2.next = j ∧ p.2.next ≠ -1 ∧
            mpiInstanceMap p.2.next = rank)))) ∧
    (shuffleDropRays queue insertions).queue.total =
      queue.total +
        (rays.filter (fun p => decide (p.2.next ≠ -1 ∧ mpiInstanceMap p.2.next = rank))).length ∧
    (shuffleDropRays queue insertions).rays = [] := by
  obtain ⟨_, f2, f3, f4⟩ := foldl_insertAtEnd insertions queue hsorted
  obtain ⟨i1, i2, i3⟩ := insertions_spec a mpiInstanceMap rank chunks
  rw [hchunks] at i1 i2 i3
  refine ⟨?_, ?_, ?_, rfl⟩
  · intro j
    show List.Perm ((List.foldl _ queue insertions).rays j) _
    rw [f2 j, ← i1 j]
    exact List.Perm.append_left _
      ((hinsertions.filter _).flatMap_right _)
  · intro j
    show (List.foldl _ queue insertions).contains j = _
    rw [f3 j, ← i2 j]
    congr 1
    rw [Bool.eq_iff_iff]
    simp only [List.any_eq_true]
    constructor
    · rintro ⟨x, hx, hp⟩
      exact ⟨x, hinsertions.mem_iff.mp hx, hp⟩
    · rintro ⟨x, hx, hp⟩
      exact ⟨x, hinsertions.mem_iff.mpr hx, hp⟩
  · show (List.foldl _ queue insertions).total = _
    rw [f4, ← i3]
    congr 1
    exact (hinsertions.map _).sum_eq

theorem C20_local_filter_witness :
    (([(2, [{ origin := 0, direction := 0, rest := 9 }])] :
        RayQueues (actor.Ray Int Nat)).map Prod.fst).Pairwise (fun a b => a < b) ∧
    chunksOfTwo.flatten = raysAndHits ∧
    (shuffleDropRays [(2, [{ origin := 0, direction := 0, rest := 9 }])]
        insertionsSecondFirst).queue =
      [(2, [{ origin := 0, direction := 0, rest := 9 }, { origin := 52, direction := 2, rest := 3 },
        { origin := 9, direction := 1, rest := 0 }])] ∧
    (shuffleDropRays [(2, [{ origin := 0, direction := 0, rest := 9 }])]
        insertionsSecondFirst).queue.total = 1 + 2 :=
  ⟨by decide, by decide, by decide,
    (C20_local_filter intArithmetic twoRankOwner 0 raysAndHits chunksOfTwo insertionsSecondFirst
      [(2, [{ origin := 0, direction := 0, rest := 9 }])] (by decide) (by decide)
      (by decide)).2.2.1.trans (by decide)⟩

/-! ## The transfer step -/

/-- C21. Transfer step. In a world of more than one rank, `TransferRays` calls
`SendRays` and then `RecvRays` exactly when `isCommunicationAllowed()` holds on
entry; in either case it then makes exactly one call of `updateState` and, the
final assertion holding, returns what that call returned (the assertion fails,
and the call does not return, exactly when the tick reports done while a queue
still holds a ray). In a world of one rank it sends and receives nothing, calls
no voter and returns true exactly when all local queues are empty. -/
theorem C21_transfer_step (mpiInstanceMap : Int → Int) (t : DomainTracer Ray) :
    (∀ voter, 1 < t.mpiInfo.size → t.voter = some voter →
      (voter.isCommunicationAllowed = true →
        TransferRays mpiInstanceMap t =
          (let s := SendRays mpiInstanceMap t.mpiInfo.rank voter t.queue
           let r := RecvRays t.mpiInfo.rank s.queue t.workQ
           let tick := s.voter.updateState (IsDone r.queue)
           if tick.allDone = true ∧ IsDone r.queue = false then none
           else some
             { tracer := { t with queue := r.queue, workQ := r.workQ, voter := some tick.voter }
               sent := s.sent ++ r.sent ++ voteWork s.voter.mpi tick.sent
               calls := [Call.SendRays, Call.RecvRays, Call.updateState]
               done := tick.allDone })) ∧
      (voter.isCommunicationAllowed = false →
        TransferRays mpiInstanceMap t =
          (let tick := voter.updateState (IsDone t.queue)
           if tick.allDone = true ∧ IsDone t.queue = false then none
           else some
             { tracer := { t with voter := some tick.voter }
               sent := voteWork voter.mpi tick.sent
               calls := [Call.updateState]
               done := tick.allDone }))) ∧
    (t.mpiInfo.size = 1 →
      TransferRays mpiInstanceMap t =
        some { tracer := t, sent := [], calls := [Call.IsDone], done := IsDone t.queue }) := by
  refine ⟨?_, ?_⟩
  · intro voter hsize hv
    refine ⟨?_, ?_⟩
    · intro hallow
      simp only [TransferRays, hsize, hv, hallow, if_true, TransferRays.vote]
      cases h1 : ((SendRays mpiInstanceMap t.mpiInfo.rank voter t.queue).voter.updateState
          (IsDone (RecvRays t.mpiInfo.rank
            (SendRays mpiInstanceMap t.mpiInfo.rank voter t.queue).queue t.workQ).queue)).allDone <;>
        cases h2 : IsDone (RecvRays t.mpiInfo.rank
            (SendRays mpiInstanceMap t.mpiInfo.rank voter t.queue).queue t.workQ).queue <;>
        simp [h1, h2]
    · intro hallow
      simp only [TransferRays, hsize, hv, hallow, if_true, TransferRays.vote]
      cases h1 : (voter.updateState (IsDone t.queue)).allDone <;>
        cases h2 : IsDone t.queue <;> simp [h1, h2]
  · intro hsize
    have h1 : ¬ (1 < t.mpiInfo.size) := by omega
    simp only [TransferRays, h1, if_false]
    cases h2 : IsDone t.queue <;> simp

theorem C21_transfer_step_witness :
    (1 : Int) < tracer12.mpiInfo.size ∧
    tracer12.voter = some (TpcVoter.new { rank := 1, size := 2 }) ∧
    (TpcVoter.new { rank := 1, size := 2 }).isCommunicationAllowed = true ∧
    (TransferRays twoRankOwner tracer12).map (fun r => (r.calls, r.done, r.tracer.queue)) =
      some ([Call.SendRays, Call.RecvRays, Call.updateState], false, [(0, []), (1, [9])]) :=
  ⟨by decide, by decide, by decide,
    by
      rw [((C21_transfer_step twoRankOwner tracer12).1 (TpcVoter.new { rank := 1, size := 2 })
        (by decide) (by decide)).1 (by decide)]
      decide⟩

/-! ## Compositing -/

theorem addByte_apply (rgb : Int → Nat) (k : Int) (b : Nat) (q : Int) :
    addByte rgb k b q = if q = k then (rgb q + b) % 256 else rgb q := rfl

theorem addByte_lt (rgb : Int → Nat) (k : Int) (b : Nat) (h : ∀ q, rgb q < 256) :
    ∀ q, addByte rgb k b q < 256 := by
  intro q
  rw [addByte_apply]
  split_ifs
  · exact Nat.mod_lt _ (by decide)
  · exact h q

/-- The loop over the ranks for one pixel adds, byte by byte and modulo 256,
the bytes of the listed ranks to the three bytes of the pixel. -/
theorem addRanks_apply (S : Int) (bufs : Int → Nat) (j : Int) (ranks : List Int) :
    ∀ (rgb : Int → Nat), (∀ q, rgb q < 256) →
      (∀ i ∈ ranks, wrapInt (i * S + j) = i * S + j) →
      (∀ q, CompositeFrameBuffers.addRanks S bufs j ranks rgb q < 256) ∧
      ∀ q, CompositeFrameBuffers.addRanks S bufs j ranks rgb q =
        if j ≤ q ∧ q < j + 3 then
          (rgb q + (ranks.map (fun i => bufs (i * S + q))).sum) % 256
        else rgb q := by
  induction ranks with
  | nil =>
    intro rgb hb _
    refine ⟨hb, ?_⟩
    intro q
    simp only [CompositeFrameBuffers.addRanks, List.map_nil, List.sum_nil, Nat.add_zero]
    split_ifs with h
    · exact (Nat.mod_eq_of_lt (hb q)).symm
    · rfl
  | cons i rest ih =>
    intro rgb hb hw
    have hwi := hw i (List.mem_cons_self _ _)
    have hb3 := addByte_lt _ (j + 2) (bufs (i * S + j + 2))
      (addByte_lt _ (j + 1) (bufs (i * S + j + 1)) (addByte_lt rgb (j + 0) (bufs (i * S + j + 0)) hb))
    obtain ⟨ih1, ih2⟩ := ih _ hb3 (fun k hk => hw k (List.mem_cons_of_mem _ hk))
    unfold CompositeFrameBuffers.addRanks
    simp only [hwi]
    refine ⟨ih1, ?_⟩
    intro q
    rw [ih2 q]
    simp only [addByte_apply, List.map_cons, List.sum_cons]
    by_cases h0 : q = j + 0
    · subst h0
      have e1 : ¬ (j + 0 = j + 1) := by omega
      have e2 : ¬ (j + 0 = j + 2) := by omega
      have e3 : j ≤ j + 0 ∧ j + 0 < j + 3 := by omega
      have e4 : i * S + j + 0 = i * S + (j + 0) := by ring
      simp only [e1, e2, e3, e4, if_true, if_false, and_self]
      omega
    · by_cases h1 : q = j + 1
      · subst h1
        have e2 : ¬ (j + 1 = j + 2) := by omega
        have e3 : j ≤ j + 1 ∧ j + 1 < j + 3 := by omega
        have e4 : i * S + j + 1 = i * S + (j + 1) := by ring
        simp only [h0, e2, e3, e4, if_true, if_false, and_self]
        omega
      · by_cases h2 : q = j + 2
        · subst h2
          have e3 : j ≤ j + 2 ∧ j + 2 < j + 3 := by omega
          have e4 : i * S + j + 2 = i * S + (j + 2) := by ring
          simp only [h0, h1, e3, e4, if_true, if_false, and_self]
          omega
        · have e3 : ¬ (j ≤ q ∧ q < j + 3) := by omega
          simp only [h0, h1, h2, e3, if_false]

/-- The loop over the pixels, in any order without repetition. -/
theorem foldl_addRanks (S : Int) (bufs : Int → Nat) (ranks : List Int) (ps : List Int) :
    ∀ (out : Int → Nat), (∀ q, out q < 256) → ps.Nodup →
      (∀ k ∈ ps, wrapInt (k * 3) = k * 3 ∧ ∀ i ∈ ranks, wrapInt (i * S + k * 3) = i * S + k * 3) →
      ∀ q, ps.foldl (fun out k => CompositeFrameBuffers.addRanks S bufs (wrapInt (k * 3)) ranks out)
          out q =
        if q / 3 ∈ ps then (out q + (ranks.map (fun i => bufs (i * S + q))).sum) % 256
        else out q := by
  induction ps with
  | nil =>
    intro out _ _ _ q
    simp
  | cons k rest ih =>
    intro out hb hnd hw q
    rw [List.nodup_cons] at hnd
    obtain ⟨hk3, hki⟩ := hw k (List.mem_cons_self _ _)
    obtain ⟨a1, a2⟩ := addRanks_apply S bufs (k * 3) ranks out hb hki
    simp only [List.foldl_cons, hk3]
    rw [ih _ a1 hnd.2 (fun k2 hk2 => hw k2 (List.mem_cons_of_mem _ hk2)) q, a2 q]
    by_cases hq : q / 3 = k
    · have hin : k * 3 ≤ q ∧ q < k * 3 + 3 := by omega
      simp only [hq, hnd.1, if_false, hin, and_self, if_true, List.mem_cons, true_or]
    · have hout : ¬ (k * 3 ≤ q ∧ q < k * 3 + 3) := by omega
      simp only [hout, if_false, List.mem_cons, hq, false_or]

theorem MPI_Gather_apply (S : Int) (rgb : Int → Int → Nat) (i q : Int) (h0 : 0 ≤ q)
    (hS : q < S) : MPI_Gather S rgb (i * S + q) = rgb i q := by
  unfold MPI_Gather
  have h1 : (i * S + q) / S = i := by
    rw [add_comm, Int.add_mul_ediv_right _ _ (by omega), Int.ediv_eq_zero_of_lt h0 hS, zero_add]
  have h2 : (i * S + q) % S = q := by
    rw [add_comm, Int.add_mul_emod_self, Int.emod_eq_of_lt h0 hS]
  rw [h1, h2]

/-- Every byte of the framebuffer of rank 0 after the composite is the sum of
the local bytes of all ranks modulo 256. -/
theorem composite_mod (mpiInfo : MpiInfo) (width height : Int) (rgb : Int → Int → Nat)
    (pixels : List Int) (hrank : mpiInfo.rank = 0) (hsize : 1 ≤ mpiInfo.size)
    (hw : 0 ≤ width) (hh : 0 ≤ height)
    (hfit : mpiInfo.size * (3 * (width * height)) ≤ 2147483647)
    (hbytes : ∀ r q, rgb r q < 256)
    (hpixels : pixels.Perm ((List.range (width * height).toNat).map (fun (k : Nat) => (k : Int))))
    (q : Int) (hq0 : 0 ≤ q) (hq : q < 3 * (width * height)) :
    CompositeFrameBuffers mpiInfo width height rgb pixels q =
      sumOverRanks mpiInfo.size rgb q % 256 := by
  have hwh : 0 ≤ width * height := mul_nonneg hw hh
  unfold CompositeFrameBuffers
  simp only [hrank, if_true]
  generalize width * height = P at hfit hpixels hq hwh ⊢
  have h3P : 3 * P ≤ mpiInfo.size * (3 * P) :=
    le_mul_of_one_le_left (by omega) hsize
  have hS : wrapInt (3 * P) = 3 * P := by
    apply wrapInt_of_isInt32
    unfold IsInt32
    omega
  have hmem : ∀ k : Int, k ∈ pixels ↔ 0 ≤ k ∧ k < P := by
    intro k
    rw [hpixels.mem_iff, List.mem_map]
    constructor
    · rintro ⟨n, hn, rfl⟩
      rw [List.mem_range] at hn
      omega
    · rintro ⟨h1, h2⟩
      refine ⟨k.toNat, ?_, by omega⟩
      rw [List.mem_range]
      omega
  have hnd : pixels.Nodup := by
    rw [hpixels.nodup_iff]
    exact (List.nodup_range _).map (fun a b h => by simpa using h)
  simp only [hS]
  rw [foldl_addRanks _ _ _ pixels (rgb 0) (hbytes 0) hnd ?_ q]
  · have hin : q / 3 ∈ pixels := by
      rw [hmem]
      omega
    rw [if_pos hin]
    congr 1
    unfold sumOverRanks
    obtain ⟨n, hn⟩ : ∃ n : Nat, mpiInfo.size.toNat = n + 1 := ⟨mpiInfo.size.toNat - 1, by omega⟩
    rw [hn, List.range_eq_range', List.range'_succ, List.map_cons, List.sum_cons,
      Nat.add_sub_cancel, List.map_map]
    congr 2
    apply List.map_congr_left
    intro i _
    simp only [Function.comp]
    exact MPI_Gather_apply _ rgb _ q hq0 hq
  · intro k hk
    rw [hmem] at hk
    refine ⟨?_, ?_⟩
    · apply wrapInt_of_isInt32
      unfold IsInt32
      omega
    · intro i hi
      rw [List.mem_map] at hi
      obtain ⟨n, hn, rfl⟩ := hi
      rw [List.mem_range'_1] at hn
      apply wrapInt_of_isInt32
      unfold IsInt32
      have h1 : (n : Int) ≤ mpiInfo.size - 1 := by omega
      have h2 : (0 : Int) ≤ n := by omega
      have h3 : (n : Int) * (3 * P) ≤ (mpiInfo.size - 1) * (3 * P) :=
        mul_le_mul_of_nonneg_right h1 (by omega)
      have h4 : (mpiInfo.size - 1) * (3 * P) = mpiInfo.size * (3 * P) - 3 * P := by ring
      have h5 : 0 ≤ (n : Int) * (3 * P) := mul_nonneg h2 (by omega)
      omega

theorem dimBuffers_lt (r q : Int) : dimBuffers r q < 256 := by
  unfold dimBuffers
  split_ifs
  · exact Nat.mod_lt _ (by decide)
  · decide

/-- C22, as stated, fails: with two ranks and one pixel whose bytes are 200 on
rank 0 and 100 on rank 1, the byte after the composite is 44, not 300. -/
theorem C22_composite_sum_counterexample :
    CompositeFrameBuffers mpi02 1 1 brightBuffers [0] 0 = 44 ∧
    sumOverRanks mpi02.size brightBuffers 0 = 300 ∧
    ¬ ∀ (mpiInfo : MpiInfo) (width height : Int) (rgb : Int → Int → Nat) (pixels : List Int)
        (q : Int), mpiInfo.rank = 0 → 1 ≤ mpiInfo.size → 0 ≤ width → 0 ≤ height →
        mpiInfo.size * (3 * (width * height)) ≤ 2147483647 → (∀ r q, rgb r q < 256) →
        pixels.Perm ((List.range (width * height).toNat).map (fun (k : Nat) => (k : Int))) →
        0 ≤ q → q < 3 * (width * height) →
        CompositeFrameBuffers mpiInfo width height rgb pixels q =
          sumOverRanks mpiInfo.size rgb q := by
  refine ⟨by decide, by decide, ?_⟩
  intro h
  have h1 := h mpi02 1 1 brightBuffers [0] 0 (by decide) (by decide) (by decide) (by decide)
    (by decide) (by intro r q; unfold brightBuffers; split_ifs <;> decide) (by decide)
    (by decide) (by decide)
  revert h1
  decide

/-- C22, amended. After `CompositeFrameBuffers` on rank 0, every byte of the
output framebuffer (every pixel, every colour channel) for which the sum over
all ranks of the corresponding local bytes is at most 255 equals that sum. -/
theorem C22_composite_sum_amended (mpiInfo : MpiInfo) (width height : Int)
    (rgb : Int → Int → Nat) (pixels : List Int) (q : Int)
    (hrank : mpiInfo.rank = 0) (hsize : 1 ≤ mpiInfo.size)
    (hw : 0 ≤ width) (hh : 0 ≤ height)
    (hfit : mpiInfo.size * (3 * (width * height)) ≤ 2147483647)
    (hbytes : ∀ r q, rgb r q < 256)
    (hpixels : pixels.Perm ((List.range (width * height).toNat).map (fun (k : Nat) => (k : Int))))
    (hq0 : 0 ≤ q) (hq : q < 3 * (width * height))
    (hsum : sumOverRanks mpiInfo.size rgb q ≤ 255) :
    CompositeFrameBuffers mpiInfo width height rgb pixels q =
      sumOverRanks mpiInfo.size rgb q := by
  rw [composite_mod mpiInfo width height rgb pixels hrank hsize hw hh hfit hbytes hpixels q hq0 hq]
  exact Nat.mod_eq_of_lt (by omega)

theorem C22_composite_sum_amended_witness :
    sumOverRanks mpi02.size dimBuffers 2 = 12 ∧
    CompositeFrameBuffers mpi02 1 1 dimBuffers [0] 2 = sumOverRanks mpi02.size dimBuffers 2 :=
  ⟨by decide,
    C22_composite_sum_amended mpi02 1 1 dimBuffers [0] 2 (by decide) (by decide) (by decide)
      (by decide) (by decide) dimBuffers_lt (by decide) (by decide) (by decide) (by decide)⟩

/-- C29. Composite wrap-around. After `CompositeFrameBuffers` on rank 0, every
byte of the output framebuffer is the sum over all ranks of the corresponding
local byte modulo 256, and it is that sum itself exactly when the sum is at
most 255; every index `p + c` (`c = 0, 1, 2`) at which the loop reads the
gathered buffer, `p = i * rgb_buf_size + j` for a rank `1 <= i < size` and
`j = 3 k` for a pixel `k`, is `i * (3 * width * height) + j + c` and lies
inside the `size * 3 * width * height` bytes allocated. -/
theorem C29_composite_wraps (mpiInfo : MpiInfo) (width height : Int)
    (rgb : Int → Int → Nat) (pixels : List Int)
    (hrank : mpiInfo.rank = 0) (hsize : 1 ≤ mpiInfo.size)
    (hw : 0 ≤ width) (hh : 0 ≤ height)
    (hfit : mpiInfo.size * (3 * (width * height)) ≤ 2147483647)
    (hbytes : ∀ r q, rgb r q < 256)
    (hpixels :
      pixels.Perm ((List.range (width * height).toNat).map (fun (k : Nat) => (k : Int)))) :
    (∀ q, 0 ≤ q → q < 3 * (width * height) →
      CompositeFrameBuffers mpiInfo width height rgb pixels q =
        sumOverRanks mpiInfo.size rgb q % 256 ∧
      (CompositeFrameBuffers mpiInfo width height rgb pixels q =
          sumOverRanks mpiInfo.size rgb q ↔
        sumOverRanks mpiInfo.size rgb q ≤ 255)) ∧
    (∀ i k c : Int, 1 ≤ i → i < mpiInfo.size → 0 ≤ k → k < width * height → 0 ≤ c → c ≤ 2 →
      wrapInt (i * wrapInt (3 * (width * height)) + wrapInt (k * 3)) + c =
        i * (3 * width * height) + 3 * k + c ∧
      0 ≤ i * (3 * width * height) + 3 * k + c ∧
      i * (3 * width * height) + 3 * k + c < mpiInfo.size * 3 * width * height) := by
  refine ⟨?_, ?_⟩
  · intro q hq0 hq
    have h := composite_mod mpiInfo width height rgb pixels hrank hsize hw hh hfit hbytes
      hpixels q hq0 hq
    refine ⟨h, ?_⟩
    rw [h]
    constructor
    · intro he
      have := Nat.mod_lt (sumOverRanks mpiInfo.size rgb q) (by decide : 0 < 256)
      omega
    · intro hle
      exact Nat.mod_eq_of_lt (by omega)
  · intro i k c hi1 hiN hk0 hk hc0 hc2
    have hwh : 0 ≤ width * height := mul_nonneg hw hh
    have e1 : i * (3 * width * height) = i * (3 * (width * height)) := by ring
    have e2 : mpiInfo.size * 3 * width * height = mpiInfo.size * (3 * (width * height)) := by
      ring
    rw [e1, e2]
    generalize width * height = P at hfit hk hwh ⊢
    have h3P : 3 * P ≤ mpiInfo.size * (3 * P) := le_mul_of_one_le_left (by omega) hsize
    have hS : wrapInt (3 * P) = 3 * P := by
      apply wrapInt_of_isInt32
      unfold IsInt32
      omega
    have hk3 : wrapInt (k * 3) = k * 3 := by
      apply wrapInt_of_isInt32
      unfold IsInt32
      omega
    have h1 : i ≤ mpiInfo.size - 1 := by omega
    have h3 : i * (3 * P) ≤ (mpiInfo.size - 1) * (3 * P) :=
      mul_le_mul_of_nonneg_right h1 (by omega)
    have h4 : (mpiInfo.size - 1) * (3 * P) = mpiInfo.size * (3 * P) - 3 * P := by ring
    have h5 : 0 ≤ i * (3 * P) := mul_nonneg (by omega) (by omega)
    have hp : wrapInt (i * (3 * P) + k * 3) = i * (3 * P) + k * 3 := by
      apply wrapInt_of_isInt32
      unfold IsInt32
      omega
    rw [hS, hk3, hp]
    omega

theorem C29_composite_wraps_witness :
    CompositeFrameBuffers mpi02 1 1 dimBuffers [0] 1 = 11 ∧
    CompositeFrameBuffers mpi02 1 1 dimBuffers [0] 1 =
      sumOverRanks mpi02.size dimBuffers 1 % 256 :=
  ⟨by decide,
    ((C29_composite_wraps mpi02 1 1 dimBuffers [0] (by decide) (by decide) (by decide)
      (by decide) (by decide) dimBuffers_lt (by decide)).1 1 (by decide) (by decide)).1⟩

/-! ## The trace loop of the adapter -/

/-- C23, as stated, fails: a primary ray of depth 1 and weight 5 that hits,
with the draw 0, has `depth > 0` and `w > p` but is terminated and its valid
bit cleared, because the test is `ndepth > 0` with `ndepth = depth - 1`. -/
theorem C23_russian_roulette_counterexample :
    (primaryRay 1 0).rest.depth > 0 ∧
    intFloatOps.gt (weightAtTest intFloatOps (primaryRay 1 0) answerHit) answerHit.p = true ∧
    (traceRay intFloatOps noShadowRays (primaryRay 1 0) true answerHit).validRayLeft = false ∧
    (traceRay intFloatOps noShadowRays (primaryRay 1 0) true answerHit).valid = false ∧
    (traceRay intFloatOps noShadowRays (primaryRay 1 0) true answerHit).ray.rest.type =
      RayType.PRIMARY := by
  decide

/-- C23, amended. A valid ray that is not a shadow ray and hits the mesh, with
depth `d >= 0` and with weight `w` when the test is made (after the attenuation
of a `SECONDARY` ray) and the draw `p`, is continued as a `SECONDARY` ray if
and only if `d - 1 > 0` and `w > p`; when it is continued its depth becomes
`d - 1` and its weight `w` times (new direction . normal); otherwise its valid
bit is cleared and its depth stays `d`. In neither case is it put on
`localDispatch` in that pass. -/
theorem C23_russian_roulette_amended {V S : Type} (ops : FloatOps V S)
    (generateShadowRays : actor.Ray V (RayFields S) → V → List (actor.Ray V (RayFields S)))
    (r : actor.Ray V (RayFields S)) (a : Answer V S)
    (hhit : a.wasHit = true) (htype : r.rest.type ≠ RayType.SHADOW)
    (hdepth : 0 ≤ r.rest.depth ∧ r.rest.depth ≤ 2147483647) :
    ((traceRay ops generateShadowRays r true a).validRayLeft = true ↔
      r.rest.depth - 1 > 0 ∧ ops.gt (weightAtTest ops r a) a.p = true) ∧
    ((traceRay ops generateShadowRays r true a).validRayLeft = true →
      (traceRay ops generateShadowRays r true a).valid = true ∧
      (traceRay ops generateShadowRays r true a).ray.rest.type = RayType.SECONDARY ∧
      (traceRay ops generateShadowRays r true a).ray.rest.depth = r.rest.depth - 1 ∧
      (traceRay ops generateShadowRays r true a).ray.direction = a.direction ∧
      (traceRay ops generateShadowRays r true a).ray.rest.w =
        ops.mul (weightAtTest ops r a) (ops.dot a.direction a.normal)) ∧
    ((traceRay ops generateShadowRays r true a).validRayLeft = false →
      (traceRay ops generateShadowRays r true a).valid = false ∧
      (traceRay ops generateShadowRays r true a).ray.rest.depth = r.rest.depth) ∧
    (traceRay ops generateShadowRays r true a).dispatched = false := by
  have hw : wrapInt (r.rest.depth - 1) = r.rest.depth - 1 := by
    apply wrapInt_of_isInt32
    unfold IsInt32
    omega
  have e : r.rest.depth - 1 > 0 ↔ 1 < r.rest.depth := by omega
  unfold traceRay weightAtTest
  simp only [hhit, and_self, if_true, htype, if_false, e]
  by_cases hsec : r.rest.type = RayType.SECONDARY
  · simp only [hsec, if_true, hw]
    generalize ops.mul r.rest.w (if ops.gt a.minT ops.one = true then ops.inv a.minT
      else a.minT) = w
    by_cases hc : 1 < r.rest.depth ∧ ops.gt w a.p = true
    · simp [hc]
    · simp [hc]
  · simp only [hsec, if_false, hw]
    by_cases hc : 1 < r.rest.depth ∧ ops.gt r.rest.w a.p = true
    · simp [hc]
    · simp [hc]

theorem C23_russian_roulette_amended_witness :
    answerHit.wasHit = true ∧ (primaryRay 2 0).rest.type ≠ RayType.SHADOW ∧
    ((traceRay intFloatOps noShadowRays (primaryRay 2 0) true answerHit).validRayLeft = true ↔
      (primaryRay 2 0).rest.depth - 1 > 0 ∧
      intFloatOps.gt (weightAtTest intFloatOps (primaryRay 2 0) answerHit) answerHit.p = true) ∧
    (traceRay intFloatOps noShadowRays (primaryRay 2 0) true answerHit).ray.rest.depth = 1 :=
  ⟨by decide, by decide,
    (C23_russian_roulette_amended intFloatOps noShadowRays (primaryRay 2 0) answerHit (by decide)
      (by decide) (by decide)).1,
    by decide⟩

/-- C24 at the failing input: in a packet of two primary rays of which ray 0
hits in every pass (and is continued twice) and ray 1 misses, ray 1 is put on
`localDispatch` in each of the three passes of the loop. -/
theorem C24_ray_dispatched_again :
    (tracePacket intFloatOps noShadowRays firstRayHits 4 0 twoRayPacket).map
        (fun x => (x.1.localDispatch.map (fun r => r.rest.id), x.2)) = some ([1, 1, 1], 3) ∧
    (tracePass intFloatOps noShadowRays (firstRayHits 0) twoRayPacket).rays.map
        (fun x => x.2) = [true, false] ∧
    (tracePacket intFloatOps noShadowRays firstRayHits 4 0 twoRayPacket).map
        (fun x => x.1.localDispatch.count (primaryRay 1 1)) = some 3 := by
  decide

/-! ### The passes of one packet -/

theorem depths_nil {V S : Type} :
    Packet.depths ([] : List (actor.Ray V (RayFields S) × Bool)) = 0 := rfl

theorem depths_append {V S : Type} (l1 l2 : List (actor.Ray V (RayFields S) × Bool)) :
    Packet.depths (l1 ++ l2) = Packet.depths l1 + Packet.depths l2 := by
  simp [Packet.depths]

theorem depths_cons {V S : Type} (x : actor.Ray V (RayFields S) × Bool)
    (l : List (actor.Ray V (RayFields S) × Bool)) :
    Packet.depths (x :: l) = x.1.rest.depth.toNat + Packet.depths l := by
  simp [Packet.depths]

/-- The body of the loop over `pi` never raises a depth, keeps it in range, and
lowers it when it sets `validRayLeft`. -/
theorem traceRay_depth {V S : Type} (ops : FloatOps V S)
    (generateShadowRays : actor.Ray V (RayFields S) → V → List (actor.Ray V (RayFields S)))
    (r : actor.Ray V (RayFields S)) (valid : Bool) (a : Answer V S)
    (hdepth : 0 ≤ r.rest.depth ∧ r.rest.depth ≤ 2147483647) :
    0 ≤ (traceRay ops generateShadowRays r valid a).ray.rest.depth ∧
    (traceRay ops generateShadowRays r valid a).ray.rest.depth ≤ r.rest.depth ∧
    ((traceRay ops generateShadowRays r valid a).validRayLeft = true →
      (traceRay ops generateShadowRays r valid a).ray.rest.depth < r.rest.depth) := by
  have hw : wrapInt (r.rest.depth - 1) = r.rest.depth - 1 := by
    apply wrapInt_of_isInt32
    unfold IsInt32
    omega
  have e : r.rest.depth - 1 > 0 ↔ 1 < r.rest.depth := by omega
  unfold traceRay
  by_cases h1 : valid = true ∧ a.wasHit = true
  · simp only [h1, and_self, if_true]
    by_cases h2 : r.rest.type = RayType.SHADOW
    · simp [h2, hdepth.1]
    · simp only [h2, if_false]
      by_cases hsec : r.rest.type = RayType.SECONDARY
      · simp only [hsec, if_true, hw, e]
        generalize ops.mul r.rest.w (if ops.gt a.minT ops.one = true then ops.inv a.minT
          else a.minT) = w
        by_cases hc : 1 < r.rest.depth ∧ ops.gt w a.p = true
        · rw [if_pos hc]
          simp only []
          omega
        · rw [if_neg hc]
          simp [hdepth.1]
      · simp only [hsec, if_false, hw, e]
        by_cases hc : 1 < r.rest.depth ∧ ops.gt r.rest.w a.p = true
        · rw [if_pos hc]
          simp only []
          omega
        · rw [if_neg hc]
          simp [hdepth.1]
  · simp [h1, hdepth.1]

/-- The loop over `pi`: the rays come out in order, no depth is raised, and the
flag is set only with a depth lowered. -/
theorem traceRays_depths {V S : Type} (ops : FloatOps V S)
    (generateShadowRays : actor.Ray V (RayFields S) → V → List (actor.Ray V (RayFields S)))
    (answers : Nat → Answer V S) (slots : List (actor.Ray V (RayFields S) × Bool)) :
    ∀ (packet : Packet V S) (pi : Nat),
      (∀ x ∈ slots, 0 ≤ x.1.rest.depth ∧ x.1.rest.depth ≤ 2147483647) →
      ∃ out, (traceRays ops generateShadowRays answers pi slots packet).rays = packet.rays ++ out ∧
        (∀ x ∈ out, 0 ≤ x.1.rest.depth ∧ x.1.rest.depth ≤ 2147483647) ∧
        Packet.depths out ≤ Packet.depths slots ∧
        ((traceRays ops generateShadowRays answers pi slots packet).validRayLeft = true →
          packet.validRayLeft = true ∨ Packet.depths out < Packet.depths slots) := by
  induction slots with
  | nil =>
    intro packet pi _
    refine ⟨[], by simp [traceRays], by simp, le_refl _, ?_⟩
    intro h
    exact Or.inl h
  | cons x rest ih =>
    intro packet pi hd
    obtain ⟨r, valid⟩ := x
    have hx := hd (r, valid) (List.mem_cons_self _ _)
    obtain ⟨d1, d2, d3⟩ := traceRay_depth ops generateShadowRays r valid (answers pi) hx
    unfold traceRays
    simp only []
    obtain ⟨out, o1, o2, o3, o4⟩ := ih
      { rays := packet.rays ++ [((traceRay ops generateShadowRays r valid (answers pi)).ray,
          (traceRay ops generateShadowRays r valid (answers pi)).valid)]
        localDispatch := if (traceRay ops generateShadowRays r valid (answers pi)).dispatched
          then packet.localDispatch ++ [(traceRay ops generateShadowRays r valid (answers pi)).ray]
          else packet.localDispatch
        shadowRays := packet.shadowRays ++
          (traceRay ops generateShadowRays r valid (answers pi)).shadows
        validRayLeft := packet.validRayLeft ||
          (traceRay ops generateShadowRays r valid (answers pi)).validRayLeft }
      (pi + 1) (fun y hy => hd y (List.mem_cons_of_mem _ hy))
    refine ⟨((traceRay ops generateShadowRays r valid (answers pi)).ray,
      (traceRay ops generateShadowRays r valid (answers pi)).valid) :: out, ?_, ?_, ?_, ?_⟩
    · rw [o1]
      simp
    · intro y hy
      simp only [List.mem_cons] at hy
      rcases hy with rfl | hy
      · exact ⟨d1, le_trans d2 hx.2⟩
      · exact o2 y hy
    · rw [depths_cons, depths_cons]
      simp only []
      omega
    · intro hv
      rw [depths_cons, depths_cons]
      simp only []
      rcases o4 hv with h | h
      · simp only [Bool.or_eq_true] at h
        rcases h with h | h
        · exact Or.inl h
        · have := d3 h
          right
          omega
      · right
        omega

/-- One pass: the depths stay in range, their sum does not grow, and it
shrinks when the pass leaves `validRayLeft` set. -/
theorem tracePass_depths {V S : Type} (ops : FloatOps V S)
    (generateShadowRays : actor.Ray V (RayFields S) → V → List (actor.Ray V (RayFields S)))
    (answers : PassAnswers V S) (packet : Packet V S)
    (hd : ∀ x ∈ packet.rays, 0 ≤ x.1.rest.depth ∧ x.1.rest.depth ≤ 2147483647) :
    (∀ x ∈ (tracePass ops generateShadowRays answers packet).rays,
      0 ≤ x.1.rest.depth ∧ x.1.rest.depth ≤ 2147483647) ∧
    Packet.depths (tracePass ops generateShadowRays answers packet).rays ≤
      Packet.depths packet.rays ∧
    ((tracePass ops generateShadowRays answers packet).validRayLeft = true →
      Packet.depths (tracePass ops generateShadowRays answers packet).rays <
        Packet.depths packet.rays) := by
  obtain ⟨out, o1, o2, o3, o4⟩ := traceRays_depths ops generateShadowRays answers.ray packet.rays
    { packet with rays := [], validRayLeft := false } 0 hd
  simp only [List.nil_append] at o1
  unfold tracePass traceShadowRays
  simp only []
  rw [o1]
  refine ⟨o2, o3, ?_⟩
  intro hv
  rcases o4 hv with h | h
  · simp at h
  · exact h

/-- The loop ends within one pass more than the sum of the depths. -/
theorem tracePacket_ends {V S : Type} (ops : FloatOps V S)
    (generateShadowRays : actor.Ray V (RayFields S) → V → List (actor.Ray V (RayFields S)))
    (answers : Nat → PassAnswers V S) (fuel : Nat) :
    ∀ (pass : Nat) (packet : Packet V S),
      (∀ x ∈ packet.rays, 0 ≤ x.1.rest.depth ∧ x.1.rest.depth ≤ 2147483647) →
      Packet.depths packet.rays < fuel →
      ∃ result passes,
        tracePacket ops generateShadowRays answers fuel pass packet = some (result, passes) ∧
        pass < passes ∧ passes ≤ pass + 1 + Packet.depths packet.rays ∧
        ∀ more, tracePacket ops generateShadowRays answers (fuel + more) pass packet =
          some (result, passes) := by
  induction fuel with
  | zero => intro pass packet _ h; omega
  | succ fuel ih =>
    intro pass packet hd hf
    obtain ⟨p1, p2, p3⟩ := tracePass_depths ops generateShadowRays (answers pass) packet hd
    by_cases hv : (tracePass ops generateShadowRays (answers pass) packet).validRayLeft = true
    · obtain ⟨result, passes, r1, r2, r3, r4⟩ := ih (pass + 1)
        (tracePass ops generateShadowRays (answers pass) packet) p1 (by have := p3 hv; omega)
      refine ⟨result, passes, ?_, by omega, by have := p3 hv; omega, ?_⟩
      · simp only [tracePacket, hv, if_true]
        exact r1
      · intro more
        have e : fuel + 1 + more = (fuel + more) + 1 := by omega
        rw [e]
        simp only [tracePacket, hv, if_true]
        exact r4 more
    · refine ⟨tracePass ops generateShadowRays (answers pass) packet, pass + 1, ?_, by omega,
        by omega, ?_⟩
      · simp only [tracePacket, hv]
        rfl
      · intro more
        have e : fuel + 1 + more = (fuel + more) + 1 := by omega
        rw [e]
        simp only [tracePacket, hv]
        rfl

/-- C28. Packet loop termination. For every packet of rays with depths `>= 0`
and every sequence of answers of the intersector and of random draws, the
`while (validRayLeft)` loop ends after at least one and at most `1 + (sum of
the depths of the rays)` passes: run for that many passes, or more, it has
ended. A pass leaves `validRayLeft` set only when it lowered the depth of some
ray to a value that is still `> 0`, and no pass raises a depth. -/
theorem C28_packet_loop_terminates {V S : Type} (ops : FloatOps V S)
    (generateShadowRays : actor.Ray V (RayFields S) → V → List (actor.Ray V (RayFields S)))
    (answers : Nat → PassAnswers V S) (rays : List (actor.Ray V (RayFields S)))
    (localDispatch : List (actor.Ray V (RayFields S)))
    (hdepth : ∀ r ∈ rays, 0 ≤ r.rest.depth ∧ r.rest.depth ≤ 2147483647) :
    ∃ result passes,
      tracePacket ops generateShadowRays answers
          (1 + (rays.map (fun r => r.rest.depth.toNat)).sum) 0
          (Packet.start rays localDispatch) = some (result, passes) ∧
      1 ≤ passes ∧ passes ≤ 1 + (rays.map (fun r => r.rest.depth.toNat)).sum ∧
      ∀ more, tracePacket ops generateShadowRays answers
          (1 + (rays.map (fun r => r.rest.depth.toNat)).sum + more) 0
          (Packet.start rays localDispatch) = some (result, passes) := by
  have hsum : Packet.depths (Packet.start rays localDispatch).rays =
      (rays.map (fun r => r.rest.depth.toNat)).sum := by
    simp only [Packet.depths, Packet.start, List.map_map]
    rfl
  have hd : ∀ x ∈ (Packet.start rays localDispatch).rays,
      0 ≤ x.1.rest.depth ∧ x.1.rest.depth ≤ 2147483647 := by
    intro x hx
    simp only [Packet.start, List.mem_map] at hx
    obtain ⟨r, hr, rfl⟩ := hx
    exact hdepth r hr
  obtain ⟨result, passes, r1, r2, r3, r4⟩ := tracePacket_ends ops generateShadowRays answers
    (1 + (rays.map (fun r => r.rest.depth.toNat)).sum) 0 (Packet.start rays localDispatch) hd
    (by rw [hsum]; omega)
  rw [hsum] at r3
  exact ⟨result, passes, r1, by omega, by omega, r4⟩

theorem C28_packet_loop_terminates_witness :
    (tracePacket intFloatOps noShadowRays firstRayHits 5 0 twoRayPacket).map (fun x => x.2) =
      some 3 ∧
    ∃ result passes,
      tracePacket intFloatOps noShadowRays firstRayHits
          (1 + ([primaryRay 3 0, primaryRay 1 1].map (fun r => r.rest.depth.toNat)).sum) 0
          (Packet.start [primaryRay 3 0, primaryRay 1 1] []) = some (result, passes) ∧
      1 ≤ passes ∧
      passes ≤ 1 + ([primaryRay 3 0, primaryRay 1 1].map (fun r => r.rest.depth.toNat)).sum ∧
      ∀ more, tracePacket intFloatOps noShadowRays firstRayHits
          (1 + ([primaryRay 3 0, primaryRay 1 1].map (fun r => r.rest.depth.toNat)).sum + more) 0
          (Packet.start [primaryRay 3 0, primaryRay 1 1] []) = some (result, passes) :=
  ⟨by decide,
    C28_packet_loop_terminates intFloatOps noShadowRays firstRayHits
      [primaryRay 3 0, primaryRay 1 1] [] (by decide)⟩

/-! ## Work chunking of the adapter -/

theorem workRanges_cover (rayListSize workSize : Nat) (hws : 0 < workSize) (fuel : Nat) :
    ∀ sharedIdx, rayListSize < sharedIdx + fuel →
      (workRanges rayListSize workSize fuel sharedIdx).flatMap
          (fun c => List.range' c.1 (c.2 - c.1)) =
        List.range' sharedIdx (rayListSize - sharedIdx) := by
  induction fuel with
  | zero =>
    intro s h
    have : rayListSize - s = 0 := by omega
    simp [workRanges, this]
  | succ fuel ih =>
    intro s h
    unfold workRanges
    by_cases hs : s < rayListSize
    · have hr : workRange rayListSize workSize s =
          some (s, if s + workSize > rayListSize then rayListSize else s + workSize) := by
        unfold workRange
        rw [if_neg (by omega)]
        simp only []
        split_ifs <;> rfl
      rw [if_pos hs, hr]
      simp only [List.flatMap_cons]
      rw [ih (s + workSize) (by omega)]
      by_cases hlast : s + workSize > rayListSize
      · rw [if_pos hlast]
        have : rayListSize - (s + workSize) = 0 := by omega
        simp [this]
      · rw [if_neg hlast]
        have e1 : s + workSize - s = workSize := by omega
        rw [e1, List.range'_append_1]
        congr 1
        omega
    · rw [if_neg hs]
      have : rayListSize - s = 0 := by omega
      simp [this]

theorem packetRanges_cover (packetSize workEnd : Nat) (hps : 0 < packetSize) (fuel : Nat) :
    ∀ localIdx, workEnd < localIdx + fuel →
      (packetRanges packetSize workEnd fuel localIdx).flatMap (fun p => List.range' p.1 p.2) =
        List.range' localIdx (workEnd - localIdx) ∧
      ∀ p ∈ packetRanges packetSize workEnd fuel localIdx, 0 < p.2 ∧ p.2 ≤ packetSize := by
  induction fuel with
  | zero =>
    intro s h
    have : workEnd - s = 0 := by omega
    simp [packetRanges, this]
  | succ fuel ih =>
    intro s h
    unfold packetRanges
    by_cases hs : s < workEnd
    · obtain ⟨i1, i2⟩ := ih (s + packetSize) (by omega)
      rw [if_pos hs]
      simp only [List.flatMap_cons, List.mem_cons]
      rw [i1]
      by_cases hlast : s + packetSize > workEnd
      · rw [if_pos hlast]
        have : workEnd - (s + packetSize) = 0 := by omega
        refine ⟨by simp [this], ?_⟩
        rintro p (rfl | hp)
        · simp only []
          omega
        · exact i2 p hp
      · rw [if_neg hlast]
        refine ⟨?_, ?_⟩
        · rw [List.range'_append_1]
          congr 1
          omega
        · rintro p (rfl | hp)
          · simp only []
            omega
          · exact i2 p hp
    · rw [if_neg hs]
      have : workEnd - s = 0 := by omega
      simp [this]

/-- C25. Work chunking. For `N` rays and `T >= 1` threads the divisor
`numThreads * 8` is not zero and the chunk size is `max(8, floor(N / (8 T)))`; every ray index below `N` lies in the chunk
`[s, min(s + chunk, N))` of exactly one of the fetch-add values `s = 0, chunk,
2 chunk, ...`, and a thread that runs alone claims these chunks in order, one
after the other, covering `0 .. N - 1` exactly once; within a chunk the
packets `[i, min(i + 64, chunkEnd))` hold at most 64 rays each and cover the
indices of the chunk exactly once, in order. -/
theorem C25_work_chunking (N T : Nat) (hT : 1 ≤ T) :
    0 < T * 8 ∧
    workSize N T = max 8 (N / (8 * T)) ∧
    (∀ i, i < N → ∃ k, workRange N (workSize N T) (k * workSize N T) =
          some (k * workSize N T, min (k * workSize N T + workSize N T) N) ∧
        k * workSize N T ≤ i ∧ i < min (k * workSize N T + workSize N T) N ∧
        ∀ k2, k2 * workSize N T ≤ i ∧ i < min (k2 * workSize N T + workSize N T) N → k2 = k) ∧
    (workRanges N (workSize N T) (N + 1) 0).flatMap (fun c => List.range' c.1 (c.2 - c.1)) =
      List.range N ∧
    (∀ workStart workEnd,
      (packetRanges 64 workEnd (workEnd + 1) workStart).flatMap (fun p => List.range' p.1 p.2) =
        List.range' workStart (workEnd - workStart) ∧
      ∀ p ∈ packetRanges 64 workEnd (workEnd + 1) workStart, 0 < p.2 ∧ p.2 ≤ 64) := by
  have hws : 8 ≤ workSize N T := by
    unfold workSize
    exact le_max_left _ _
  refine ⟨by omega, ?_, ?_, ?_, ?_⟩
  · unfold workSize
    rw [Nat.mul_comm T 8]
  · intro i hi
    generalize workSize N T = ws at hws
    refine ⟨i / ws, ?_, ?_, ?_, ?_⟩
    · have h1 : i / ws * ws ≤ i := Nat.div_mul_le_self i ws
      unfold workRange
      rw [if_neg (by omega)]
      simp only []
      split_ifs with h
      · rw [Nat.min_eq_right (by omega)]
      · rw [Nat.min_eq_left (by omega)]
    · exact Nat.div_mul_le_self i ws
    · have h2 : i < i / ws * ws + ws := by
        have := Nat.lt_div_mul_add (a := i) (b := ws) (by omega)
        omega
      exact lt_min h2 hi
    · rintro k2 ⟨a1, a2⟩
      have a3 : i < k2 * ws + ws := lt_of_lt_of_le a2 (min_le_left _ _)
      have hpos : 0 < ws := by omega
      apply le_antisymm
      · rw [Nat.le_div_iff_mul_le hpos]
        exact a1
      · have : i / ws < k2 + 1 := by
          rw [Nat.div_lt_iff_lt_mul hpos]
          have e : (k2 + 1) * ws = k2 * ws + ws := by ring
          omega
        omega
  · have h := workRanges_cover N (workSize N T) (by omega) (N + 1) 0 (by omega)
    rw [h, List.range_eq_range']
    rfl
  · intro workStart workEnd
    exact packetRanges_cover 64 workEnd (by decide) (workEnd + 1) workStart (by omega)

theorem C25_work_chunking_witness :
    (1 : Nat) ≤ 2 ∧ workSize 200 2 = 12 ∧
    (workRanges 20 (workSize 20 2) 21 0) = [(0, 8), (8, 16), (16, 20)] ∧
    packetRanges 64 150 151 0 = [(0, 64), (64, 64), (128, 22)] ∧
    workSize 20 2 = max 8 (20 / (8 * 2)) :=
  ⟨by decide, by decide, by decide, by decide, (C25_work_chunking 20 2 (by decide)).2.1⟩

/-! ## Message framing -/

theorem length_le64 (x : Int) : (le64 x).length = 8 := by
  simp [le64]

theorem length_header_bytes (h : Message.header) : h.bytes.length = 40 := by
  simp [Message.header.bytes, length_le64]

theorem length_allocate (msg : Message) (n : Nat) : (msg.allocate n).length = n := by
  unfold Message.allocate
  split_ifs <;> simp

/-- The two copies of `setMessage` and the store of the size, on buffers cut
into their fields. -/
theorem memcpy_frame (P A B C D E X c : List Nat) (hA : A.length = 8) (hB : B.length = 8)
    (hC : C.length = 8) (hD : D.length = 8) (hE : E.length = 8) (hX : X.length = 8)
    (hc : c.length = P.length + 40) :
    memcpy (memcpy (memcpy c 0 P P.length) P.length (A ++ B ++ C ++ D ++ E) 40)
        (P.length + 40 - 40 + 16) X 8 =
      P ++ (A ++ B ++ X ++ D ++ E) := by
  have h1 : memcpy c 0 P P.length = P ++ c.drop P.length := by
    simp [memcpy]
  have h2 : memcpy (P ++ c.drop P.length) P.length (A ++ B ++ C ++ D ++ E) 40 =
      P ++ (A ++ B ++ C ++ D ++ E) := by
    have hl : (A ++ B ++ C ++ D ++ E).length = 40 := by simp [hA, hB, hC, hD, hE]
    have hd : (P ++ c.drop P.length).drop (P.length + 40) = [] := by
      apply List.drop_of_length_le
      simp [hc]
    unfold memcpy
    rw [hd, List.take_left', List.append_nil, List.take_of_length_le (by omega)]
    rfl
  have h3 : memcpy (P ++ (A ++ B ++ C ++ D ++ E)) (P.length + 40 - 40 + 16) X 8 =
      P ++ (A ++ B ++ X ++ D ++ E) := by
    have e1 : P.length + 40 - 40 + 16 = (P ++ (A ++ B)).length := by simp [hA, hB]
    have e2 : P.length + 40 - 40 + 16 + 8 = (P ++ (A ++ B) ++ C).length := by
      simp [hA, hB, hC]
    have r1 : P ++ (A ++ B ++ C ++ D ++ E) = (P ++ (A ++ B)) ++ (C ++ (D ++ E)) := by
      simp [List.append_assoc]
    have r2 : P ++ (A ++ B ++ C ++ D ++ E) = (P ++ (A ++ B) ++ C) ++ (D ++ E) := by
      simp [List.append_assoc]
    unfold memcpy
    rw [e2]
    nth_rewrite 1 [r1]
    rw [e1, List.take_left', r2, List.drop_left', List.take_of_length_le (by omega)]
    · simp [List.append_assoc]
    · rfl
    · rfl
  rw [h1, h2, h3]

/-- C26, as stated, fails: the buffer that `setMessage` builds for the two
payload bytes 7 and 8 starts with the payload, not with the header; the header
comes after it. -/
theorem C26_message_framing_counterexample :
    (Message.setMessage 1 (fun (x : Nat) => [x]) emptyMessage header01 [7, 8] 2).content =
      [7, 8] ++ ({ header01 with USER_MSG_SIZE := 2 } : Message.header).bytes ∧
    (Message.setMessage 1 (fun (x : Nat) => [x]) emptyMessage header01 [7, 8] 2).content ≠
      ({ header01 with USER_MSG_SIZE := 2 } : Message.header).bytes ++ [7, 8] ∧
    (Message.setMessage 1 (fun (x : Nat) => [x]) emptyMessage header01 [7, 8] 2).content.take 2 =
      [7, 8] ∧
    ({ header01 with USER_MSG_SIZE := 2 } : Message.header).bytes.take 2 = [1, 0] := by
  decide

/-- C26, amended. For a payload of `n` elements of type `T`, the buffer built
by `setMessage` consists of the `n * sizeof(T)` payload bytes, equal to the
source elements, followed by the `sizeof(header)` bytes of the header
`{USER_TAG, SYSTEM_TAG, USER_MSG_SIZE, dst, src}`, in which `USER_MSG_SIZE` is
`n * sizeof(T)`; its length is `buffer_size() = sizeof(header) + n * sizeof(T)`. -/
theorem C26_message_framing_amended {T : Type} (sizeofT : Nat) (repr : T → List Nat)
    (msg : Message) (mhi : Message.header) (orig : List T) (n : Nat)
    (hrepr : ∀ x, (repr x).length = sizeofT) (hn : orig.length = n) :
    (Message.setMessage sizeofT repr msg mhi orig n).content =
      orig.flatMap repr ++
        ({ mhi with USER_MSG_SIZE := n * sizeofT } : Message.header).bytes ∧
    (Message.setMessage sizeofT repr msg mhi orig n).buffer_size =
      Message.sizeof_header + n * sizeofT ∧
    (Message.setMessage sizeofT repr msg mhi orig n).content.length =
      (Message.setMessage sizeofT repr msg mhi orig n).buffer_size ∧
    (Message.setMessage sizeofT repr msg mhi orig n).content.take (n * sizeofT) =
      orig.flatMap repr ∧
    (Message.setMessage sizeofT repr msg mhi orig n).content.drop (n * sizeofT) =
      ({ mhi with USER_MSG_SIZE := n * sizeofT } : Message.header).bytes := by
  have hP : (orig.flatMap repr).length = sizeofT * n := by
    rw [← hn]
    clear hn
    induction orig with
    | nil => simp
    | cons x rest ih =>
      rw [List.flatMap_cons, List.length_append, ih, hrepr, List.length_cons]
      ring
  have hcontent : (Message.setMessage sizeofT repr msg mhi orig n).content =
      orig.flatMap repr ++
        ({ mhi with USER_MSG_SIZE := n * sizeofT } : Message.header).bytes := by
    unfold Message.setMessage Message.size Message.sizeof_header
    simp only [Message.header.bytes]
    rw [← hP, Nat.mul_comm n sizeofT, ← hP]
    exact memcpy_frame _ _ _ _ _ _ _ _ (length_le64 _) (length_le64 _) (length_le64 _)
      (length_le64 _) (length_le64 _) (length_le64 _) (by rw [length_allocate])
  refine ⟨hcontent, ?_, ?_, ?_, ?_⟩
  · simp only [Message.buffer_size, Message.setMessage, Message.size]
    rw [Nat.mul_comm, Nat.add_comm]
  · rw [hcontent, List.length_append, hP, length_header_bytes]
    simp only [Message.buffer_size, Message.setMessage, Message.size, Message.sizeof_header]
  · rw [hcontent, Nat.mul_comm n sizeofT, ← hP, List.take_left']
    rfl
  · rw [hcontent, Nat.mul_comm n sizeofT, ← hP, List.drop_left']
    rfl

theorem C26_message_framing_amended_witness :
    (∀ x : Nat, ([x] : List Nat).length = 1) ∧ ([7, 8] : List Nat).length = 2 ∧
    (Message.setMessage 1 (fun (x : Nat) => [x]) emptyMessage header01 [7, 8] 2).buffer_size =
      Message.sizeof_header + 2 * 1 :=
  ⟨fun _ => rfl, rfl,
    (C26_message_framing_amended 1 (fun (x : Nat) => [x]) emptyMessage header01 [7, 8] 2
      (fun _ => rfl) rfl).2.1⟩

/-! ## Counters of the coordinator -/

theorem countersOK_tick (v : TpcVoter) (d : Bool) (h : CountersOK v) :
    CountersOK (v.updateState d).voter ∧
    ((v.updateState d).voter.numVotesReceived = v.numVotesReceived ∨
      (v.updateState d).voter.numVotesReceived = 0) ∧
    (v.updateState d).voter.mpi = v.mpi := by
  obtain ⟨c0, c1, c2⟩ := h
  unfold TpcVoter.updateState
  cases hs : v.state
  · simp only []
    split_ifs
    · exact ⟨⟨c0, c1, c2⟩, Or.inl rfl, rfl⟩
    · exact ⟨⟨c0, c1, c2⟩, Or.inl rfl, rfl⟩
  · simp only []
    split_ifs
    · exact ⟨⟨le_refl _, le_refl _, fun h => absurd h (by simp)⟩, Or.inr rfl, rfl⟩
    · exact ⟨⟨le_refl _, le_refl _, fun h => absurd h (by simp)⟩, Or.inr rfl, rfl⟩
    · exact ⟨⟨c0, c1, c2⟩, Or.inl rfl, rfl⟩
  · simp only []
    split_ifs
    · exact ⟨⟨c0, c1, c2⟩, Or.inl rfl, rfl⟩
    · exact ⟨⟨c0, c1, c2⟩, Or.inl rfl, rfl⟩
    · exact ⟨⟨c0, c1, c2⟩, Or.inl rfl, rfl⟩
  · simp only []
    split_ifs
    · exact ⟨⟨c0, c1, c2⟩, Or.inl rfl, rfl⟩
    · exact ⟨⟨c0, c1, c2⟩, Or.inl rfl, rfl⟩
    · exact ⟨⟨c0, c1, c2⟩, Or.inl rfl, rfl⟩
  · exact ⟨⟨le_refl _, le_refl _, fun h => absurd h (by simp [TpcVoter.reset])⟩, Or.inr rfl, rfl⟩

theorem countersOK_vote (v : TpcVoter) (t : VoteType) (h : CountersOK v)
    (hmax : v.numVotesReceived < 2147483647) :
    CountersOK (receiveVote v t) ∧
    (receiveVote v t).numVotesReceived ≤ v.numVotesReceived + 1 ∧
    (receiveVote v t).mpi = v.mpi := by
  obtain ⟨c0, c1, c2⟩ := h
  have hw1 : wrapInt (v.numVotesReceived + 1) = v.numVotesReceived + 1 :=
    wrapInt_of_isInt32 (by unfold IsInt32; omega)
  have hw2 : wrapInt (v.commitVoteCount + 1) = v.commitVoteCount + 1 :=
    wrapInt_of_isInt32 (by unfold IsInt32; omega)
  cases t
  · exact ⟨⟨c0, c1, c2⟩, by simp only [receiveVote, TpcVoter.setProposeAvailable]; omega, rfl⟩
  · exact ⟨⟨c0, c1, c2⟩, by simp only [receiveVote, TpcVoter.commit]; omega, rfl⟩
  · exact ⟨⟨c0, c1, c2⟩, by simp only [receiveVote, TpcVoter.abort]; omega, rfl⟩
  · unfold CountersOK
    simp only [receiveVote, TpcVoter.voteCommit, hw1, hw2]
    refine ⟨⟨by omega, by omega, ?_⟩, le_refl _, trivial⟩
    split_ifs with h
    · intro _; omega
    · intro h2; have := c2 h2; omega
  · unfold CountersOK
    simp only [receiveVote, TpcVoter.voteAbort, hw1]
    refine ⟨⟨c0, by omega, ?_⟩, le_refl _, trivial⟩
    split_ifs with h
    · intro _; omega
    · intro h2; have := c2 h2; omega

theorem countersOK_run (es : List VoterEvent) :
    ∀ (v0 v : TpcVoter) (k : Int), CountersOK v0 → v0.numVotesReceived ≤ k →
      k + es.length ≤ 2147483647 → runVoter v0 es = some v →
      CountersOK v ∧ v.numVotesReceived ≤ k + es.length ∧ v.mpi = v0.mpi := by
  induction es with
  | nil =>
    intro v0 v k h0 hk _ hrun
    simp only [runVoter, Option.some.injEq] at hrun
    subst hrun
    exact ⟨h0, by simpa using hk, rfl⟩
  | cons e rest ih =>
    intro v0 v k h0 hk hlen hrun
    have hl : (((e :: rest).length : Nat) : Int) = (rest.length : Int) + 1 := by simp
    rw [hl] at hlen ⊢
    simp only [runVoter] at hrun
    cases he : e.apply v0 with
    | none => rw [he] at hrun; simp at hrun
    | some v1 =>
      rw [he] at hrun
      simp only [Option.some_bind] at hrun
      have hk0 : 0 ≤ k := le_trans (le_trans h0.1 h0.2.1) hk
      have hstep : CountersOK v1 ∧ v1.numVotesReceived ≤ k + 1 ∧ v1.mpi = v0.mpi := by
        cases e with
        | tick d =>
          simp only [VoterEvent.apply, Option.some.injEq] at he
          subst he
          obtain ⟨t1, t2, t3⟩ := countersOK_tick v0 d h0
          refine ⟨t1, ?_, t3⟩
          rcases t2 with t2 | t2 <;> rw [t2] <;> omega
        | vote t =>
          simp only [VoterEvent.apply, Option.some.injEq] at he
          subst he
          obtain ⟨t1, t2, t3⟩ := countersOK_vote v0 t h0 (by omega)
          exact ⟨t1, by omega, t3⟩
        | add_pending n =>
          simp only [VoterEvent.apply, Option.some.injEq] at he
          subst he
          exact ⟨h0, by simp only [TpcVoter.addNumPendingRays]; omega, rfl⟩
        | sub_pending n =>
          simp only [VoterEvent.apply, TpcVoter.subtractNumPendingRays] at he
          split_ifs at he
          simp only [Option.some.injEq] at he
          subst he
          exact ⟨h0, by simp only []; omega, rfl⟩
      obtain ⟨s1, s2, s3⟩ := hstep
      obtain ⟨r1, r2, r3⟩ := ih v1 v (k + 1) s1 s2 (by omega) hrun
      exact ⟨r1, by omega, by rw [r3, s3]⟩

/-- C27, as stated, fails: on the coordinator of a three-rank world a
`VOTE_COMMIT` that arrives before the tick that proposes stays counted; when
the two votes of the round, `VOTE_ABORT` and `VOTE_COMMIT`, have arrived, the
consensus test `commitVoteCount = size - 1` is true although a `VOTE_ABORT`
was received in the round, and the next tick broadcasts `DO_COMMIT`. -/
theorem C27_vote_counter_counterexample :
    (runVoter (TpcVoter.new mpi03) (staleVoteCalls.take 2)).map (fun v => v.state) =
      some State.PROPOSE ∧
    staleVoteCalls.drop 2 =
      [VoterEvent.vote VoteType.VOTE_ABORT, VoterEvent.vote VoteType.VOTE_COMMIT] ∧
    (runVoter (TpcVoter.new mpi03) staleVoteCalls).map
        (fun v => (v.achievedConsensus, v.allVotesAvailable, v.commitVoteCount,
          v.numVotesReceived)) = some (true, true, 2, 3) ∧
    (runVoter (TpcVoter.new mpi03) staleVoteCalls).map (fun v => (v.updateState true).sent) =
      some [VoteSend.SendAllOther { voteWorkType := VoteType.DO_COMMIT, sender := 0 }] := by
  decide

/-- C27, amended. In every configuration reachable from construction by a
sequence of ticks and vote events (of any other call too) that is short enough
for the counters to stay within an `int`, `0 <= commitVoteCount <=
numVotesReceived`, and `allVotesAvailable` implies `numVotesReceived >= size -
1`; and in a round that starts with both counters at 0 (state `PROPOSE`, no
vote counted), when exactly `size - 1` votes have arrived the consensus test
`commitVoteCount = size - 1` is true if and only if no `VOTE_ABORT` was
among them. -/
theorem C27_vote_counter_amended (mpi : MpiInfo) (es : List VoterEvent) (v : TpcVoter)
    (hlen : (es.length : Int) ≤ 2147483647)
    (hrun : runVoter (TpcVoter.new mpi) es = some v) :
    (0 ≤ v.commitVoteCount ∧ v.commitVoteCount ≤ v.numVotesReceived ∧
      (v.allVotesAvailable = true → v.mpi.size - 1 ≤ v.numVotesReceived)) ∧
    (∀ vs : List VoteType, RoundStart v → 2 ≤ v.mpi.size → v.mpi.size ≤ 2147483647 →
      (∀ x ∈ vs, x = VoteType.VOTE_COMMIT ∨ x = VoteType.VOTE_ABORT) →
      (vs.length : Int) = v.mpi.size - 1 →
      (receiveVotes v vs).allVotesAvailable = true ∧
      ((receiveVotes v vs).achievedConsensus = true ↔ VoteType.VOTE_ABORT ∉ vs)) := by
  have h0 : CountersOK (TpcVoter.new mpi) := by
    unfold CountersOK TpcVoter.new
    simp
  obtain ⟨r1, _, _⟩ := countersOK_run es (TpcVoter.new mpi) v 0 h0 (by simp [TpcVoter.new])
    (by omega) hrun
  refine ⟨r1, ?_⟩
  intro vs hstart hs2 hsmax hvs hl
  obtain ⟨_, hn, hc, hf⟩ := hstart
  obtain ⟨_, a2, _, a4, a5⟩ := receiveVotes_counters vs v hvs (by omega) (by omega) (by omega)
    hsmax
  have hne : vs ≠ [] := by
    intro he
    rw [he] at hl
    simp at hl
    omega
  refine ⟨?_, ?_⟩
  · rw [a5, hf, hn]
    simp only [Bool.false_or, decide_eq_true_eq]
    exact ⟨hne, by omega⟩
  · unfold TpcVoter.achievedConsensus
    rw [a4, a2, hc, beq_iff_eq]
    have hcl : (0 : Int) + (vs.count VoteType.VOTE_COMMIT : Int) = v.mpi.size - 1 ↔
        vs.count VoteType.VOTE_COMMIT = vs.length := by
      constructor <;> intro h <;> omega
    rw [hcl, List.count_eq_length]
    constructor
    · intro hall hmem
      have := hall _ hmem
      exact absurd this (by decide)
    · intro hno x hx
      rcases hvs x hx with h | h
      · exact h.symm
      · rw [h] at hx
        exact absurd hx hno

theorem C27_vote_counter_amended_witness :
    ((staleVoteCalls.length : Nat) : Int) ≤ 2147483647 ∧
    (runVoter (TpcVoter.new mpi03) staleVoteCalls).isSome = true ∧
    (runVoter (TpcVoter.new mpi03) staleVoteCalls).map
      (fun v => decide (0 ≤ v.commitVoteCount ∧ v.commitVoteCount ≤ v.numVotesReceived)) =
        some true := by
  refine ⟨by decide, by decide, ?_⟩
  cases hv : runVoter (TpcVoter.new mpi03) staleVoteCalls with
  | none =>
    have h : (runVoter (TpcVoter.new mpi03) staleVoteCalls).isSome = true := by decide
    rw [hv] at h
    exact absurd h (by simp)
  | some v =>
    have h := (C27_vote_counter_amended mpi03 staleVoteCalls v (by decide) hv).1
    simp only [Option.map_some', Option.some.injEq, decide_eq_true_eq]
    exact ⟨h.1, h.2.1⟩

/-! ## Hemisphere sampling -/

theorem dot_cross_self {K : Type} [CommRing K] (a b : Vector3 K) :
    (a.cross b).dot b = 0 := by
  simp only [Vector3.cross, Vector3.dot]
  ring

/-- C30. Hemisphere sampling. In exact arithmetic, for every normal `n` and
all coefficients `xs`, `ys`, `zs`, the un-normalised direction `x xs + n ys +
z zs` satisfies `direction . n = ys (n . n)`; with `ys >= 0` this is `>= 0`,
and so is the product `w ((c direction) . n)` for every weight `w >= 0` and
every factor `c >= 0` that the normalisation applies: the weight update cannot
make a non-negative weight negative. -/
theorem C30_hemisphere_sampling {K : Type} [LinearOrderedCommRing K] (n : Vector3 K)
    (xs ys zs : K) (hys : 0 ≤ ys) :
    (CosWeightedRandomHemisphereDirection2 n xs ys zs).dot n = ys * n.dot n ∧
    0 ≤ (CosWeightedRandomHemisphereDirection2 n xs ys zs).dot n ∧
    ∀ w c : K, 0 ≤ w → 0 ≤ c →
      0 ≤ w * ((CosWeightedRandomHemisphereDirection2 n xs ys zs).scale c).dot n := by
  have hnn : 0 ≤ n.dot n := by
    simp only [Vector3.dot]
    nlinarith [mul_self_nonneg n.x, mul_self_nonneg n.y, mul_self_nonneg n.z]
  have hd : (CosWeightedRandomHemisphereDirection2 n xs ys zs).dot n = ys * n.dot n := by
    unfold CosWeightedRandomHemisphereDirection2
    simp only []
    split_ifs <;> simp only [Vector3.cross, Vector3.dot, Vector3.scale, Vector3.add] <;> ring
  refine ⟨hd, ?_, ?_⟩
  · rw [hd]
    exact mul_nonneg hys hnn
  · intro w c hw hc
    have hs : ((CosWeightedRandomHemisphereDirection2 n xs ys zs).scale c).dot n =
        c * (CosWeightedRandomHemisphereDirection2 n xs ys zs).dot n := by
      simp only [Vector3.dot, Vector3.scale]
      ring
    rw [hs, hd]
    exact mul_nonneg hw (mul_nonneg hc (mul_nonneg hys hnn))

theorem C30_hemisphere_sampling_witness :
    CosWeightedRandomHemisphereDirection2 ({ x := 0, y := 0, z := 2 } : Vector3 Int) 1 3 1 =
      { x := -4, y := -2, z := 6 } ∧
    (CosWeightedRandomHemisphereDirection2 ({ x := 0, y := 0, z := 2 } : Vector3 Int) 1 3 1).dot
        { x := 0, y := 0, z := 2 } =
      3 * (({ x := 0, y := 0, z := 2 } : Vector3 Int).dot { x := 0, y := 0, z := 2 }) :=
  ⟨by decide, (C30_hemisphere_sampling _ 1 3 1 (by decide)).1⟩

end GraviT
